import Mathlib

/-!
# Huffman coding (`src/Huffman.cpp`): shallow embedding and verified properties

Modelling conventions.

* A C++ `char` of the input text is a natural number (its byte value); `isascii` holds
  exactly for the values below 128.
* A `std::string` made of the characters `'0'` and `'1'` is a `List Char`.
* An `int` is an integer between `-2^31` and `2^31 - 1`. Every operation of the program on
  `int` values (`count++`, `freq[ch]++`, `left->freq + right->freq`, `bitCountMap[...]++`,
  `freqBitCountMap[...] += ...`, `index++`, `(int)str.size() - 2`) is the operation on
  integers followed by `int32`, the reduction to 32 bits in two's complement, so that a
  counter that passes `2^31 - 1` continues at `-2^31`. Texts of `2^31` symbols and more are
  therefore inputs of the model like any other.
* A `size_t` (`text.length() * 8`, `encodedText.length()`, the length of a string) is a
  natural number: its 64 bits are beyond the size of any string in memory. The keys of
  `bitCountMap` and `freqBitCountMap` are lengths of codes and are kept as natural numbers
  (`table_length_lt`: the codes of a built tree are shorter than 128 bits).
* A `Node*` is a value of the inductive type `Node`: the null pointer or a node with its four
  fields. The program never shares or mutates a node after `getNode`.
* `std::unordered_map` is an association list with unique keys (`UMap`); the order in which a
  range-for visits it is left open by the C++ standard and is a parameter (`Stl.iter`).
* `std::priority_queue<Node*, vector<Node*>, comp>` is a parameter as well (`Stl`): any
  implementation whose `top` is an element that `comp` does not order after another element.
  Which of several minimal nodes is returned is therefore not fixed by the model.
* Undefined behaviour (`top`/`pop` of an empty queue, `str[i]` past the terminator) is an
  explicit error value.
* Output written to `cout` by `decode` is the list of the characters written; the field
  `decoded` of the result of a run is that list, or the error on which the decode loop stopped.
-/

namespace Huffman

/-! ## Data model -/

/-- The ways a run of `buildHuffmanTree` can fail to run to completion. -/
inductive Err
  /-- The call `printError("Input text contains non-ASCII characters.")` and `return`. -/
  | nonAscii
  /-- A call of `pq.top()` or `pq.pop()` on an empty queue: undefined behaviour. -/
  | emptyQueue
  /-- A read `str[index]` with `index` outside `0 .. str.size()`: undefined behaviour. -/
  | outOfRange
  /-- The bound on the number of loop iterations of the model was not enough. -/
  | fuel
  deriving DecidableEq

/-- The value that an integer has as an `int` of the source (32 bits, two's complement).
Every arithmetic operation of the program on `int` variables is the operation on integers
followed by `int32`, so that it wraps around at `2^31`; so is the conversion `(int)` of a
`size_t`. The value is the residue modulo `2^32` that lies between `-2^31` and `2^31 - 1`: the
residue `r` between `0` and `2^32 - 1` itself when `r < 2^31`, and `r - 2^32` otherwise. -/
@[irreducible] def int32 (x : Int) : Int :=
  if (x % 4294967296).toNat < 2147483648 then x % 4294967296 else x % 4294967296 - 4294967296

/-- A `Node*` of the source: `nullptr`, or a `Node` with fields `ch`, `freq`, `left`, `right`. -/
inductive Node
  | null
  | node (ch : Nat) (freq : Int) (left right : Node)
  deriving DecidableEq

instance : Inhabited Node := ⟨Node.null⟩

/-- The test `!p` on a pointer. -/
def Node.isNull : Node → Bool
  | .null => true
  | .node _ _ _ _ => false

/-- The field access `p->freq` (never evaluated on `nullptr` by the program). -/
def Node.freq : Node → Int
  | .null => 0
  | .node _ f _ _ => f

/-- The field access `p->ch`. -/
def Node.ch : Node → Nat
  | .null => 0
  | .node c _ _ _ => c

/-- The leaf test of `encode` and `decode`: `!root->left && !root->right`. -/
def Node.isLeaf : Node → Bool
  | .null => false
  | .node _ _ l r => l.isNull && r.isNull

/-- The field access `p->left`. -/
def Node.left : Node → Node
  | .null => .null
  | .node _ _ l _ => l

/-- The field access `p->right`. -/
def Node.right : Node → Node
  | .null => .null
  | .node _ _ _ r => r

/-- Function to allocate a new tree node. -/
def getNode (ch : Nat) (freq : Int) (left right : Node) : Node :=
  Node.node ch freq left right

/-- Comparison object to be used to order the heap: `l->freq > r->freq`. -/
def comp (l r : Node) : Bool :=
  decide (l.freq > r.freq)

/-- An `unordered_map<K, V>` with integral keys: association list with unique keys. -/
abbrev UMap (ν : Type) := List (Nat × ν)

/-- The value stored under `k`, if any. -/
def UMap.find {ν : Type} : UMap ν → Nat → Option ν
  | [], _ => none
  | (k', v) :: m, k => if k' = k then some v else UMap.find m k

/-- Reading `m[k]`, where `d` is the value-initialised default (rvalue use). -/
def UMap.get {ν : Type} (m : UMap ν) (k : Nat) (d : ν) : ν :=
  (m.find k).getD d

/-- Writing through `m[k]`: the entry is created with the default `d` when absent, then `f`
is applied to it (`m[k]++`, `m[k] += x`, `m[k] = x`). -/
def UMap.modify {ν : Type} : UMap ν → Nat → ν → (ν → ν) → UMap ν
  | [], k, d, f => [(k, f d)]
  | (k', v) :: m, k, d, f =>
    if k' = k then (k', f v) :: m else (k', v) :: UMap.modify m k d f

/-- The parts of the C++ standard library whose behaviour the standard leaves open: the
priority queue (which of several minimal elements is on top) and the iteration order of an
`unordered_map`. `elems` is the multiset of the elements held by a queue. -/
structure Stl where
  /-- States of `priority_queue<Node*, vector<Node*>, comp>`. -/
  PQ : Type
  /-- The default-constructed queue. -/
  empty : PQ
  /-- The call `pq.push(x)`. -/
  push : PQ → Node → PQ
  /-- The call `pq.top()`, meaningful on a non-empty queue. -/
  top : PQ → Node
  /-- The call `pq.pop()`, meaningful on a non-empty queue. -/
  pop : PQ → PQ
  /-- The call `pq.size()`. -/
  size : PQ → Nat
  /-- The elements a queue holds. -/
  elems : PQ → Multiset Node
  elems_empty : elems empty = 0
  elems_push : ∀ q x, elems (push q x) = x ::ₘ elems q
  size_eq : ∀ q, size q = Multiset.card (elems q)
  top_mem : ∀ q, elems q ≠ 0 → top q ∈ elems q
  top_min : ∀ q, ∀ y ∈ elems q, comp (top q) y = false
  elems_pop : ∀ q, elems q ≠ 0 → elems (pop q) = (elems q).erase (top q)
  /-- The order in which `for (auto pair : m)` visits an `unordered_map`. -/
  iter : {ν : Type} → UMap ν → UMap ν
  iter_perm : ∀ {ν : Type} (m : UMap ν), (iter m).Perm m

/-! ## The functions of the source -/

/-- The test `isascii(ch)` on a byte. -/
def isascii (ch : Nat) : Bool :=
  decide (ch < 128)

/-- Traverse the Huffman Tree and store Huffman Codes (`encode`): the state threaded through
the recursion is the pair of the by-reference arguments `huffmanCode` and `order`. -/
def encode : Node → List Char → UMap (List Char) × List (Nat × List Char) →
    UMap (List Char) × List (Nat × List Char)
  | .null, _, st => st
  | .node ch _ left right, str, st =>
    let st1 :=
      if left.isNull && right.isNull then
        (UMap.modify st.1 ch [] (fun _ => str), st.2 ++ [(ch, str)])
      else st
    encode right (str ++ ['1']) (encode left (str ++ ['0']) st1)

/-- The read `str[index]` of a `std::string` through an `int` index: inside the string the
character, at `str.size()` the terminator, elsewhere undefined behaviour. -/
def strAt (str : List Char) (index : Int) : Except Err Char :=
  if index < 0 then .error .outOfRange
  else if index.toNat < str.length then .ok (str.getD index.toNat (Char.ofNat 0))
  else if index.toNat = str.length then .ok (Char.ofNat 0)
  else .error .outOfRange

/-- Traverse the Huffman Tree and decode the encoded string (`decode`): the state is the
by-reference `int index` and the characters written to `cout` so far. -/
def decode : Node → List Char → Int × List Nat → Except Err (Int × List Nat)
  | .null, _, st => .ok st
  | .node ch _ left right, str, st =>
    if left.isNull && right.isNull then .ok (st.1, st.2 ++ [ch])
    else
      let index := int32 (st.1 + 1)
      match strAt str index with
      | .error e => .error e
      | .ok c =>
        if c = '0' then decode left str (index, st.2)
        else decode right str (index, st.2)

/-- The function `countTotalCharacters`: one increment `count++` of the `int` counter per
character of the text. -/
def countTotalCharacters (text : List Nat) : Int :=
  text.foldl (fun count _ => int32 (count + 1)) 0

/-- Lines 118-124: the loop that validates each character and counts it in `freq`, an
`unordered_map<char, int>`, by `freq[ch]++`. -/
def countFrequencies : List Nat → UMap Int → Except Err (UMap Int)
  | [], freq => .ok freq
  | ch :: rest, freq =>
    if isascii ch then countFrequencies rest (UMap.modify freq ch 0 (fun v => int32 (v + 1)))
    else .error .nonAscii

/-- Lines 132-134: a leaf node for each character, pushed in the map's iteration order. -/
def fillQueue (L : Stl) (freq : UMap Int) : L.PQ :=
  (L.iter freq).foldl (fun pq pair => L.push pq (getNode pair.1 pair.2 .null .null)) L.empty

/-- Lines 137-149: `while (pq.size() != 1)` merge the two top nodes; then `root = pq.top()`.
The first argument bounds the number of iterations; the body starts with `pq.top()`, which is
undefined on an empty queue. The weight of the new node is the `int` sum of line 144. -/
def mergeLoop (L : Stl) : Nat → L.PQ → Except Err Node
  | fuel, pq =>
    if L.size pq = 1 then .ok (L.top pq)
    else if L.size pq = 0 then .error .emptyQueue
    else
      match fuel with
      | 0 => .error .fuel
      | fuel + 1 =>
        let left := L.top pq
        let pq1 := L.pop pq
        if L.size pq1 = 0 then .error .emptyQueue
        else
          let right := L.top pq1
          let pq2 := L.pop pq1
          let sum := int32 (left.freq + right.freq)
          mergeLoop L fuel (L.push pq2 (getNode 0 sum left right))

/-- Lines 129-149: the tree built from a frequency map. -/
def buildTree (L : Stl) (freq : UMap Int) : Except Err Node :=
  mergeLoop L (L.size (fillQueue L freq)) (fillQueue L freq)

/-- Lines 152-156: the code table and the traversal order obtained from the root. -/
def assignCodes (root : Node) : UMap (List Char) × List (Nat × List Char) :=
  encode root [] ([], [])

/-- Lines 165-168: the number of codes and the total frequency per code length, in the two
`unordered_map<int, int>` filled by `bitCountMap[len]++` and `freqBitCountMap[len] += freq[ch]`.
The key is the length of a code, which is the depth of a leaf. -/
def lengthStats (L : Stl) (freq : UMap Int) (huffmanCode : UMap (List Char)) :
    UMap Int × UMap Int :=
  (L.iter huffmanCode).foldl
    (fun maps pair =>
      (UMap.modify maps.1 pair.2.length 0 (fun v => int32 (v + 1)),
       UMap.modify maps.2 pair.2.length 0 (fun v => int32 (v + UMap.get freq pair.1 0))))
    ([], [])

/-- Lines 171-176: the largest code length. -/
def maxBitCount (L : Stl) (freqBitCountMap : UMap Int) : Nat :=
  (L.iter freqBitCountMap).foldl
    (fun m pair => if pair.1 > m then pair.1 else m) 0

/-- Lines 198-201 (and again 213-216): the concatenation of the codes of the text. -/
def encodeText (huffmanCode : UMap (List Char)) (text : List Nat) : List Char :=
  text.foldl (fun str ch => str ++ UMap.get huffmanCode ch []) []

/-- Lines 205-209: `while (index < (int)str.size() - 2) decode(root, index, str);`, with the
conversion of `str.size()` to `int` and the subtraction on `int`.
The first argument bounds the number of iterations. -/
def decodeLoop (root : Node) (str : List Char) : Nat → Int × List Nat →
    Except Err (Int × List Nat)
  | fuel, st =>
    if st.1 < int32 (int32 (str.length : Int) - 2) then
      match fuel with
      | 0 => .error .fuel
      | fuel + 1 =>
        match decode root str st with
        | .error e => .error e
        | .ok st1 => decodeLoop root str fuel st1
    else .ok st

/-- Lines 205-209 as a whole: the decode loop started with `index = -1` on the encoded string,
and what it writes to `cout`. The loop needs fewer iterations than the bound given here when
the root has children, since every call of `decode` then moves `index` forward. -/
def decodeText (root : Node) (str : List Char) : Except Err (List Nat) :=
  match decodeLoop root str (str.length + 1) (-1, []) with
  | .error e => .error e
  | .ok st => .ok st.2

/-- What a run of `buildHuffmanTree` computes and prints once the tree is built. The listing
`order` is kept in traversal order: the `sort` of line 159 only rearranges it for printing.
The field `decoded` is what the decode loop writes, or the undefined behaviour the loop runs
into; nothing that is printed before the loop depends on it. The lengths `bitsBefore` and
`bitsAfter` are `size_t` values, taken without a bound. The compression ratio is the quotient
of `bitsAfter` and `bitsBefore` as a percentage. -/
structure Output where
  total : Int
  freq : UMap Int
  root : Node
  huffmanCode : UMap (List Char)
  order : List (Nat × List Char)
  bitCountMap : UMap Int
  freqBitCountMap : UMap Int
  maxBitCount : Nat
  str : List Char
  decoded : Except Err (List Nat)
  bitsBefore : Nat
  bitsAfter : Nat

/-- Lines 152-224: everything `buildHuffmanTree` does once the tree is built. -/
def report (L : Stl) (text : List Nat) (freq : UMap Int) (root : Node) : Output :=
  let codes := assignCodes root
  let stats := lengthStats L freq codes.1
  let str := encodeText codes.1 text
  let encodedText := encodeText codes.1 text
  { total := countTotalCharacters text
    freq := freq
    root := root
    huffmanCode := codes.1
    order := codes.2
    bitCountMap := stats.1
    freqBitCountMap := stats.2
    maxBitCount := maxBitCount L stats.2
    str := str
    decoded := decodeText root str
    bitsBefore := text.length * 8
    bitsAfter := encodedText.length }

/-- Builds Huffman Tree and decodes the input text (`buildHuffmanTree`). -/
def buildHuffmanTree (L : Stl) (text : List Nat) : Except Err Output :=
  match countFrequencies text [] with
  | .error e => .error e
  | .ok freq =>
    match buildTree L freq with
    | .error e => .error e
    | .ok root => .ok (report L text freq root)

/-! ## Vocabulary of the statements and of their proofs -/

/-- The keys of a map, in the order of the list. -/
def UMap.keys {ν : Type} (m : UMap ν) : List Nat := m.map Prod.fst

/-- The map with every value taken as an `int`. -/
def UMap.wrap (m : UMap Int) : UMap Int := m.map (fun p => (p.1, int32 p.2))

/-- The numbers of occurrences of the symbols of `text`, counted without any bound on top of
the map `freq`, in the order of the first occurrences. -/
def tally (text : List Nat) (freq : UMap Int) : UMap Int :=
  text.foldl (fun m c => UMap.modify m c 0 (· + 1)) freq

/-- The leaf node pushed for an entry of the frequency map. -/
def leafOf (pair : Nat × Int) : Node := getNode pair.1 pair.2 .null .null

/-- The relation `Merges F R`: from a queue holding the nodes `F`, the merge loop can end
with root `R`.
Each step takes out a node of least `freq`, then a node of least `freq` among the rest, and
puts their parent in, with the `int` sum of their weights. -/
inductive Merges : Multiset Node → Node → Prop
  | done (t : Node) : Merges {t} t
  | step (F : Multiset Node) (a b R : Node)
      (ha : a ∈ F) (hamin : ∀ y ∈ F, a.freq ≤ y.freq)
      (hb : b ∈ F.erase a) (hbmin : ∀ y ∈ F.erase a, b.freq ≤ y.freq)
      (h : Merges (getNode 0 (int32 (a.freq + b.freq)) a b ::ₘ (F.erase a).erase b) R) :
      Merges F R

/-- The weights of the nodes of a queue are not negative and add up to less than `2^31`, so
that no sum of the merge loop leaves the range of `int`. -/
def Bounded (F : Multiset Node) : Prop :=
  (∀ t ∈ F, 0 ≤ t.freq) ∧ (F.map Node.freq).sum < 2147483648

/-- A strict binary tree: not null, and every node has either no child or two children that
are strict binary trees. -/
def Node.Strict : Node → Prop
  | .null => False
  | .node _ _ l r => (l = .null ∧ r = .null) ∨ (l.Strict ∧ r.Strict)

/-- The nodes of a tree, the root first. -/
def Node.nodes : Node → List Node
  | .null => []
  | .node c f l r => .node c f l r :: (l.nodes ++ r.nodes)

/-- The pairs `(ch, freq)` of the leaves of a tree, from left to right. -/
def Node.leaves : Node → List (Nat × Int)
  | .null => []
  | .node c f l r =>
    (if l.isNull && r.isNull then [(c, f)] else []) ++ (l.leaves ++ r.leaves)

/-- Every node with a child carries the sum of the `freq` of its children. -/
def Node.WeightOK : Node → Prop
  | .null => True
  | .node _ f l r =>
    ((l.isNull && r.isNull) = true ∨ f = l.freq + r.freq) ∧ l.WeightOK ∧ r.WeightOK

/-- The sum of the `freq` of the leaves. -/
def Node.lsum (t : Node) : Int := (t.leaves.map Prod.snd).sum

/-- The pairs `(ch, code)` that `encode` records for a tree, in the order it records them,
when it is entered with the accumulated string `str`. -/
def Node.codes : Node → List Char → List (Nat × List Char)
  | .null, _ => []
  | .node c _ l r, str =>
    (if l.isNull && r.isNull then [(c, str)] else []) ++
      (l.codes (str ++ ['0']) ++ r.codes (str ++ ['1']))

/-- The map obtained by the assignments `m[p.1] = p.2` for the pairs of a list, in order. -/
def UMap.assignAll (m : UMap (List Char)) (l : List (Nat × List Char)) : UMap (List Char) :=
  l.foldl (fun m p => UMap.modify m p.1 [] (fun _ => p.2)) m

/-- The shape of a strict binary tree. -/
inductive Shape
  | leaf
  | node (l r : Shape)

/-- The length of the longest path to a leaf. -/
def Shape.height : Shape → Nat
  | .leaf => 0
  | .node l r => max l.height r.height + 1

/-- The paths from the root to the leaves (`false` for left, `true` for right). -/
def Shape.paths : Shape → Finset (List Bool)
  | .leaf => {[]}
  | .node l r => l.paths.image (List.cons false) ∪ r.paths.image (List.cons true)

/-- The multiset of the weights that `w` gives to the leaves. -/
def Shape.weights (S : Shape) (w : List Bool → Int) : Multiset Int :=
  ∑ p ∈ S.paths, ({w p} : Multiset Int)

/-- The weighted path length of a shape whose leaves carry the weights `w`. -/
def Shape.cost (S : Shape) (w : List Bool → Int) : Int :=
  ∑ p ∈ S.paths, w p * (p.length : Int)

/-- The parent of a pair of sibling leaves of greatest depth. -/
def Shape.deep : Shape → List Bool
  | .leaf => []
  | .node l r =>
    if l.height = 0 ∧ r.height = 0 then []
    else if r.height ≤ l.height then false :: l.deep
    else true :: r.deep

/-- The shape with the two leaves below `deep` removed, so that `deep` becomes a leaf. -/
def Shape.prune : Shape → Shape
  | .leaf => .leaf
  | .node l r =>
    if l.height = 0 ∧ r.height = 0 then .leaf
    else if r.height ≤ l.height then .node l.prune r
    else .node l r.prune

/-- The weighted path length of a tree: the sum over its leaves of `freq` times depth. -/
def Node.wpl : Node → Int
  | .null => 0
  | .node _ _ l r => l.wpl + r.wpl + l.lsum + r.lsum

/-- The shape of a tree. -/
def Node.shape : Node → Shape
  | .null => .leaf
  | .node _ _ l r => if l.isNull && r.isNull then .leaf else .node l.shape r.shape

/-- The `freq` of the leaf a path leads to. -/
def Node.weightAt : Node → List Bool → Int
  | .null, _ => 0
  | .node _ f l r, p =>
    if l.isNull && r.isNull then f
    else
      match p with
      | [] => 0
      | false :: q => l.weightAt q
      | true :: q => r.weightAt q

/-- The sum over the entries of a frequency map of frequency times length of the code that a
code table gives to the symbol. -/
def costOf (freq : UMap Int) (huffmanCode : UMap (List Char)) : Int :=
  (freq.map (fun p => p.2 * ((UMap.get huffmanCode p.1 []).length : Int))).sum

/-- The triples `(ch, freq, code)` of the leaves of a tree, from left to right, when `encode`
is entered with the accumulated string `str`. -/
def Node.rows : Node → List Char → List (Nat × Int × List Char)
  | .null, _ => []
  | .node c f l r, str =>
    (if l.isNull && r.isNull then [(c, f, str)] else []) ++
      (l.rows (str ++ ['0']) ++ r.rows (str ++ ['1']))

deriving instance DecidableEq for Except

/-- The nodes of a list that `comp` does not order after any node of the list. -/
def minima (q : List Node) : List Node :=
  q.filter (fun a => q.all (fun y => !comp a y))

/-- The roots the merge loop can end with on a queue holding the nodes `q`, over all the
choices a priority queue may make between nodes of equal `freq`. -/
def allRoots : Nat → List Node → List Node
  | 0, q => if q.length = 1 then q else []
  | fuel + 1, q =>
    if q.length = 1 then q
    else
      (minima q).flatMap (fun a =>
        (minima (q.erase a)).flatMap (fun b =>
          allRoots fuel (getNode 0 (int32 (a.freq + b.freq)) a b :: (q.erase a).erase b)))

/-- The output of the decode loop on the encoding of `text` with the codes of `root`. -/
def roundTrip (root : Node) (text : List Nat) : Except Err (List Nat) :=
  decodeText root (encodeText (assignCodes root).1 text)

/-- The input `"abracadabra"`. -/
def abracadabra : List Nat := [97, 98, 114, 97, 99, 97, 100, 97, 98, 114, 97]

/-- The frequency map of `"abracadabra"`: a:5, b:2, r:2, c:1, d:1. -/
def abracadabraFreq : UMap Int := [(97, 5), (98, 2), (114, 2), (99, 1), (100, 1)]

/-- What the decode loop writes for a text whose symbols have the codes `g`: a symbol is
decoded as long as at least two bits of the encoded text are left when its turn comes. -/
def decodedPrefix (g : Nat → List Char) : List Nat → List Nat
  | [] => []
  | s :: rest =>
    if 2 ≤ (g s).length + ((rest.map g).flatten).length then s :: decodedPrefix g rest
    else []

/-- The map obtained by the updates `m[p.1] += p.2`, without any bound on the sums, for the
pairs of a list, in order. -/
def UMap.addAll (m : UMap Int) (l : List (Nat × Int)) : UMap Int :=
  l.foldl (fun m p => UMap.modify m p.1 0 (· + p.2)) m

/-- The statistics of lines 165-168 computed on integers, without any bound: per code length
the number of codes and the sum of the frequencies of their symbols. -/
def lengthTotals (L : Stl) (freq : UMap Int) (huffmanCode : UMap (List Char)) :
    UMap Int × UMap Int :=
  (UMap.addAll [] ((L.iter huffmanCode).map (fun p => (p.2.length, 1))),
   UMap.addAll [] ((L.iter huffmanCode).map (fun p => (p.2.length, UMap.get freq p.1 0))))

/-- The node reached from a node by a string of bits: `'0'` leads to the left child and any
other character to the right child, as in `decode`. -/
def Node.follow : Node → List Char → Node
  | t, [] => t
  | .null, _ :: _ => .null
  | .node _ _ l r, b :: bits => if b = '0' then l.follow bits else r.follow bits

/-- The loop of lines 137-146 on its own: the queue it ends with and the number of times its
body has run. The first argument bounds the number of iterations. The root that `mergeLoop`
returns is the top of that queue (`mergeLoop_eq_runMerges`). -/
def runMerges (L : Stl) : Nat → L.PQ → Except Err (L.PQ × Nat)
  | fuel, pq =>
    if L.size pq = 1 then .ok (pq, 0)
    else if L.size pq = 0 then .error .emptyQueue
    else
      match fuel with
      | 0 => .error .fuel
      | fuel + 1 =>
        let left := L.top pq
        let pq1 := L.pop pq
        if L.size pq1 = 0 then .error .emptyQueue
        else
          let right := L.top pq1
          let pq2 := L.pop pq1
          let sum := int32 (left.freq + right.freq)
          match runMerges L fuel (L.push pq2 (getNode 0 sum left right)) with
          | .error e => .error e
          | .ok res => .ok (res.1, res.2 + 1)

/-- A read `str[index]` that is allowed inside the string only: it fails at `str.size()`
and beyond, where `strAt` returns the terminator or is undefined. -/
def strAtInside (str : List Char) (index : Int) : Except Err Char :=
  if index < 0 then .error .outOfRange
  else if index.toNat < str.length then .ok (str.getD index.toNat (Char.ofNat 0))
  else .error .outOfRange

/-- The function `decode` with the read of the string as a parameter: with the read `strAt`
it is `decode` (`decode_eq_decodeVia`). -/
def decodeVia (rd : Int → Except Err Char) :
    Node → Int × List Nat → Except Err (Int × List Nat)
  | .null, st => .ok st
  | .node ch _ left right, st =>
    if left.isNull && right.isNull then .ok (st.1, st.2 ++ [ch])
    else
      let index := int32 (st.1 + 1)
      match rd index with
      | .error e => .error e
      | .ok c =>
        if c = '0' then decodeVia rd left (index, st.2)
        else decodeVia rd right (index, st.2)

/-- The decode loop with the read of the string as a parameter; `size` is `str.size()`. With
the read `strAt` it is `decodeLoop` (`decodeLoop_eq_decodeLoopVia`). -/
def decodeLoopVia (rd : Int → Except Err Char) (root : Node) (size : Nat) :
    Nat → Int × List Nat → Except Err (Int × List Nat)
  | fuel, st =>
    if st.1 < int32 (int32 (size : Int) - 2) then
      match fuel with
      | 0 => .error .fuel
      | fuel + 1 =>
        match decodeVia rd root st with
        | .error e => .error e
        | .ok st1 => decodeLoopVia rd root size fuel st1
    else .ok st

/-- The tree that the reference library builds for `"abracadabra"`: its codes are
a = 0, c = 100, d = 101, b = 110, r = 111. -/
def abracadabraTree : Node :=
  getNode 0 11 (getNode 97 5 .null .null)
    (getNode 0 6
      (getNode 0 2 (getNode 99 1 .null .null) (getNode 100 1 .null .null))
      (getNode 0 4 (getNode 98 2 .null .null) (getNode 114 2 .null .null)))

/-- A strict binary tree over the entries of a list: the list is halved until one entry is
left. With at most `2 ^ d` entries no leaf is deeper than `d`. -/
def balanced : Nat → List (Nat × Int) → Node
  | 0, l => leafOf (l.headD (0, 0))
  | d + 1, l =>
    if l.length ≤ 1 then leafOf (l.headD (0, 0))
    else getNode 0 0 (balanced d (l.take (l.length / 2))) (balanced d (l.drop (l.length / 2)))

/-- A text of `2^31` symbols: the symbol `a` repeated. -/
def longRun : List Nat := List.replicate (2147483647 + 1) 97

/-- A text of `2^31 + 3` symbols: `2^31` times `y`, then `xxz`. -/
def skewedText : List Nat := List.replicate 2147483648 121 ++ [120, 120, 122]

/-- A text of `2^30 + 1` symbols: `2^28 + 1` times `a`, then `2^28` times each of `b`, `c`
and `d`. -/
def evenText : List Nat :=
  List.replicate 268435457 97 ++ (List.replicate 268435456 98 ++
    (List.replicate 268435456 99 ++ List.replicate 268435456 100))

/-- A text of `2^31 + 9` symbols: `2^31` times `a`, then `bcdefghij`. -/
def chainText : List Nat :=
  List.replicate 2147483648 97 ++ [98, 99, 100, 101, 102, 103, 104, 105, 106]

/-- A frequency map whose counts add up to `2^32 + 5`: e:5 and `2^30` for each of a, b, c
and d. -/
def heavyFreq : UMap Int :=
  [(101, 5), (97, 1073741824), (98, 1073741824), (99, 1073741824), (100, 1073741824)]

/-- A strict binary tree over the entries of `heavyFreq`, with e and a at depth 3 and b, c
and d at depth 2. -/
def heavyTree : Node :=
  getNode 0 0
    (getNode 0 0
      (getNode 0 0 (getNode 101 5 .null .null) (getNode 97 1073741824 .null .null))
      (getNode 98 1073741824 .null .null))
    (getNode 0 0 (getNode 99 1073741824 .null .null) (getNode 100 1073741824 .null .null))

/-! ## A reference instance of the library parameters -/

/-- The first node of a list that `comp` does not order after any other node of the list. -/
def minNode : List Node → Node
  | [] => .null
  | x :: xs => xs.foldl (fun m y => if comp m y then y else m) x

/-- A simple implementation of the library parameters, used to run the model: the queue is
the list of its elements in the order of insertion, its top is the first node of least
`freq`, and a map is visited in the order its keys were first inserted. -/
def refStl : Stl where
  PQ := List Node
  empty := []
  push q x := q ++ [x]
  top := minNode
  pop q := q.erase (minNode q)
  size := List.length
  elems q := (q : Multiset Node)
  elems_empty := rfl
  elems_push q x := by
    show ((q ++ [x] : List Node) : Multiset Node) = x ::ₘ (q : Multiset Node)
    rw [Multiset.cons_coe, Multiset.coe_eq_coe]
    exact List.perm_append_singleton x q
  size_eq _ := rfl
  top_mem q h := by
    have key : ∀ (xs : List Node) (x : Node),
        xs.foldl (fun m y => if comp m y then y else m) x ∈ x :: xs := by
      intro xs
      induction xs with
      | nil => intro x; simp
      | cons y ys ih =>
        intro x
        rcases List.mem_cons.1 (ih (if comp x y then y else x)) with h1 | h1
        · rw [List.foldl_cons, h1]; split <;> simp
        · exact List.mem_cons_of_mem _ (List.mem_cons_of_mem _ h1)
    have hq : q ≠ [] := by rintro rfl; exact h rfl
    cases q with
    | nil => exact absurd rfl hq
    | cons x xs => exact Multiset.mem_coe.2 (key xs x)
  top_min q y hy := by
    have key : ∀ (xs : List Node) (x : Node),
        (xs.foldl (fun m y => if comp m y then y else m) x).freq ≤ x.freq ∧
        ∀ z ∈ xs, (xs.foldl (fun m y => if comp m y then y else m) x).freq ≤ z.freq := by
      intro xs
      induction xs with
      | nil => intro x; simp
      | cons y ys ih =>
        intro x
        have h := ih (if comp x y then y else x)
        rw [List.foldl_cons]
        by_cases hc : x.freq > y.freq
        · simp only [comp, hc, decide_True, if_true] at h ⊢
          refine ⟨by omega, fun z hz => ?_⟩
          rcases List.mem_cons.1 hz with rfl | hz
          · exact h.1
          · exact h.2 z hz
        · simp only [comp, hc, decide_False, Bool.false_eq_true, if_false] at h ⊢
          refine ⟨h.1, fun z hz => ?_⟩
          rcases List.mem_cons.1 hz with rfl | hz
          · omega
          · exact h.2 z hz
    have hy' : y ∈ q := Multiset.mem_coe.1 hy
    cases q with
    | nil => simp at hy'
    | cons x xs =>
      have h := key xs x
      simp only [comp, decide_eq_false_iff_not, not_lt, minNode, gt_iff_lt]
      rcases List.mem_cons.1 hy' with rfl | hy'
      · exact h.1
      · exact h.2 y hy'
  elems_pop _ _ := rfl
  iter m := m
  iter_perm m := List.Perm.refl m

/-! ## Association lists -/

theorem UMap.find_modify {ν : Type} (m : UMap ν) (k : Nat) (d : ν) (f : ν → ν) (k' : Nat) :
    (UMap.modify m k d f).find k' =
      if k' = k then some (f ((m.find k).getD d)) else m.find k' := by
  induction m with
  | nil =>
    by_cases h : k' = k
    · subst h; simp [UMap.modify, UMap.find]
    · have h' : ¬ k = k' := fun e => h e.symm
      simp [UMap.modify, UMap.find, h, h']
  | cons p m ih =>
    obtain ⟨a, v⟩ := p
    by_cases hak : a = k
    · subst hak
      by_cases h : k' = a
      · subst h; simp [UMap.modify, UMap.find]
      · have h' : ¬ a = k' := fun e => h e.symm
        simp [UMap.modify, UMap.find, h, h']
    · by_cases h : k' = k
      · subst h
        simp [UMap.modify, UMap.find, hak, ih]
      · by_cases h2 : a = k'
        · simp [UMap.modify, UMap.find, hak, h, h2]
        · simp [UMap.modify, UMap.find, hak, h, h2, ih]

theorem UMap.keys_modify {ν : Type} (m : UMap ν) (k : Nat) (d : ν) (f : ν → ν) :
    (UMap.modify m k d f).keys = if k ∈ m.keys then m.keys else m.keys ++ [k] := by
  induction m with
  | nil => simp [UMap.modify, UMap.keys]
  | cons p m ih =>
    obtain ⟨a, v⟩ := p
    by_cases hak : a = k
    · subst hak; simp [UMap.modify, UMap.keys]
    · have hka : ¬ k = a := fun e => hak e.symm
      simp only [UMap.keys] at ih
      simp only [UMap.modify, hak, if_false, UMap.keys, List.map_cons, List.mem_cons, hka,
        false_or, ih]
      split <;> simp

theorem UMap.nodup_modify {ν : Type} (m : UMap ν) (k : Nat) (d : ν) (f : ν → ν)
    (h : m.keys.Nodup) : (UMap.modify m k d f).keys.Nodup := by
  rw [UMap.keys_modify]
  split
  · exact h
  · rename_i hk
    exact List.Nodup.append h (List.nodup_singleton k) (by
      intro x hx hx'
      rw [List.mem_singleton] at hx'
      exact hk (hx' ▸ hx))

theorem UMap.find_eq_none {ν : Type} (m : UMap ν) (k : Nat) :
    m.find k = none ↔ k ∉ m.keys := by
  induction m with
  | nil => simp [UMap.find, UMap.keys]
  | cons p m ih =>
    obtain ⟨a, v⟩ := p
    simp only [UMap.keys] at ih
    by_cases h : a = k
    · subst h; simp [UMap.find, UMap.keys]
    · have h' : ¬ k = a := fun e => h e.symm
      simp [UMap.find, UMap.keys, h, h', ih]

theorem UMap.mem_of_find {ν : Type} (m : UMap ν) (k : Nat) (v : ν)
    (h : m.find k = some v) : (k, v) ∈ m := by
  induction m with
  | nil => simp [UMap.find] at h
  | cons p m ih =>
    obtain ⟨a, w⟩ := p
    by_cases hak : a = k
    · subst hak
      simp only [UMap.find, if_true, Option.some.injEq] at h
      subst h; exact List.mem_cons_self _ _
    · simp only [UMap.find, hak, if_false] at h
      exact List.mem_cons_of_mem _ (ih h)

theorem UMap.find_of_mem {ν : Type} (m : UMap ν) (k : Nat) (v : ν)
    (hn : m.keys.Nodup) (h : (k, v) ∈ m) : m.find k = some v := by
  induction m with
  | nil => simp at h
  | cons p m ih =>
    obtain ⟨a, w⟩ := p
    simp only [UMap.keys, List.map_cons, List.nodup_cons] at hn
    rcases List.mem_cons.1 h with h | h
    · cases h; simp [UMap.find]
    · have hak : a ≠ k := by
        rintro rfl
        exact hn.1 (List.mem_map.2 ⟨(a, v), h, rfl⟩)
      simp only [UMap.find, hak, if_false]
      exact ih hn.2 h

/-! ## Arithmetic on `int` -/

theorem int32_of_range (x : Int) (h1 : -2147483648 ≤ x) (h2 : x < 2147483648) :
    int32 x = x := by
  unfold int32; split <;> omega

theorem int32_of_nonneg (x : Int) (h1 : 0 ≤ x) (h2 : x < 2147483648) : int32 x = x :=
  int32_of_range x (by omega) h2

theorem int32_range (x : Int) : -2147483648 ≤ int32 x ∧ int32 x < 2147483648 := by
  unfold int32; split <;> omega

theorem int32_add_left (a b : Int) : int32 (int32 a + b) = int32 (a + b) := by
  unfold int32; split <;> omega

theorem int32_add_right (a b : Int) : int32 (a + int32 b) = int32 (a + b) := by
  unfold int32; split <;> omega

theorem int32_idem (a : Int) : int32 (int32 a) = int32 a := by
  unfold int32; split <;> omega

/-! ## Maps of `int` values -/

theorem UMap.wrap_keys (m : UMap Int) : m.wrap.keys = m.keys := by
  simp [UMap.wrap, UMap.keys, List.map_map, Function.comp]

theorem UMap.wrap_length (m : UMap Int) : m.wrap.length = m.length := by
  simp [UMap.wrap]

theorem UMap.wrap_eq_self (m : UMap Int)
    (h : ∀ p ∈ m, -2147483648 ≤ p.2 ∧ p.2 < 2147483648) : m.wrap = m := by
  unfold UMap.wrap
  conv_rhs => rw [← List.map_id m]
  apply List.map_congr_left
  intro p hp
  rw [int32_of_range p.2 (h p hp).1 (h p hp).2]
  rfl

theorem UMap.wrap_find (m : UMap Int) (k : Nat) :
    m.wrap.find k = (m.find k).map int32 := by
  induction m with
  | nil => rfl
  | cons p m ih =>
    obtain ⟨a, v⟩ := p
    by_cases h : a = k
    · simp [UMap.wrap, UMap.find, h]
    · simp only [UMap.wrap] at ih
      simp [UMap.wrap, UMap.find, h, ih]

theorem UMap.wrap_get (m : UMap Int) (k : Nat) :
    UMap.get m.wrap k 0 = int32 (UMap.get m k 0) := by
  unfold UMap.get
  rw [UMap.wrap_find]
  have h0 : int32 0 = 0 := by unfold int32; split <;> omega
  cases m.find k <;> simp [h0]

/-- An update `m[k] += x` on `int` values is the update on integers, taken as `int`. -/
theorem UMap.modify_wrap (m : UMap Int) (k : Nat) (x : Int) :
    UMap.modify m.wrap k 0 (fun v => int32 (v + x)) = (UMap.modify m k 0 (· + x)).wrap := by
  induction m with
  | nil => simp [UMap.wrap, UMap.modify]
  | cons p m ih =>
    obtain ⟨a, v⟩ := p
    by_cases h : a = k
    · simp [UMap.wrap, UMap.modify, h, int32_add_left]
    · simp only [UMap.wrap] at ih
      simp [UMap.wrap, UMap.modify, h, ih]

/-! ## The frequency counter -/

/-- The counting loop leaves the numbers of occurrences taken as `int`. -/
theorem countFrequencies_ok (text : List Nat) (freq : UMap Int)
    (h : ∀ c ∈ text, isascii c = true) :
    countFrequencies text freq.wrap = .ok (tally text freq).wrap := by
  induction text generalizing freq with
  | nil => rfl
  | cons c rest ih =>
    have hc : isascii c = true := h c (List.mem_cons_self _ _)
    simp only [countFrequencies, hc, if_true, tally, List.foldl_cons]
    rw [UMap.modify_wrap]
    exact ih _ (fun x hx => h x (List.mem_cons_of_mem _ hx))

theorem countFrequencies_nil_ok (text : List Nat) (h : ∀ c ∈ text, isascii c = true) :
    countFrequencies text [] = .ok (tally text []).wrap :=
  countFrequencies_ok text [] h

theorem countFrequencies_error (text : List Nat) (freq : UMap Int)
    (h : ∃ c ∈ text, isascii c = false) :
    countFrequencies text freq = .error .nonAscii := by
  induction text generalizing freq with
  | nil => obtain ⟨c, hc, _⟩ := h; simp at hc
  | cons c rest ih =>
    by_cases hc : isascii c = true
    · simp only [countFrequencies, hc, if_true]
      apply ih
      obtain ⟨x, hx, hx'⟩ := h
      rcases List.mem_cons.1 hx with rfl | hx
      · rw [hc] at hx'; cases hx'
      · exact ⟨x, hx, hx'⟩
    · simp [countFrequencies, hc]

theorem UMap.get_modify (m : UMap Int) (k k' : Nat) :
    UMap.get (UMap.modify m k 0 (· + 1)) k' 0 =
      UMap.get m k' 0 + (if k' = k then 1 else 0) := by
  unfold UMap.get
  rw [UMap.find_modify]
  by_cases h : k' = k
  · subst h; simp
  · simp [h]

theorem tally_get (text : List Nat) (freq : UMap Int) (c : Nat) :
    UMap.get (tally text freq) c 0 = UMap.get freq c 0 + (text.count c : Int) := by
  induction text generalizing freq with
  | nil => simp [tally]
  | cons x rest ih =>
    have := ih (UMap.modify freq x 0 (· + 1))
    simp only [tally, List.foldl_cons] at this ⊢
    rw [this, UMap.get_modify, List.count_cons]
    by_cases h : c = x
    · subst h; simp; omega
    · have h' : ¬ x = c := fun e => h e.symm
      simp [h, h']

theorem tally_nodup (text : List Nat) (freq : UMap Int) (h : freq.keys.Nodup) :
    (tally text freq).keys.Nodup := by
  induction text generalizing freq with
  | nil => exact h
  | cons x rest ih => exact ih _ (UMap.nodup_modify freq x 0 _ h)

theorem tally_mem_keys (text : List Nat) (freq : UMap Int) (c : Nat) :
    c ∈ (tally text freq).keys ↔ c ∈ freq.keys ∨ c ∈ text := by
  induction text generalizing freq with
  | nil => simp [tally]
  | cons x rest ih =>
    have := ih (UMap.modify freq x 0 (· + 1))
    simp only [tally, List.foldl_cons] at this ⊢
    rw [this, UMap.keys_modify]
    by_cases hx : x ∈ freq.keys
    · simp only [hx, if_true, List.mem_cons]
      constructor
      · rintro (h | h)
        · exact Or.inl h
        · exact Or.inr (Or.inr h)
      · rintro (h | h | h)
        · exact Or.inl h
        · exact Or.inl (h ▸ hx)
        · exact Or.inr h
    · simp only [hx, if_false, List.mem_append, List.mem_singleton, List.mem_cons]
      tauto

theorem UMap.sum_modify (m : UMap Int) (k : Nat) :
    ((UMap.modify m k 0 (· + 1)).map Prod.snd).sum = (m.map Prod.snd).sum + 1 := by
  induction m with
  | nil => simp [UMap.modify]
  | cons p m ih =>
    obtain ⟨a, v⟩ := p
    by_cases h : a = k
    · simp [UMap.modify, h]; omega
    · simp [UMap.modify, h, ih]; omega

theorem tally_sum (text : List Nat) (freq : UMap Int) :
    ((tally text freq).map Prod.snd).sum = (freq.map Prod.snd).sum + (text.length : Int) := by
  induction text generalizing freq with
  | nil => simp [tally]
  | cons x rest ih =>
    have := ih (UMap.modify freq x 0 (· + 1))
    simp only [tally, List.foldl_cons] at this ⊢
    rw [this, UMap.sum_modify, List.length_cons]; omega

theorem tally_entry (text : List Nat) (c : Nat) (n : Int) (h : (c, n) ∈ tally text []) :
    n = (text.count c : Int) ∧ c ∈ text := by
  have hn : (tally text []).keys.Nodup := tally_nodup text [] List.nodup_nil
  have hf := UMap.find_of_mem _ c n hn h
  have hg := tally_get text [] c
  have hk : c ∈ (tally text []).keys := List.mem_map.2 ⟨(c, n), h, rfl⟩
  rw [tally_mem_keys] at hk
  constructor
  · simp only [UMap.get, hf, Option.getD_some, UMap.find, Option.getD_none, zero_add] at hg
    exact hg
  · rcases hk with hk | hk
    · simp [UMap.keys] at hk
    · exact hk

theorem tally_ne_nil (text : List Nat) (h : text ≠ []) : tally text [] ≠ [] := by
  cases text with
  | nil => exact absurd rfl h
  | cons x rest =>
    intro he
    have : x ∈ (tally (x :: rest) []).keys :=
      (tally_mem_keys _ _ _).2 (Or.inr (List.mem_cons_self _ _))
    rw [he] at this
    simp [UMap.keys] at this

/-- The counter of `countTotalCharacters` ends with the length of the text taken as `int`. -/
theorem countTotalCharacters_eq (text : List Nat) :
    countTotalCharacters text = int32 (text.length : Int) := by
  have h : ∀ (l : List Nat) (n : Int),
      l.foldl (fun count _ => int32 (count + 1)) (int32 n) = int32 (n + (l.length : Int)) := by
    intro l
    induction l with
    | nil => intro n; simp
    | cons x xs ih =>
      intro n
      simp only [List.foldl_cons, List.length_cons, int32_add_left]
      rw [ih]
      congr 1
      push_cast
      ring
  have h0 : int32 0 = 0 := by unfold int32; split <;> omega
  have := h text 0
  rw [h0] at this
  simpa [countTotalCharacters] using this

/-! ## The merge loop as a relation on the contents of the queue -/

theorem Stl.top_le (L : Stl) (q : L.PQ) (y : Node) (hy : y ∈ L.elems q) :
    (L.top q).freq ≤ y.freq := by
  have h := L.top_min q y hy
  simpa [comp] using h

theorem mergeLoop_spec (L : Stl) (fuel : Nat) (pq : L.PQ)
    (hne : L.elems pq ≠ 0) (hfuel : Multiset.card (L.elems pq) ≤ fuel + 1) :
    ∃ R, mergeLoop L fuel pq = .ok R ∧ Merges (L.elems pq) R := by
  induction fuel generalizing pq with
  | zero =>
    have hc : Multiset.card (L.elems pq) = 1 := by
      have : Multiset.card (L.elems pq) ≠ 0 := fun h => hne (Multiset.card_eq_zero.1 h)
      omega
    obtain ⟨x, hx⟩ := Multiset.card_eq_one.1 hc
    have hs : L.size pq = 1 := by rw [L.size_eq, hc]
    have ht : L.top pq = x := by
      have := L.top_mem pq hne
      rw [hx] at this
      exact Multiset.mem_singleton.1 this
    refine ⟨x, ?_, ?_⟩
    · unfold mergeLoop; simp [hs, ht]
    · rw [hx]; exact Merges.done x
  | succ fuel ih =>
    by_cases hs : L.size pq = 1
    · have hc : Multiset.card (L.elems pq) = 1 := by rw [← L.size_eq]; exact hs
      obtain ⟨x, hx⟩ := Multiset.card_eq_one.1 hc
      have ht : L.top pq = x := by
        have := L.top_mem pq hne
        rw [hx] at this
        exact Multiset.mem_singleton.1 this
      refine ⟨x, ?_, ?_⟩
      · unfold mergeLoop; simp [hs, ht]
      · rw [hx]; exact Merges.done x
    · have hc0 : Multiset.card (L.elems pq) ≠ 0 := fun h => hne (Multiset.card_eq_zero.1 h)
      have hs0 : L.size pq ≠ 0 := by rw [L.size_eq]; exact hc0
      have hc1 : Multiset.card (L.elems pq) ≠ 1 := by rw [← L.size_eq]; exact hs
      have ha : L.top pq ∈ L.elems pq := L.top_mem pq hne
      have he1 : L.elems (L.pop pq) = (L.elems pq).erase (L.top pq) := L.elems_pop pq hne
      have hcard1 : Multiset.card (L.elems (L.pop pq)) + 1 = Multiset.card (L.elems pq) := by
        rw [he1, Multiset.card_erase_of_mem ha]
        exact Nat.succ_pred_eq_of_pos (Nat.pos_of_ne_zero hc0)
      have hne1 : L.elems (L.pop pq) ≠ 0 := by
        intro h
        rw [h] at hcard1
        simp at hcard1
        exact hc1 hcard1.symm
      have hs1 : L.size (L.pop pq) ≠ 0 := by
        rw [L.size_eq]
        exact fun h => hne1 (Multiset.card_eq_zero.1 h)
      have hb : L.top (L.pop pq) ∈ L.elems (L.pop pq) := L.top_mem _ hne1
      have he2 : L.elems (L.pop (L.pop pq)) =
          ((L.elems pq).erase (L.top pq)).erase (L.top (L.pop pq)) := by
        rw [L.elems_pop _ hne1, he1]
      have hcard2 : Multiset.card (L.elems (L.pop (L.pop pq))) + 1 =
          Multiset.card (L.elems (L.pop pq)) := by
        rw [L.elems_pop _ hne1, Multiset.card_erase_of_mem hb]
        exact Nat.succ_pred_eq_of_pos
          (Nat.pos_of_ne_zero (fun h => hne1 (Multiset.card_eq_zero.1 h)))
      let n := getNode 0 (int32 ((L.top pq).freq + (L.top (L.pop pq)).freq)) (L.top pq)
        (L.top (L.pop pq))
      have he3 : L.elems (L.push (L.pop (L.pop pq)) n) =
          n ::ₘ ((L.elems pq).erase (L.top pq)).erase (L.top (L.pop pq)) := by
        rw [L.elems_push, he2]
      obtain ⟨R, hR, hM⟩ := ih (L.push (L.pop (L.pop pq)) n)
        (by rw [he3]; exact Multiset.cons_ne_zero)
        (by rw [L.elems_push, Multiset.card_cons]; omega)
      refine ⟨R, ?_, ?_⟩
      · rw [mergeLoop]
        simp only [hs, hs0, hs1, if_false]
        exact hR
      · rw [he3] at hM
        refine Merges.step _ (L.top pq) (L.top (L.pop pq)) R ha
          (fun y hy => L.top_le pq y hy) (he1 ▸ hb) ?_ hM
        intro y hy
        exact L.top_le (L.pop pq) y (he1 ▸ hy)

theorem elems_foldl_push (L : Stl) (l : List (Nat × Int)) (q : L.PQ) :
    L.elems (l.foldl (fun pq pair => L.push pq (getNode pair.1 pair.2 .null .null)) q) =
      ((l.map leafOf : List Node) : Multiset Node) + L.elems q := by
  induction l generalizing q with
  | nil => simp
  | cons p l ih =>
    simp only [List.foldl_cons, List.map_cons]
    rw [ih, L.elems_push, ← Multiset.cons_coe, Multiset.cons_add, Multiset.add_cons]
    rfl

theorem elems_fillQueue (L : Stl) (freq : UMap Int) :
    L.elems (fillQueue L freq) = ((freq.map leafOf : List Node) : Multiset Node) := by
  unfold fillQueue
  rw [elems_foldl_push, L.elems_empty, add_zero, Multiset.coe_eq_coe]
  exact (L.iter_perm freq).map leafOf

theorem buildTree_spec (L : Stl) (freq : UMap Int) (hne : freq ≠ []) :
    ∃ R, buildTree L freq = .ok R ∧
      Merges ((freq.map leafOf : List Node) : Multiset Node) R := by
  have he := elems_fillQueue L freq
  have h0 : L.elems (fillQueue L freq) ≠ 0 := by
    rw [he]
    intro h
    have := congrArg Multiset.card h
    simp at this
    exact hne this
  obtain ⟨R, hR, hM⟩ := mergeLoop_spec L (L.size (fillQueue L freq)) (fillQueue L freq) h0
    (by rw [L.size_eq]; omega)
  exact ⟨R, hR, he ▸ hM⟩

theorem buildTree_nil (L : Stl) : buildTree L [] = .error .emptyQueue := by
  have he := elems_fillQueue L []
  have hs : L.size (fillQueue L []) = 0 := by rw [L.size_eq, he]; rfl
  unfold buildTree
  rw [hs]
  unfold mergeLoop
  simp [hs]

/-! ## Shape and weights of trees -/

theorem Node.isNull_iff (t : Node) : t.isNull = true ↔ t = .null := by
  cases t <;> simp [Node.isNull]

theorem Node.Strict.ne_null {t : Node} (h : t.Strict) : t ≠ .null := by
  rintro rfl; exact h

theorem Node.Strict.isNull {t : Node} (h : t.Strict) : t.isNull = false := by
  cases t with
  | null => exact absurd h (by simp [Node.Strict])
  | node _ _ _ _ => rfl

theorem Node.freq_eq_lsum (t : Node) (h : t.WeightOK) : t.freq = t.lsum := by
  induction t with
  | null => rfl
  | node c f l r ihl ihr =>
    obtain ⟨h1, hl, hr⟩ := h
    have el := ihl hl
    have er := ihr hr
    simp only [Node.lsum] at el er
    by_cases hleaf : (l.isNull && r.isNull) = true
    · have hln : l = .null := (Node.isNull_iff l).1 (by simp at hleaf; exact hleaf.1)
      have hrn : r = .null := (Node.isNull_iff r).1 (by simp at hleaf; exact hleaf.2)
      subst hln; subst hrn
      simp [Node.lsum, Node.leaves, Node.isNull, Node.freq]
    · rcases h1 with h1 | h1
      · exact absurd h1 hleaf
      · simp only [Node.lsum, Node.leaves, hleaf, Node.freq, List.nil_append, List.map_append,
          List.sum_append, ← el, ← er, Bool.false_eq_true, if_false]
        exact h1

theorem leafOf_strict (p : Nat × Int) : (leafOf p).Strict := Or.inl ⟨rfl, rfl⟩

theorem leafOf_weightOK (p : Nat × Int) : (leafOf p).WeightOK :=
  ⟨Or.inl rfl, trivial, trivial⟩

theorem leafOf_leaves (p : Nat × Int) : (leafOf p).leaves = [p] := by
  simp [leafOf, getNode, Node.leaves, Node.isNull]

theorem merged_strict (a b : Node) (n : Int) (ha : a.Strict) (hb : b.Strict) :
    (getNode 0 n a b).Strict := Or.inr ⟨ha, hb⟩

theorem merged_leaves (a b : Node) (n : Int) (ha : a.Strict) :
    (getNode 0 n a b).leaves = a.leaves ++ b.leaves := by
  simp [getNode, Node.leaves, ha.isNull]

theorem Merges.strict {F : Multiset Node} {R : Node} (h : Merges F R)
    (hF : ∀ t ∈ F, t.Strict) : R.Strict := by
  induction h with
  | done t => exact hF t (Multiset.mem_singleton_self t)
  | step F a b R ha _ hb _ _ ih =>
    apply ih
    intro t ht
    rcases Multiset.mem_cons.1 ht with rfl | ht
    · exact merged_strict a b _ (hF a ha) (hF b (Multiset.mem_of_mem_erase hb))
    · exact hF t (Multiset.mem_of_mem_erase (Multiset.mem_of_mem_erase ht))

theorem Multiset.split_two {α : Type} [DecidableEq α] (F : Multiset α) (a b : α)
    (ha : a ∈ F) (hb : b ∈ F.erase a) : F = a ::ₘ b ::ₘ (F.erase a).erase b := by
  rw [Multiset.cons_erase hb, Multiset.cons_erase ha]

theorem sum_nonneg_of_mem (M : Multiset Node) (h : ∀ t ∈ M, 0 ≤ t.freq) :
    0 ≤ (M.map Node.freq).sum := by
  apply Multiset.sum_nonneg
  intro x hx
  obtain ⟨t, ht, rfl⟩ := Multiset.mem_map.1 hx
  exact h t ht

/-- In a queue whose weights are bounded, the sum of line 144 does not overflow, and the
queue stays bounded after the merge. -/
theorem Bounded.step {F : Multiset Node} (hB : Bounded F) (a b : Node) (ha : a ∈ F)
    (hb : b ∈ F.erase a) :
    int32 (a.freq + b.freq) = a.freq + b.freq ∧
      Bounded (getNode 0 (int32 (a.freq + b.freq)) a b ::ₘ (F.erase a).erase b) := by
  obtain ⟨hnn, hsum⟩ := hB
  have hb' : b ∈ F := Multiset.mem_of_mem_erase hb
  have hF2 : ∀ t ∈ (F.erase a).erase b, t ∈ F := fun t ht =>
    Multiset.mem_of_mem_erase (Multiset.mem_of_mem_erase ht)
  have hrest : 0 ≤ (((F.erase a).erase b).map Node.freq).sum :=
    sum_nonneg_of_mem _ (fun t ht => hnn t (hF2 t ht))
  have hsplit : (F.map Node.freq).sum =
      a.freq + (b.freq + (((F.erase a).erase b).map Node.freq).sum) := by
    conv_lhs => rw [Multiset.split_two F a b ha hb]
    simp
  have h0a := hnn a ha
  have h0b := hnn b hb'
  have e : int32 (a.freq + b.freq) = a.freq + b.freq :=
    int32_of_nonneg _ (by omega) (by omega)
  have hf : (getNode 0 (int32 (a.freq + b.freq)) a b).freq = a.freq + b.freq := e
  refine ⟨e, ?_, ?_⟩
  · intro t ht
    rcases Multiset.mem_cons.1 ht with rfl | ht
    · rw [hf]; omega
    · exact hnn t (hF2 t ht)
  · rw [Multiset.map_cons, Multiset.sum_cons, hf]
    omega

theorem Merges.weightOK {F : Multiset Node} {R : Node} (h : Merges F R)
    (hF : ∀ t ∈ F, t.WeightOK) (hB : Bounded F) : R.WeightOK := by
  induction h with
  | done t => exact hF t (Multiset.mem_singleton_self t)
  | step F a b R ha _ hb _ _ ih =>
    obtain ⟨e, hB'⟩ := hB.step a b ha hb
    apply ih _ hB'
    intro t ht
    rcases Multiset.mem_cons.1 ht with rfl | ht
    · exact ⟨Or.inr e, hF a ha, hF b (Multiset.mem_of_mem_erase hb)⟩
    · exact hF t (Multiset.mem_of_mem_erase (Multiset.mem_of_mem_erase ht))

theorem Merges.leaves {F : Multiset Node} {R : Node} (h : Merges F R)
    (hF : ∀ t ∈ F, t.Strict) :
    (F.map (fun t => ((t.leaves : List (Nat × Int)) : Multiset (Nat × Int)))).sum =
      (R.leaves : Multiset (Nat × Int)) := by
  induction h with
  | done t => simp
  | step F a b R ha _ hb _ _ ih =>
    have hsa : a.Strict := hF a ha
    have hsb : b.Strict := hF b (Multiset.mem_of_mem_erase hb)
    have hF' : ∀ t ∈ getNode 0 (int32 (a.freq + b.freq)) a b ::ₘ (F.erase a).erase b,
        t.Strict := by
      intro t ht
      rcases Multiset.mem_cons.1 ht with rfl | ht
      · exact merged_strict a b _ hsa hsb
      · exact hF t (Multiset.mem_of_mem_erase (Multiset.mem_of_mem_erase ht))
    rw [← ih hF']
    conv_lhs => rw [Multiset.split_two F a b ha hb]
    simp only [Multiset.map_cons, Multiset.sum_cons, merged_leaves a b _ hsa]
    rw [← add_assoc, Multiset.coe_add]

theorem leaves_of_map (freq : UMap Int) :
    ((((freq.map leafOf : List Node) : Multiset Node)).map
      (fun t => ((t.leaves : List (Nat × Int)) : Multiset (Nat × Int)))).sum =
      (freq : Multiset (Nat × Int)) := by
  induction freq with
  | nil => rfl
  | cons p m ih =>
    simp only [List.map_cons, ← Multiset.cons_coe, Multiset.map_cons, Multiset.sum_cons, ih,
      leafOf_leaves]
    rfl

theorem leafOf_map_strict (freq : UMap Int) :
    ∀ t ∈ ((freq.map leafOf : List Node) : Multiset Node), t.Strict := by
  intro t ht
  obtain ⟨p, _, rfl⟩ := List.mem_map.1 (Multiset.mem_coe.1 ht)
  exact leafOf_strict p

theorem leafOf_map_weightOK (freq : UMap Int) :
    ∀ t ∈ ((freq.map leafOf : List Node) : Multiset Node), t.WeightOK := by
  intro t ht
  obtain ⟨p, _, rfl⟩ := List.mem_map.1 (Multiset.mem_coe.1 ht)
  exact leafOf_weightOK p

theorem freq_leaves (freq : UMap Int) :
    (((freq.map leafOf : List Node) : Multiset Node)).map Node.freq =
      ((freq.map Prod.snd : List Int) : Multiset Int) := by
  rw [Multiset.map_coe, List.map_map]
  rfl

/-- The leaves pushed for a map of counts that are not negative and add up to less than
`2^31` form a bounded queue. -/
theorem leafOf_map_bounded (freq : UMap Int) (hnn : ∀ p ∈ freq, 0 ≤ p.2)
    (hsum : (freq.map Prod.snd).sum < 2147483648) :
    Bounded ((freq.map leafOf : List Node) : Multiset Node) := by
  refine ⟨?_, ?_⟩
  · intro t ht
    obtain ⟨p, hp, rfl⟩ := List.mem_map.1 (Multiset.mem_coe.1 ht)
    exact hnn p hp
  · rw [freq_leaves]
    exact hsum

/-- What the merge loop guarantees about the root it returns for a frequency map. -/
theorem Merges.of_map {freq : UMap Int} {R : Node}
    (h : Merges ((freq.map leafOf : List Node) : Multiset Node) R) :
    R.Strict ∧ R.leaves.Perm freq := by
  refine ⟨h.strict (leafOf_map_strict freq), ?_⟩
  have := h.leaves (leafOf_map_strict freq)
  rw [leaves_of_map] at this
  exact (Multiset.coe_eq_coe.1 this).symm

/-- Without overflow, every node with children carries the sum of the weights of its
children. -/
theorem Merges.weightOK_of_map {freq : UMap Int} {R : Node}
    (h : Merges ((freq.map leafOf : List Node) : Multiset Node) R)
    (hnn : ∀ p ∈ freq, 0 ≤ p.2) (hsum : (freq.map Prod.snd).sum < 2147483648) :
    R.WeightOK :=
  h.weightOK (leafOf_map_weightOK freq) (leafOf_map_bounded freq hnn hsum)

/-! ## The traversal `encode` -/

theorem UMap.assignAll_append (m : UMap (List Char)) (l1 l2 : List (Nat × List Char)) :
    UMap.assignAll m (l1 ++ l2) = UMap.assignAll (UMap.assignAll m l1) l2 := by
  simp [UMap.assignAll, List.foldl_append]

theorem encode_eq (t : Node) (str : List Char)
    (st : UMap (List Char) × List (Nat × List Char)) :
    encode t str st = (UMap.assignAll st.1 (t.codes str), st.2 ++ t.codes str) := by
  induction t generalizing str st with
  | null => simp [encode, Node.codes, UMap.assignAll]
  | node c f l r ihl ihr =>
    simp only [encode, Node.codes]
    rw [ihl, ihr]
    by_cases h : (l.isNull && r.isNull) = true
    · simp only [h, if_true, UMap.assignAll_append, List.append_assoc]
      rfl
    · simp only [h, if_false, UMap.assignAll_append, List.append_assoc, List.nil_append,
        Bool.false_eq_true]

theorem assignCodes_eq (t : Node) :
    assignCodes t = (UMap.assignAll [] (t.codes []), t.codes []) := by
  simp [assignCodes, encode_eq]

theorem codes_extend (t : Node) (str : List Char) :
    ∀ p ∈ t.codes str, str <+: p.2 := by
  induction t generalizing str with
  | null => simp [Node.codes]
  | node c f l r ihl ihr =>
    intro p hp
    simp only [Node.codes, List.mem_append] at hp
    rcases hp with hp | hp | hp
    · split at hp
      · rw [List.mem_singleton] at hp; subst hp; exact List.prefix_refl _
      · simp at hp
    · exact (List.prefix_append str ['0']).trans (ihl _ p hp)
    · exact (List.prefix_append str ['1']).trans (ihr _ p hp)

theorem branch_incomparable (str x y : List Char)
    (hx : str ++ ['0'] <+: x) (hy : str ++ ['1'] <+: y) : ¬ x <+: y ∧ ¬ y <+: x := by
  have key : ∀ z, str ++ ['0'] <+: z → str ++ ['1'] <+: z → False := by
    intro z h0 h1
    have := List.prefix_of_prefix_length_le h0 h1 (by simp)
    have := List.IsPrefix.eq_of_length this (by simp)
    simp at this
  exact ⟨fun h => key y (hx.trans h) hy, fun h => key x hx (hy.trans h)⟩

theorem codes_pairwise (t : Node) (str : List Char) :
    (t.codes str).Pairwise (fun p q => ¬ p.2 <+: q.2 ∧ ¬ q.2 <+: p.2) := by
  induction t generalizing str with
  | null => simp [Node.codes]
  | node c f l r ihl ihr =>
    simp only [Node.codes]
    by_cases h : (l.isNull && r.isNull) = true
    · have hln : l = .null := (Node.isNull_iff l).1 (by simp at h; exact h.1)
      have hrn : r = .null := (Node.isNull_iff r).1 (by simp at h; exact h.2)
      subst hln; subst hrn
      simp [Node.codes, Node.isNull]
    · simp only [h, if_false, List.nil_append, Bool.false_eq_true]
      rw [List.pairwise_append]
      refine ⟨ihl _, ihr _, ?_⟩
      intro p hp q hq
      exact branch_incomparable str p.2 q.2 (codes_extend l _ p hp) (codes_extend r _ q hq)

theorem UMap.find_assignAll (l : List (Nat × List Char)) (m : UMap (List Char)) (k : Nat)
    (v : List Char) (h : (UMap.assignAll m l).find k = some v) :
    (k, v) ∈ l ∨ m.find k = some v := by
  induction l generalizing m with
  | nil => exact Or.inr h
  | cons p l ih =>
    simp only [UMap.assignAll, List.foldl_cons] at h
    rcases ih _ h with h1 | h1
    · exact Or.inl (List.mem_cons_of_mem _ h1)
    · rw [UMap.find_modify] at h1
      by_cases hk : k = p.1
      · simp only [hk, if_true, Option.some.injEq] at h1
        left
        rw [hk, ← h1]
        exact List.mem_cons_self _ _
      · simp only [hk, if_false] at h1
        exact Or.inr h1

theorem UMap.keys_assignAll (l : List (Nat × List Char)) (m : UMap (List Char)) (k : Nat) :
    k ∈ (UMap.assignAll m l).keys ↔ k ∈ m.keys ∨ k ∈ l.map Prod.fst := by
  induction l generalizing m with
  | nil => simp [UMap.assignAll]
  | cons p l ih =>
    simp only [UMap.assignAll, List.foldl_cons] at ih ⊢
    rw [ih, UMap.keys_modify]
    by_cases hp : p.1 ∈ m.keys
    · simp only [hp, if_true, List.map_cons, List.mem_cons]
      constructor
      · rintro (h | h)
        · exact Or.inl h
        · exact Or.inr (Or.inr h)
      · rintro (h | h | h)
        · exact Or.inl h
        · exact Or.inl (h ▸ hp)
        · exact Or.inr h
    · simp only [hp, if_false, List.mem_append, List.mem_singleton, List.map_cons,
        List.mem_cons]
      tauto

theorem UMap.nodup_assignAll (l : List (Nat × List Char)) (m : UMap (List Char))
    (h : m.keys.Nodup) : (UMap.assignAll m l).keys.Nodup := by
  induction l generalizing m with
  | nil => exact h
  | cons p l ih => exact ih _ (UMap.nodup_modify m p.1 [] _ h)

/-- The symbols of the recorded pairs are the symbols of the leaves, in the same order. -/
theorem codes_keys (t : Node) (str : List Char) :
    (t.codes str).map Prod.fst = t.leaves.map Prod.fst := by
  induction t generalizing str with
  | null => rfl
  | node c f l r ihl ihr =>
    simp only [Node.codes, Node.leaves, List.map_append, ihl, ihr]
    split <;> rfl

/-- Two different symbols of the code table of any tree have codes none of which is a
prefix of the other. -/
theorem assignCodes_incomparable (t : Node) (x y : Nat) (cx cy : List Char) (hxy : x ≠ y)
    (hx : UMap.find (assignCodes t).1 x = some cx)
    (hy : UMap.find (assignCodes t).1 y = some cy) : ¬ cx <+: cy ∧ ¬ cy <+: cx := by
  rw [assignCodes_eq] at hx hy
  have mx : (x, cx) ∈ t.codes [] := by
    rcases UMap.find_assignAll _ _ _ _ hx with h | h
    · exact h
    · simp [UMap.find] at h
  have my : (y, cy) ∈ t.codes [] := by
    rcases UMap.find_assignAll _ _ _ _ hy with h | h
    · exact h
    · simp [UMap.find] at h
  have hsymm : Symmetric (fun p q : Nat × List Char => ¬ p.2 <+: q.2 ∧ ¬ q.2 <+: p.2) :=
    fun _ _ h => ⟨h.2, h.1⟩
  have hne : (x, cx) ≠ (y, cy) := fun h => hxy (congrArg Prod.fst h)
  exact (codes_pairwise t []).forall hsymm mx my hne

theorem assignCodes_keys (t : Node) (k : Nat) :
    k ∈ (assignCodes t).1.keys ↔ k ∈ t.leaves.map Prod.fst := by
  rw [assignCodes_eq, UMap.keys_assignAll, codes_keys]
  simp [UMap.keys]

/-! ## Shapes: unlabelled strict binary trees, with weights given by position -/

theorem Shape.height_eq_zero (S : Shape) (h : S.height = 0) : S = .leaf := by
  cases S with
  | leaf => rfl
  | node l r => simp [Shape.height] at h

theorem Shape.sum_paths_node {M : Type} [AddCommMonoid M] (l r : Shape)
    (f : List Bool → M) :
    ∑ p ∈ (Shape.node l r).paths, f p =
      ∑ p ∈ l.paths, f (false :: p) + ∑ p ∈ r.paths, f (true :: p) := by
  have hp : (Shape.node l r).paths =
      l.paths.image (List.cons false) ∪ r.paths.image (List.cons true) := rfl
  have hd : Disjoint (l.paths.image (List.cons false)) (r.paths.image (List.cons true)) := by
    rw [Finset.disjoint_left]
    intro x hx hy
    obtain ⟨a, _, rfl⟩ := Finset.mem_image.1 hx
    obtain ⟨b, _, hb⟩ := Finset.mem_image.1 hy
    simp at hb
  rw [hp, Finset.sum_union hd, Finset.sum_image, Finset.sum_image]
  · intro x _ y _ h; exact List.tail_eq_of_cons_eq h
  · intro x _ y _ h; exact List.tail_eq_of_cons_eq h

theorem Shape.mem_paths_node (l r : Shape) (p : List Bool) :
    p ∈ (Shape.node l r).paths ↔
      (∃ q ∈ l.paths, p = false :: q) ∨ (∃ q ∈ r.paths, p = true :: q) := by
  simp only [Shape.paths, Finset.mem_union, Finset.mem_image]
  constructor
  · rintro (⟨q, hq, rfl⟩ | ⟨q, hq, rfl⟩)
    · exact Or.inl ⟨q, hq, rfl⟩
    · exact Or.inr ⟨q, hq, rfl⟩
  · rintro (⟨q, hq, rfl⟩ | ⟨q, hq, rfl⟩)
    · exact Or.inl ⟨q, hq, rfl⟩
    · exact Or.inr ⟨q, hq, rfl⟩

theorem Shape.length_le_height (S : Shape) (p : List Bool) (hp : p ∈ S.paths) :
    p.length ≤ S.height := by
  induction S generalizing p with
  | leaf => simp [Shape.paths] at hp; simp [hp]
  | node l r ihl ihr =>
    rcases (Shape.mem_paths_node l r p).1 hp with ⟨q, hq, rfl⟩ | ⟨q, hq, rfl⟩
    · have := ihl q hq
      simp only [List.length_cons, Shape.height]; omega
    · have := ihr q hq
      simp only [List.length_cons, Shape.height]; omega

theorem Shape.deep_spec (S : Shape) (h : S.height ≠ 0) :
    S.deep ++ [false] ∈ S.paths ∧ S.deep ++ [true] ∈ S.paths ∧
      S.deep.length + 1 = S.height ∧ S.deep ∉ S.paths := by
  induction S with
  | leaf => exact absurd rfl h
  | node l r ihl ihr =>
    by_cases h0 : l.height = 0 ∧ r.height = 0
    · have hl := Shape.height_eq_zero l h0.1
      have hr := Shape.height_eq_zero r h0.2
      subst hl; subst hr
      simp [Shape.deep, Shape.height, Shape.paths]
    · by_cases h1 : r.height ≤ l.height
      · have hl : l.height ≠ 0 := by omega
        obtain ⟨a, b, c, d⟩ := ihl hl
        simp only [Shape.deep, h0, h1, if_true, if_false, List.cons_append,
          Shape.mem_paths_node, Shape.height, List.length_cons]
        refine ⟨Or.inl ⟨_, a, rfl⟩, Or.inl ⟨_, b, rfl⟩, by omega, ?_⟩
        rintro (⟨q, hq, e⟩ | ⟨q, _, e⟩)
        · exact d ((List.tail_eq_of_cons_eq e) ▸ hq)
        · simp at e
      · have hr : r.height ≠ 0 := by omega
        obtain ⟨a, b, c, d⟩ := ihr hr
        simp only [Shape.deep, h0, h1, if_true, if_false, List.cons_append,
          Shape.mem_paths_node, Shape.height, List.length_cons]
        refine ⟨Or.inr ⟨_, a, rfl⟩, Or.inr ⟨_, b, rfl⟩, by omega, ?_⟩
        rintro (⟨q, _, e⟩ | ⟨q, hq, e⟩)
        · simp at e
        · exact d ((List.tail_eq_of_cons_eq e) ▸ hq)

theorem Shape.sum_prune {M : Type} [AddCommMonoid M] (S : Shape) (h : S.height ≠ 0)
    (f : List Bool → M) :
    ∑ p ∈ S.paths, f p + f S.deep =
      ∑ p ∈ S.prune.paths, f p + f (S.deep ++ [false]) + f (S.deep ++ [true]) := by
  induction S generalizing f with
  | leaf => exact absurd rfl h
  | node l r ihl ihr =>
    by_cases h0 : l.height = 0 ∧ r.height = 0
    · have hl := Shape.height_eq_zero l h0.1
      have hr := Shape.height_eq_zero r h0.2
      subst hl; subst hr
      rw [Shape.sum_paths_node]
      simp only [Shape.deep, Shape.prune, Shape.height, Shape.paths, Finset.sum_singleton,
        and_self, if_true, List.nil_append]
      abel
    · by_cases h1 : r.height ≤ l.height
      · have hl : l.height ≠ 0 := by omega
        have e := ihl hl (fun p => f (false :: p))
        simp only [Shape.deep, Shape.prune, h0, h1, if_true, if_false, List.cons_append]
        rw [Shape.sum_paths_node, Shape.sum_paths_node]
        calc ∑ p ∈ l.paths, f (false :: p) + ∑ p ∈ r.paths, f (true :: p) + f (false :: l.deep)
            = (∑ p ∈ l.paths, f (false :: p) + f (false :: l.deep))
                + ∑ p ∈ r.paths, f (true :: p) := by abel
          _ = _ := by rw [e]; abel
      · have hr : r.height ≠ 0 := by omega
        have e := ihr hr (fun p => f (true :: p))
        simp only [Shape.deep, Shape.prune, h0, h1, if_true, if_false, List.cons_append]
        rw [Shape.sum_paths_node, Shape.sum_paths_node]
        calc ∑ p ∈ l.paths, f (false :: p) + ∑ p ∈ r.paths, f (true :: p) + f (true :: r.deep)
            = ∑ p ∈ l.paths, f (false :: p)
                + (∑ p ∈ r.paths, f (true :: p) + f (true :: r.deep)) := by abel
          _ = _ := by rw [e]; abel

/-! ## Exchanging the weights of two leaves -/

theorem swap_mem {α : Type} [DecidableEq α] (P : Finset α) (s p : α) (hs : s ∈ P)
    (hp : p ∈ P) (i : α) : i ∈ P ↔ Equiv.swap s p i ∈ P := by
  by_cases h1 : i = s
  · subst h1; simp [hs, hp]
  · by_cases h2 : i = p
    · subst h2; simp [hs, hp]
    · rw [Equiv.swap_apply_of_ne_of_ne h1 h2]

theorem swap_weights {α : Type} [DecidableEq α] (P : Finset α) (w : α → Int) (s p : α)
    (hs : s ∈ P) (hp : p ∈ P) :
    ∑ x ∈ P, ({w (Equiv.swap s p x)} : Multiset Int) = ∑ x ∈ P, ({w x} : Multiset Int) :=
  Finset.sum_equiv (Equiv.swap s p) (fun i => swap_mem P s p hs hp i) (fun _ _ => rfl)

theorem sum_split_two {α : Type} [DecidableEq α] (P : Finset α) (s p : α) (hs : s ∈ P)
    (hp : p ∈ P) (hsp : s ≠ p) (g : α → Int) :
    ∑ x ∈ P, g x = g s + (g p + ∑ x ∈ (P.erase s).erase p, g x) := by
  have hp' : p ∈ P.erase s := Finset.mem_erase.2 ⟨fun e => hsp e.symm, hp⟩
  rw [Finset.add_sum_erase _ _ hp', Finset.add_sum_erase _ _ hs]

theorem swap_cost_le {α : Type} [DecidableEq α] (P : Finset α) (w d : α → Int) (s p : α)
    (hs : s ∈ P) (hp : p ∈ P) (hw : w p ≤ w s) (hd : d p ≤ d s) :
    ∑ x ∈ P, w (Equiv.swap s p x) * d x ≤ ∑ x ∈ P, w x * d x := by
  by_cases hsp : s = p
  · subst hsp; simp
  · rw [sum_split_two P s p hs hp hsp (fun x => w (Equiv.swap s p x) * d x),
      sum_split_two P s p hs hp hsp (fun x => w x * d x)]
    have hrest : ∑ x ∈ (P.erase s).erase p, w (Equiv.swap s p x) * d x =
        ∑ x ∈ (P.erase s).erase p, w x * d x := by
      apply Finset.sum_congr rfl
      intro x hx
      have h2 : x ≠ p := (Finset.mem_erase.1 hx).1
      have h1 : x ≠ s := (Finset.mem_erase.1 (Finset.mem_erase.1 hx).2).1
      rw [Equiv.swap_apply_of_ne_of_ne h1 h2]
    simp only [Equiv.swap_apply_left, Equiv.swap_apply_right, hrest]
    have := mul_nonneg (sub_nonneg.2 hw) (sub_nonneg.2 hd)
    nlinarith

/-! ## Merging the two least weights does not lose optimality -/

theorem Shape.mem_weights (S : Shape) (w : List Bool → Int) (y : Int) :
    y ∈ S.weights w ↔ ∃ p ∈ S.paths, w p = y := by
  unfold Shape.weights
  rw [Multiset.mem_sum]
  constructor
  · rintro ⟨p, hp, h⟩; exact ⟨p, hp, (Multiset.mem_singleton.1 h).symm⟩
  · rintro ⟨p, hp, h⟩; exact ⟨p, hp, Multiset.mem_singleton.2 h.symm⟩

theorem Shape.weights_erase (S : Shape) (w : List Bool → Int) (s : List Bool)
    (hs : s ∈ S.paths) :
    S.weights w = w s ::ₘ ∑ x ∈ S.paths.erase s, ({w x} : Multiset Int) := by
  unfold Shape.weights
  rw [← Finset.add_sum_erase _ _ hs, Multiset.singleton_add]

theorem Shape.card_weights (S : Shape) (w : List Bool → Int) :
    Multiset.card (S.weights w) = S.paths.card := by
  unfold Shape.weights
  rw [map_sum]
  simp

/-- The exchange step of the optimality argument: a tree whose leaves carry the weights
`a, b, M`, with `a` and `b` the two least, is at least as costly as some tree whose leaves
carry `a + b, M` plus `a + b`. -/
theorem Shape.merge_two (S : Shape) (w : List Bool → Int) (a b : Int) (M : Multiset Int)
    (hW : S.weights w = a ::ₘ b ::ₘ M) (ha : ∀ y ∈ b ::ₘ M, a ≤ y) (hb : ∀ y ∈ M, b ≤ y) :
    ∃ (S' : Shape) (w' : List Bool → Int),
      S'.weights w' = (a + b) ::ₘ M ∧ S'.cost w' + a + b ≤ S.cost w := by
  -- the shape has at least two leaves
  have hh : S.height ≠ 0 := by
    intro h0
    have := Shape.height_eq_zero S h0
    subst this
    have := congrArg Multiset.card hW
    rw [Shape.card_weights] at this
    simp [Shape.paths] at this
  obtain ⟨hs1, hs2, hlen, hq⟩ := Shape.deep_spec S hh
  have hs12 : S.deep ++ [false] ≠ S.deep ++ [true] := by simp
  -- positions of `a` and `b`
  obtain ⟨pa, hpa, hwa⟩ := (Shape.mem_weights S w a).1 (hW ▸ Multiset.mem_cons_self a _)
  have hrest : ∑ x ∈ S.paths.erase pa, ({w x} : Multiset Int) = b ::ₘ M := by
    have := Shape.weights_erase S w pa hpa
    rw [hW, hwa] at this
    exact ((Multiset.cons_inj_right a).1 this).symm
  obtain ⟨pb, hpb, hwb⟩ : ∃ p ∈ S.paths.erase pa, w p = b := by
    have : b ∈ ∑ x ∈ S.paths.erase pa, ({w x} : Multiset Int) :=
      hrest ▸ Multiset.mem_cons_self b _
    rw [Multiset.mem_sum] at this
    obtain ⟨p, hp, h⟩ := this
    exact ⟨p, hp, (Multiset.mem_singleton.1 h).symm⟩
  have hpb' : pb ∈ S.paths := Finset.mem_of_mem_erase hpb
  have hpab : pb ≠ pa := (Finset.mem_erase.1 hpb).1
  -- first exchange: `a` goes to the left deep leaf
  have hale : ∀ p ∈ S.paths, a ≤ w p := by
    intro p hp
    have : w p ∈ a ::ₘ b ::ₘ M := hW ▸ (Shape.mem_weights S w (w p)).2 ⟨p, hp, rfl⟩
    rcases Multiset.mem_cons.1 this with h | h
    · omega
    · exact ha _ h
  let w1 : List Bool → Int := fun x => w (Equiv.swap (S.deep ++ [false]) pa x)
  have hW1 : S.weights w1 = a ::ₘ b ::ₘ M := by
    rw [← hW]; exact swap_weights S.paths w _ _ hs1 hpa
  have hC1 : S.cost w1 ≤ S.cost w :=
    swap_cost_le S.paths w (fun p => (p.length : Int)) _ _ hs1 hpa
      (by rw [hwa]; exact hale _ hs1)
      (by have := Shape.length_le_height S pa hpa; simp only [List.length_append,
            List.length_singleton]; omega)
  have hw1s1 : w1 (S.deep ++ [false]) = a := by
    show w (Equiv.swap (S.deep ++ [false]) pa (S.deep ++ [false])) = a
    rw [Equiv.swap_apply_left, hwa]
  -- second exchange: `b` goes to the right deep leaf
  let pb1 : List Bool := Equiv.swap (S.deep ++ [false]) pa pb
  have hpb1 : pb1 ∈ S.paths := (swap_mem S.paths _ _ hs1 hpa pb).1 hpb'
  have hpb1s : pb1 ≠ S.deep ++ [false] := by
    intro h
    have : pb = pa := by
      have := congrArg (Equiv.swap (S.deep ++ [false]) pa) h
      simpa [pb1] using this
    exact hpab this
  have hw1pb : w1 pb1 = b := by
    show w (Equiv.swap (S.deep ++ [false]) pa (Equiv.swap (S.deep ++ [false]) pa pb)) = b
    rw [Equiv.swap_apply_self, hwb]
  have hrest1 : ∑ x ∈ S.paths.erase (S.deep ++ [false]), ({w1 x} : Multiset Int) = b ::ₘ M := by
    have := Shape.weights_erase S w1 _ hs1
    rw [hW1, hw1s1] at this
    exact ((Multiset.cons_inj_right a).1 this).symm
  have hble : b ≤ w1 (S.deep ++ [true]) := by
    have : w1 (S.deep ++ [true]) ∈ b ::ₘ M := by
      rw [← hrest1, Multiset.mem_sum]
      exact ⟨_, Finset.mem_erase.2 ⟨fun e => hs12 e.symm, hs2⟩, Multiset.mem_singleton_self _⟩
    rcases Multiset.mem_cons.1 this with h | h
    · omega
    · exact hb _ h
  let w2 : List Bool → Int := fun x => w1 (Equiv.swap (S.deep ++ [true]) pb1 x)
  have hW2 : S.weights w2 = a ::ₘ b ::ₘ M := by
    rw [← hW1]; exact swap_weights S.paths w1 _ _ hs2 hpb1
  have hC2 : S.cost w2 ≤ S.cost w1 :=
    swap_cost_le S.paths w1 (fun p => (p.length : Int)) _ _ hs2 hpb1
      (by rw [hw1pb]; exact hble)
      (by have := Shape.length_le_height S pb1 hpb1; simp only [List.length_append,
            List.length_singleton]; omega)
  have hw2s2 : w2 (S.deep ++ [true]) = b := by
    show w1 (Equiv.swap (S.deep ++ [true]) pb1 (S.deep ++ [true])) = b
    rw [Equiv.swap_apply_left, hw1pb]
  have hw2s1 : w2 (S.deep ++ [false]) = a := by
    show w1 (Equiv.swap (S.deep ++ [true]) pb1 (S.deep ++ [false])) = a
    rw [Equiv.swap_apply_of_ne_of_ne hs12 (fun e => hpb1s e.symm), hw1s1]
  -- the two deep leaves are merged
  let w3 : List Bool → Int := Function.update w2 S.deep (a + b)
  have hw3q : w3 S.deep = a + b := Function.update_same _ _ _
  have hw3 : ∀ p, p ≠ S.deep → w3 p = w2 p := fun p hp => Function.update_noteq hp _ _
  have hne1 : S.deep ++ [false] ≠ S.deep := by simp
  have hne2 : S.deep ++ [true] ≠ S.deep := by simp
  have hon : ∀ p ∈ S.paths, w3 p = w2 p := fun p hp => hw3 p (fun e => hq (e ▸ hp))
  refine ⟨S.prune, w3, ?_, ?_⟩
  · have e := Shape.sum_prune S hh (fun p => ({w3 p} : Multiset Int))
    have e1 : ∑ p ∈ S.paths, ({w3 p} : Multiset Int) = a ::ₘ b ::ₘ M := by
      rw [← hW2]
      exact Finset.sum_congr rfl (fun p hp => by rw [hon p hp])
    simp only [e1, hw3q, hw3 _ hne1, hw3 _ hne2, hw2s1, hw2s2] at e
    have e2 : a ::ₘ b ::ₘ M + {a + b} = ((a + b) ::ₘ M) + {a} + {b} := by
      simp only [← Multiset.singleton_add]
      abel
    rw [e2] at e
    have := add_right_cancel (add_right_cancel e)
    exact this.symm
  · have e := Shape.sum_prune S hh (fun p => w3 p * (p.length : Int))
    have e1 : ∑ p ∈ S.paths, w3 p * (p.length : Int) = S.cost w2 :=
      Finset.sum_congr rfl (fun p hp => by rw [hon p hp])
    simp only [e1, hw3q, hw3 _ hne1, hw3 _ hne2, hw2s1, hw2s2, List.length_append,
      List.length_singleton, Nat.cast_add, Nat.cast_one] at e
    have e3 : S.prune.cost w3 = ∑ p ∈ S.prune.paths, w3 p * (p.length : Int) := rfl
    rw [← e3] at e
    nlinarith

/-! ## Optimality of the merge loop -/

theorem Node.lsum_node (c : Nat) (f : Int) (l r : Node) (h : (l.isNull && r.isNull) = false) :
    (Node.node c f l r).lsum = l.lsum + r.lsum := by
  simp [Node.lsum, Node.leaves, h]

theorem merged_wpl (a b : Node) (n : Int) (ha : a.WeightOK) (hb : b.WeightOK) :
    (getNode 0 n a b).wpl = a.wpl + b.wpl + a.freq + b.freq := by
  simp [getNode, Node.wpl, Node.freq_eq_lsum a ha, Node.freq_eq_lsum b hb]

theorem Merges.wpl_le {F : Multiset Node} {R : Node} (h : Merges F R)
    (hS : ∀ t ∈ F, t.Strict) (hW : ∀ t ∈ F, t.WeightOK) (hB : Bounded F)
    (S : Shape) (w : List Bool → Int) (hw : S.weights w = F.map Node.freq) :
    R.wpl ≤ (F.map Node.wpl).sum + S.cost w := by
  induction h generalizing S w with
  | done t =>
    have h0 : 0 ≤ S.cost w := by
      apply Finset.sum_nonneg
      intro p hp
      have hm : w p ∈ S.weights w := (Shape.mem_weights S w (w p)).2 ⟨p, hp, rfl⟩
      rw [hw] at hm
      obtain ⟨x, hx, e⟩ := Multiset.mem_map.1 hm
      have := hB.1 x hx
      rw [← e]
      exact mul_nonneg this (Int.natCast_nonneg _)
    simp only [Multiset.map_singleton, Multiset.sum_singleton]
    omega
  | step F a b R ha hamin hb hbmin _ ih =>
    obtain ⟨esum, hB'⟩ := hB.step a b ha hb
    rw [esum] at ih hB'
    have hb' : b ∈ F := Multiset.mem_of_mem_erase hb
    have hsplit := Multiset.split_two F a b ha hb
    have hF2 : ∀ t ∈ (F.erase a).erase b, t ∈ F := fun t ht =>
      Multiset.mem_of_mem_erase (Multiset.mem_of_mem_erase ht)
    have hw' : S.weights w = a.freq ::ₘ b.freq ::ₘ ((F.erase a).erase b).map Node.freq := by
      rw [hw]
      conv_lhs => rw [hsplit]
      simp
    obtain ⟨S', w', hW', hC'⟩ := Shape.merge_two S w a.freq b.freq _ hw'
      (by
        intro y hy
        rcases Multiset.mem_cons.1 hy with rfl | hy
        · exact hamin b hb'
        · obtain ⟨t, ht, rfl⟩ := Multiset.mem_map.1 hy
          exact hamin t (hF2 t ht))
      (by
        intro y hy
        obtain ⟨t, ht, rfl⟩ := Multiset.mem_map.1 hy
        exact hbmin t (Multiset.mem_of_mem_erase ht))
    have hS' : ∀ t ∈ getNode 0 (a.freq + b.freq) a b ::ₘ (F.erase a).erase b, t.Strict := by
      intro t ht
      rcases Multiset.mem_cons.1 ht with rfl | ht
      · exact merged_strict a b _ (hS a ha) (hS b hb')
      · exact hS t (hF2 t ht)
    have hWt' : ∀ t ∈ getNode 0 (a.freq + b.freq) a b ::ₘ (F.erase a).erase b,
        t.WeightOK := by
      intro t ht
      rcases Multiset.mem_cons.1 ht with rfl | ht
      · exact ⟨Or.inr rfl, hW a ha, hW b hb'⟩
      · exact hW t (hF2 t ht)
    have key := ih hS' hWt' hB' S' w' (by rw [hW']; simp [getNode, Node.freq])
    rw [Multiset.map_cons, Multiset.sum_cons, merged_wpl a b _ (hW a ha) (hW b hb')] at key
    have hsum : (F.map Node.wpl).sum =
        a.wpl + (b.wpl + (((F.erase a).erase b).map Node.wpl).sum) := by
      conv_lhs => rw [hsplit]
      simp
    omega

theorem Shape.sum_weights (S : Shape) (w : List Bool → Int) :
    (S.weights w).sum = ∑ p ∈ S.paths, w p := by
  unfold Shape.weights
  induction S.paths using Finset.induction_on with
  | empty => simp
  | insert ha ih =>
    rw [Finset.sum_insert ha, Finset.sum_insert ha, Multiset.sum_add, ih]
    simp

theorem Node.weights_shape (t : Node) (h : t.Strict) :
    t.shape.weights t.weightAt = ((t.leaves.map Prod.snd : List Int) : Multiset Int) := by
  induction t with
  | null => exact absurd h (by simp [Node.Strict])
  | node c f l r ihl ihr =>
    rcases h with ⟨hl, hr⟩ | ⟨hl, hr⟩
    · subst hl; subst hr
      simp [Node.shape, Node.weightAt, Node.leaves, Node.isNull, Shape.weights, Shape.paths]
    · have hn : (l.isNull && r.isNull) = false := by simp [hl.isNull]
      simp only [Node.shape, hn, Shape.weights, Shape.sum_paths_node, Node.weightAt,
        Node.leaves, Bool.false_eq_true, if_false, List.nil_append, List.map_append]
      have el := ihl hl
      have er := ihr hr
      simp only [Shape.weights] at el er
      rw [el, er]
      rfl

theorem Node.cost_shape (t : Node) (h : t.Strict) : t.shape.cost t.weightAt = t.wpl := by
  induction t with
  | null => exact absurd h (by simp [Node.Strict])
  | node c f l r ihl ihr =>
    rcases h with ⟨hl, hr⟩ | ⟨hl, hr⟩
    · subst hl; subst hr
      simp [Node.shape, Node.weightAt, Node.isNull, Shape.cost, Shape.paths, Node.wpl,
        Node.lsum, Node.leaves]
    · have hn : (l.isNull && r.isNull) = false := by simp [hl.isNull]
      have sl : ∑ p ∈ l.shape.paths, l.weightAt p = l.lsum := by
        rw [← Shape.sum_weights, Node.weights_shape l hl]; rfl
      have sr : ∑ p ∈ r.shape.paths, r.weightAt p = r.lsum := by
        rw [← Shape.sum_weights, Node.weights_shape r hr]; rfl
      have el := ihl hl
      have er := ihr hr
      simp only [Shape.cost] at el er
      simp only [Node.shape, hn, Shape.cost, Shape.sum_paths_node, Node.weightAt, Node.wpl,
        Bool.false_eq_true, if_false, List.length_cons, Nat.cast_add, Nat.cast_one, mul_add,
        mul_one, Finset.sum_add_distrib, el, er, sl, sr]
      omega

theorem wpl_leaves_zero (freq : UMap Int) :
    ((((freq.map leafOf : List Node) : Multiset Node)).map Node.wpl).sum = 0 := by
  induction freq with
  | nil => rfl
  | cons p m ih =>
    simp only [List.map_cons, ← Multiset.cons_coe, Multiset.map_cons, Multiset.sum_cons, ih]
    simp [leafOf, getNode, Node.wpl, Node.lsum, Node.leaves]

/-- The tree the merge loop returns is no costlier than any strict binary tree with the same
leaves. -/
theorem Merges.optimal {freq : UMap Int} {R : Node}
    (h : Merges ((freq.map leafOf : List Node) : Multiset Node) R)
    (hnn : ∀ p ∈ freq, 0 ≤ p.2) (hsum : (freq.map Prod.snd).sum < 2147483648)
    (t : Node) (ht : t.Strict) (hl : t.leaves.Perm freq) : R.wpl ≤ t.wpl := by
  have hS := leafOf_map_strict freq
  have hW := leafOf_map_weightOK freq
  have hB := leafOf_map_bounded freq hnn hsum
  have hw : t.shape.weights t.weightAt =
      (((freq.map leafOf : List Node) : Multiset Node)).map Node.freq := by
    rw [Node.weights_shape t ht, freq_leaves, Multiset.coe_eq_coe]
    exact hl.map Prod.snd
  have := h.wpl_le hS hW hB t.shape t.weightAt hw
  rw [wpl_leaves_zero, zero_add, Node.cost_shape t ht] at this
  exact this

/-! ## Cost in terms of the code table -/

theorem rows_leaves (t : Node) (str : List Char) :
    (t.rows str).map (fun x => (x.1, x.2.1)) = t.leaves := by
  induction t generalizing str with
  | null => rfl
  | node c f l r ihl ihr =>
    simp only [Node.rows, Node.leaves, List.map_append, ihl, ihr]
    split <;> rfl

theorem rows_codes (t : Node) (str : List Char) :
    (t.rows str).map (fun x => (x.1, x.2.2)) = t.codes str := by
  induction t generalizing str with
  | null => rfl
  | node c f l r ihl ihr =>
    simp only [Node.rows, Node.codes, List.map_append, ihl, ihr]
    split <;> rfl

theorem rows_sum (t : Node) (str : List Char) :
    ((t.rows str).map (fun x => x.2.1 * (x.2.2.length : Int))).sum =
      t.wpl + t.lsum * (str.length : Int) := by
  induction t generalizing str with
  | null => simp [Node.rows, Node.wpl, Node.lsum, Node.leaves]
  | node c f l r ihl ihr =>
    by_cases h : (l.isNull && r.isNull) = true
    · have hln : l = .null := (Node.isNull_iff l).1 (by simp at h; exact h.1)
      have hrn : r = .null := (Node.isNull_iff r).1 (by simp at h; exact h.2)
      subst hln; subst hrn
      simp [Node.rows, Node.wpl, Node.lsum, Node.leaves, Node.isNull]
    · have h' : (l.isNull && r.isNull) = false := by simpa using h
      simp only [Node.rows, h, if_false, List.nil_append, List.map_append, List.sum_append,
        ihl, ihr, Node.wpl, Node.lsum_node c f l r h', List.length_append,
        List.length_singleton, Bool.false_eq_true, Nat.cast_add, Nat.cast_one]
      ring

theorem UMap.find_assignAll_of_not_mem (l : List (Nat × List Char)) (m : UMap (List Char))
    (k : Nat) (h : k ∉ l.map Prod.fst) : (UMap.assignAll m l).find k = m.find k := by
  induction l generalizing m with
  | nil => rfl
  | cons p l ih =>
    simp only [List.map_cons, List.mem_cons, not_or] at h
    simp only [UMap.assignAll, List.foldl_cons] at ih ⊢
    rw [ih _ h.2, UMap.find_modify]
    simp [h.1]

theorem UMap.find_assignAll_of_mem (l : List (Nat × List Char)) (m : UMap (List Char))
    (k : Nat) (v : List Char) (hn : (l.map Prod.fst).Nodup) (h : (k, v) ∈ l) :
    (UMap.assignAll m l).find k = some v := by
  induction l generalizing m with
  | nil => simp at h
  | cons p l ih =>
    simp only [List.map_cons, List.nodup_cons] at hn
    rcases List.mem_cons.1 h with h | h
    · subst h
      have := UMap.find_assignAll_of_not_mem l (UMap.modify m k [] (fun _ => v)) k hn.1
      simp only [UMap.assignAll, List.foldl_cons] at this ⊢
      rw [this, UMap.find_modify]
      simp
    · simp only [UMap.assignAll, List.foldl_cons] at ih ⊢
      exact ih _ hn.2 h

/-- The code table holds, for the symbol of each leaf, the path to that leaf, provided the
symbols of the leaves are distinct. -/
theorem assignCodes_row (t : Node) (hn : (t.leaves.map Prod.fst).Nodup)
    (x : Nat × Int × List Char) (hx : x ∈ t.rows []) :
    UMap.find (assignCodes t).1 x.1 = some x.2.2 := by
  rw [assignCodes_eq]
  apply UMap.find_assignAll_of_mem
  · rw [codes_keys]; exact hn
  · rw [← rows_codes]
    exact List.mem_map.2 ⟨x, hx, rfl⟩

theorem costOf_leaves (t : Node) (hn : (t.leaves.map Prod.fst).Nodup) :
    costOf t.leaves (assignCodes t).1 = t.wpl := by
  have h := rows_sum t []
  simp only [List.length_nil, Nat.cast_zero, mul_zero, add_zero] at h
  rw [← h, costOf]
  conv_lhs => rw [← rows_leaves t [], List.map_map]
  congr 1
  apply List.map_congr_left
  intro x hx
  simp only [Function.comp, UMap.get, assignCodes_row t hn x hx, Option.getD_some]

theorem costOf_perm (freq freq' : UMap Int) (hc : UMap (List Char)) (h : freq.Perm freq') :
    costOf freq hc = costOf freq' hc :=
  (h.map _).sum_eq

theorem costOf_tree (freq : UMap Int) (hn : freq.keys.Nodup) (t : Node)
    (hl : t.leaves.Perm freq) : costOf freq (assignCodes t).1 = t.wpl := by
  rw [← costOf_perm _ _ _ hl]
  apply costOf_leaves
  exact ((hl.map Prod.fst).nodup_iff).2 hn

/-! ## Every run of the merge loop on a given queue content -/

theorem mem_minima (q : List Node) (a : Node) (ha : a ∈ q)
    (hmin : ∀ y ∈ q, a.freq ≤ y.freq) : a ∈ minima q := by
  unfold minima
  rw [List.mem_filter]
  refine ⟨ha, ?_⟩
  rw [List.all_eq_true]
  intro y hy
  have := hmin y hy
  simp [comp]
  exact this

theorem Merges.mem_allRoots {F : Multiset Node} {R : Node} (h : Merges F R) :
    ∀ (q : List Node) (fuel : Nat), (q : Multiset Node) = F → q.length ≤ fuel + 1 →
      R ∈ allRoots fuel q := by
  induction h with
  | done t =>
    intro q fuel hq _
    have : q = [t] := Multiset.coe_eq_singleton.1 hq
    subst this
    cases fuel <;> simp [allRoots]
  | step F a b R ha hamin hb hbmin _ ih =>
    intro q fuel hq hlen
    subst hq
    have ha' : a ∈ q := Multiset.mem_coe.1 ha
    have hb' : b ∈ q.erase a := by
      rw [Multiset.coe_erase] at hb; exact Multiset.mem_coe.1 hb
    have hl1 : (q.erase a).length + 1 = q.length := by
      rw [List.length_erase_of_mem ha']
      have : 0 < q.length := List.length_pos_of_mem ha'
      omega
    have hl2 : ((q.erase a).erase b).length + 1 = (q.erase a).length := by
      rw [List.length_erase_of_mem hb']
      have : 0 < (q.erase a).length := List.length_pos_of_mem hb'
      omega
    cases fuel with
    | zero => omega
    | succ fuel =>
      have hne : q.length ≠ 1 := by omega
      simp only [allRoots, hne, if_false, List.mem_flatMap]
      refine ⟨a, mem_minima q a ha' (fun y hy => hamin y (Multiset.mem_coe.2 hy)), b,
        mem_minima _ b hb' (fun y hy => hbmin y ?_), ?_⟩
      · rw [Multiset.coe_erase]; exact Multiset.mem_coe.2 hy
      · apply ih
        · rw [Multiset.coe_erase, Multiset.coe_erase, Multiset.cons_coe]
        · simp only [List.length_cons]; omega

/-- Whatever the library does, the tree built from a non-empty frequency map is one of the
roots listed by `allRoots`. -/
theorem buildTree_mem_allRoots (L : Stl) (freq : UMap Int) (hne : freq ≠ []) :
    ∃ R, buildTree L freq = .ok R ∧ R ∈ allRoots freq.length (freq.map leafOf) := by
  obtain ⟨R, hR, hM⟩ := buildTree_spec L freq hne
  exact ⟨R, hR, hM.mem_allRoots _ _ rfl (by simp)⟩

/-- The decoded text of a run is the output of the decode loop on the encoded text. -/
theorem report_decoded (L : Stl) (text : List Nat) (freq : UMap Int) (root : Node) :
    (report L text freq root).decoded = roundTrip root text := rfl

/-- The run on a text whose frequency map and tree are known. -/
theorem buildHuffmanTree_eq (L : Stl) (text : List Nat) (freq : UMap Int) (root : Node)
    (hf : countFrequencies text [] = .ok freq) (hR : buildTree L freq = .ok root) :
    buildHuffmanTree L text = .ok (report L text freq root) := by
  unfold buildHuffmanTree
  simp only [hf, hR]

/-- What holds of every root the merge loop can end with holds of the run. -/
theorem buildHuffmanTree_of_allRoots (L : Stl) (text : List Nat) (freq : UMap Int)
    (hf : countFrequencies text [] = .ok freq) (hne : freq ≠ [])
    (d : List Nat) (Q : Node → Prop)
    (h : ∀ R ∈ allRoots freq.length (freq.map leafOf), roundTrip R text = .ok d ∧ Q R) :
    ∃ out, buildHuffmanTree L text = .ok out ∧ out.decoded = .ok d ∧ Q out.root ∧
      out.freq = freq ∧ out.huffmanCode = (assignCodes out.root).1 ∧
      out.str = encodeText (assignCodes out.root).1 text ∧
      out.bitsAfter = out.str.length ∧
      out.bitsBefore = text.length * 8 ∧ out.total = countTotalCharacters text := by
  obtain ⟨R, hR, hmem⟩ := buildTree_mem_allRoots L freq hne
  obtain ⟨hd, hP⟩ := h R hmem
  refine ⟨report L text freq R, buildHuffmanTree_eq L text freq R hf hR, ?_, hP, rfl, rfl,
    rfl, rfl, rfl, rfl⟩
  rw [report_decoded]; exact hd

theorem abracadabra_roots :
    ∀ R ∈ allRoots abracadabraFreq.length (abracadabraFreq.map leafOf),
      roundTrip R abracadabra = .ok [97, 98, 114, 97, 99, 97, 100, 97, 98, 114] ∧
        (encodeText (assignCodes R).1 abracadabra).length = 23 := by
  decide!

theorem ab_roots :
    ∀ R ∈ allRoots 2 ([(97, 1), (98, 1)].map leafOf),
      roundTrip R [97, 98] = .ok [97] ∧ True := by
  decide!

theorem aaaa_roots :
    ∀ R ∈ allRoots 1 ([(97, 4)].map leafOf),
      roundTrip R [97, 97, 97, 97] = .ok [] ∧
        encodeText (assignCodes R).1 [97, 97, 97, 97] = [] := by
  decide!

/-! ## Nodes of a tree -/

theorem nodes_weight (t : Node) (h : t.WeightOK) :
    ∀ x ∈ t.nodes, x.isLeaf = false → x.freq = x.left.freq + x.right.freq := by
  induction t with
  | null => simp [Node.nodes]
  | node c f l r ihl ihr =>
    obtain ⟨h1, hl, hr⟩ := h
    intro x hx hleaf
    simp only [Node.nodes, List.mem_cons, List.mem_append] at hx
    rcases hx with rfl | hx | hx
    · simp only [Node.isLeaf] at hleaf
      rcases h1 with h1 | h1
      · rw [h1] at hleaf; cases hleaf
      · exact h1
    · exact ihl hl x hx hleaf
    · exact ihr hr x hx hleaf

theorem nodes_leaf (t : Node) :
    ∀ x ∈ t.nodes, x.isLeaf = true → (x.ch, x.freq) ∈ t.leaves := by
  induction t with
  | null => simp [Node.nodes]
  | node c f l r ihl ihr =>
    intro x hx hleaf
    simp only [Node.nodes, List.mem_cons, List.mem_append] at hx
    simp only [Node.leaves, List.mem_append]
    rcases hx with rfl | hx | hx
    · simp only [Node.isLeaf] at hleaf
      simp [hleaf, Node.ch, Node.freq]
    · exact Or.inr (Or.inl (ihl x hx hleaf))
    · exact Or.inr (Or.inr (ihr x hx hleaf))

/-! ## The failures of the later stages -/

theorem strAt_error (str : List Char) (i : Int) (e : Err) (h : strAt str i = .error e) :
    e = .outOfRange := by
  unfold strAt at h
  split at h
  · cases h; rfl
  · split at h
    · cases h
    · split at h
      · cases h
      · cases h; rfl

theorem decode_error (t : Node) (str : List Char) (st : Int × List Nat) (e : Err)
    (h : decode t str st = .error e) : e = .outOfRange := by
  induction t generalizing st with
  | null => simp [decode] at h
  | node c f l r ihl ihr =>
    simp only [decode] at h
    split at h
    · cases h
    · split at h
      · rename_i e' he
        cases h
        exact strAt_error _ _ _ he
      · split at h
        · exact ihl _ h
        · exact ihr _ h

theorem decodeLoop_error (root : Node) (str : List Char) (fuel : Nat) (st : Int × List Nat)
    (e : Err) (h : decodeLoop root str fuel st = .error e) :
    e = .outOfRange ∨ e = .fuel := by
  induction fuel generalizing st with
  | zero =>
    unfold decodeLoop at h
    split at h
    · cases h; exact Or.inr rfl
    · cases h
  | succ fuel ih =>
    rw [decodeLoop] at h
    by_cases hc : st.1 < int32 (int32 (str.length : Int) - 2)
    · simp only [hc, if_true] at h
      cases hd : decode root str st with
      | error e' =>
        rw [hd] at h
        cases h
        exact Or.inl (decode_error _ _ _ _ hd)
      | ok st1 =>
        rw [hd] at h
        exact ih _ h
    · simp only [hc, if_false] at h
      cases h

theorem decodeText_error (root : Node) (str : List Char) (e : Err)
    (h : decodeText root str = .error e) : e = .outOfRange ∨ e = .fuel := by
  cases hd : decodeLoop root str (str.length + 1) (-1, []) with
  | error e' =>
    simp only [decodeText, hd, Except.error.injEq] at h
    subst h
    exact decodeLoop_error _ _ _ _ _ hd
  | ok st =>
    simp only [decodeText, hd] at h
    cases h

theorem buildTree_error (L : Stl) (freq : UMap Int) (e : Err)
    (h : buildTree L freq = .error e) : e = .emptyQueue := by
  by_cases hne : freq = []
  · subst hne
    rw [buildTree_nil] at h
    cases h; rfl
  · obtain ⟨R, hR, _⟩ := buildTree_spec L freq hne
    rw [hR] at h; cases h

theorem buildHuffmanTree_nonAscii_iff (L : Stl) (text : List Nat) :
    buildHuffmanTree L text = .error .nonAscii ↔ ∃ c ∈ text, isascii c = false := by
  constructor
  · intro h
    by_contra hcon
    have hall : ∀ c ∈ text, isascii c = true := by
      intro c hc
      by_contra hc'
      exact hcon ⟨c, hc, by simpa using hc'⟩
    unfold buildHuffmanTree at h
    rw [countFrequencies_nil_ok text hall] at h
    simp only at h
    split at h
    · rename_i e he
      have := buildTree_error L _ e he
      subst this
      cases h
    · cases h
  · intro h
    unfold buildHuffmanTree
    rw [countFrequencies_error text [] h]

/-! ## The decode loop on an encoded text -/

theorem strAt_append (pre rest : List Char) (ch : Char) :
    strAt (pre ++ ch :: rest) (pre.length : Int) = .ok ch := by
  unfold strAt
  have h1 : ¬ ((pre.length : Int) < 0) := by omega
  have h2 : (pre.length : Int).toNat < (pre ++ ch :: rest).length := by simp
  simp only [h1, h2, if_true, if_false, Int.toNat_ofNat, List.getD_eq_getElem?_getD]
  rw [List.getElem?_append_right (Nat.le_refl _)]
  simp

theorem codes_append (t : Node) (str : List Char) :
    t.codes str = (t.codes []).map (fun p => (p.1, str ++ p.2)) := by
  induction t generalizing str with
  | null => rfl
  | node c f l r ihl ihr =>
    simp only [Node.codes, List.map_append, List.nil_append]
    rw [ihl (str ++ ['0']), ihr (str ++ ['1']), ihl ['0'], ihr ['1']]
    simp only [List.map_map]
    congr 1
    · split <;> simp
    · congr 1
      · apply List.map_congr_left; intro p _; simp
      · apply List.map_congr_left; intro p _; simp

/-! ## The decoder with the read of the string as a parameter -/

theorem decode_eq_decodeVia (t : Node) (str : List Char) (st : Int × List Nat) :
    decode t str st = decodeVia (strAt str) t st := by
  induction t generalizing st with
  | null => rfl
  | node c f l r ihl ihr =>
    by_cases hleaf : (l.isNull && r.isNull) = true
    · simp only [decode, decodeVia, hleaf, if_true]
    · cases hs : strAt str (int32 (st.1 + 1)) with
      | error e => simp only [decode, decodeVia, hleaf, hs, if_false, Bool.false_eq_true]
      | ok ch =>
        by_cases h0 : ch = '0'
        · simp only [decode, decodeVia, hleaf, hs, h0, if_true, if_false, Bool.false_eq_true]
          exact ihl _
        · simp only [decode, decodeVia, hleaf, hs, h0, if_false, Bool.false_eq_true]
          exact ihr _

theorem decodeLoop_eq_decodeLoopVia (root : Node) (str : List Char) (fuel : Nat)
    (st : Int × List Nat) :
    decodeLoop root str fuel st = decodeLoopVia (strAt str) root str.length fuel st := by
  induction fuel generalizing st with
  | zero => unfold decodeLoop decodeLoopVia; rfl
  | succ fuel ih =>
    rw [decodeLoop, decodeLoopVia]
    split
    · rw [decode_eq_decodeVia]
      cases decodeVia (strAt str) root st with
      | error e => rfl
      | ok st1 => exact ih st1
    · rfl

theorem strAt_of_inside (str : List Char) (i : Int) (c : Char)
    (h : strAtInside str i = .ok c) : strAt str i = .ok c := by
  unfold strAtInside at h
  unfold strAt
  split at h
  · cases h
  · rename_i h0
    split at h
    · rename_i h1
      simp only [h0, h1, if_true, if_false]
      exact h
    · cases h

/-- A run of `decode` that succeeds with a more restrictive read succeeds with the same
result when the read is less restrictive. -/
theorem decodeVia_mono (rd1 rd2 : Int → Except Err Char)
    (hrd : ∀ i c, rd1 i = .ok c → rd2 i = .ok c) (t : Node) (st r : Int × List Nat)
    (h : decodeVia rd1 t st = .ok r) : decodeVia rd2 t st = .ok r := by
  induction t generalizing st with
  | null => exact h
  | node c f l r' ihl ihr =>
    by_cases hleaf : (l.isNull && r'.isNull) = true
    · simp only [decodeVia, hleaf, if_true] at h ⊢
      exact h
    · cases hs : rd1 (int32 (st.1 + 1)) with
      | error e =>
        simp only [decodeVia, hleaf, hs, if_false, Bool.false_eq_true] at h
        cases h
      | ok ch =>
        have hs2 := hrd _ _ hs
        by_cases h0 : ch = '0'
        · simp only [decodeVia, hleaf, hs, hs2, h0, if_true, if_false,
            Bool.false_eq_true] at h ⊢
          exact ihl _ h
        · simp only [decodeVia, hleaf, hs, hs2, h0, if_false, Bool.false_eq_true] at h ⊢
          exact ihr _ h

theorem decodeLoopVia_mono (rd1 rd2 : Int → Except Err Char)
    (hrd : ∀ i c, rd1 i = .ok c → rd2 i = .ok c) (root : Node) (size fuel : Nat)
    (st r : Int × List Nat) (h : decodeLoopVia rd1 root size fuel st = .ok r) :
    decodeLoopVia rd2 root size fuel st = .ok r := by
  induction fuel generalizing st with
  | zero =>
    unfold decodeLoopVia at h ⊢
    split at h
    · cases h
    · rename_i hc
      simp only [hc, if_false]
      exact h
  | succ fuel ih =>
    rw [decodeLoopVia] at h ⊢
    by_cases hc : st.1 < int32 (int32 (size : Int) - 2)
    · simp only [hc, if_true] at h ⊢
      cases hd : decodeVia rd1 root st with
      | error e => rw [hd] at h; cases h
      | ok st1 =>
        rw [hd] at h
        rw [decodeVia_mono rd1 rd2 hrd root st st1 hd]
        exact ih _ h
    · simp only [hc, if_false] at h ⊢
      exact h

/-- A decode loop that succeeds without reading at or beyond the end of the string is the
decode loop of the program. -/
theorem decodeLoop_of_inside (root : Node) (str : List Char) (fuel : Nat)
    (st r : Int × List Nat)
    (h : decodeLoopVia (strAtInside str) root str.length fuel st = .ok r) :
    decodeLoop root str fuel st = .ok r := by
  rw [decodeLoop_eq_decodeLoopVia]
  exact decodeLoopVia_mono _ _ (strAt_of_inside str) root _ _ _ _ h

theorem strAtInside_append (pre rest : List Char) (ch : Char) :
    strAtInside (pre ++ ch :: rest) (pre.length : Int) = .ok ch := by
  unfold strAtInside
  have h1 : ¬ ((pre.length : Int) < 0) := by omega
  have h2 : (pre.length : Int).toNat < (pre ++ ch :: rest).length := by simp
  simp only [h1, h2, if_true, if_false, Int.toNat_ofNat, List.getD_eq_getElem?_getD]
  rw [List.getElem?_append_right (Nat.le_refl _)]
  simp

/-- On a string of fewer than `2^31` characters the bound of the decode loop is the length of
the string less two. -/
theorem loop_bound (n : Nat) (h : n < 2147483648) :
    int32 (int32 (n : Int) - 2) = (n : Int) - 2 := by
  rw [int32_of_nonneg (n : Int) (by omega) (by omega)]
  exact int32_of_range _ (by omega) (by omega)

/-- The walk along the code of a leaf, in a string of fewer than `2^31` characters, consumes
exactly that code, writes the symbol of the leaf and never reads outside the string. -/
theorem decodeVia_code (t : Node) (c : Nat) (code : List Char) (h : (c, code) ∈ t.codes [])
    (pre post : List Char) (out : List Nat)
    (hlen : (pre ++ (code ++ post)).length < 2147483648) :
    decodeVia (strAtInside (pre ++ (code ++ post))) t ((pre.length : Int) - 1, out) =
      .ok ((pre.length : Int) - 1 + code.length, out ++ [c]) := by
  induction t generalizing code pre with
  | null => simp [Node.codes] at h
  | node c0 f l r ihl ihr =>
    by_cases hleaf : (l.isNull && r.isNull) = true
    · have hln : l = .null := (Node.isNull_iff l).1 (by simp at hleaf; exact hleaf.1)
      have hrn : r = .null := (Node.isNull_iff r).1 (by simp at hleaf; exact hleaf.2)
      subst hln; subst hrn
      simp only [Node.codes, Node.isNull, Bool.and_self, if_true, List.append_nil,
        List.mem_singleton, Prod.mk.injEq] at h
      obtain ⟨rfl, rfl⟩ := h
      simp [decodeVia, Node.isNull]
    · simp only [Node.codes, hleaf, if_false, List.nil_append, List.mem_append,
        Bool.false_eq_true] at h
      have hidx : int32 ((pre.length : Int) - 1 + 1) = (pre.length : Int) := by
        rw [Int.sub_add_cancel]
        apply int32_of_nonneg
        · omega
        · simp only [List.length_append] at hlen; omega
      simp only [decodeVia, hleaf, if_false, Bool.false_eq_true, hidx]
      rcases h with h | h
      · rw [codes_append] at h
        obtain ⟨p, hp, hpe⟩ := List.mem_map.1 h
        simp only [Prod.mk.injEq, List.nil_append] at hpe
        obtain ⟨rfl, rfl⟩ := hpe
        have hs : strAtInside (pre ++ (('0' :: p.2) ++ post)) (pre.length : Int) = .ok '0' := by
          rw [List.cons_append]; exact strAtInside_append pre _ '0'
        simp only [List.singleton_append] at hs hlen ⊢
        rw [hs]
        simp only [if_true]
        have := ihl p.2 hp (pre ++ ['0']) (by
          simp only [List.length_append, List.length_singleton, List.length_cons,
            List.length_nil] at hlen ⊢
          omega)
        simp only [List.length_append, List.length_singleton, Nat.cast_add, Nat.cast_one,
          Int.add_sub_cancel, List.append_assoc, List.singleton_append] at this
        rw [List.cons_append, this]
        simp only [List.length_cons, Nat.cast_add, Nat.cast_one]
        congr 2
        omega
      · rw [codes_append] at h
        obtain ⟨p, hp, hpe⟩ := List.mem_map.1 h
        simp only [Prod.mk.injEq, List.nil_append] at hpe
        obtain ⟨rfl, rfl⟩ := hpe
        have hs : strAtInside (pre ++ (('1' :: p.2) ++ post)) (pre.length : Int) = .ok '1' := by
          rw [List.cons_append]; exact strAtInside_append pre _ '1'
        simp only [List.singleton_append] at hs hlen ⊢
        rw [hs]
        have hne : ¬ ('1' = '0') := by decide
        simp only [hne, if_false]
        have := ihr p.2 hp (pre ++ ['1']) (by
          simp only [List.length_append, List.length_singleton, List.length_cons,
            List.length_nil] at hlen ⊢
          omega)
        simp only [List.length_append, List.length_singleton, Nat.cast_add, Nat.cast_one,
          Int.add_sub_cancel, List.append_assoc, List.singleton_append] at this
        rw [List.cons_append, this]
        simp only [List.length_cons, Nat.cast_add, Nat.cast_one]
        congr 2
        omega

/-- The decode loop on an encoded text of fewer than `2^31` bits, started in front of the
codes of the symbols `rest`, writes the symbols of `decodedPrefix` and never reads outside the
encoded string. -/
theorem decodeLoopVia_spec (root : Node) (g : Nat → List Char) (rest : List Nat)
    (hcode : ∀ s ∈ rest, (s, g s) ∈ root.codes [])
    (pre : List Char) (out : List Nat) (fuel : Nat)
    (hfuel : (decodedPrefix g rest).length ≤ fuel)
    (hlen : (pre ++ (rest.map g).flatten).length < 2147483648) :
    ∃ i, decodeLoopVia (strAtInside (pre ++ (rest.map g).flatten)) root
        (pre ++ (rest.map g).flatten).length fuel ((pre.length : Int) - 1, out) =
      .ok (i, out ++ decodedPrefix g rest) ∧ i < ((pre ++ (rest.map g).flatten).length : Int) := by
  induction rest generalizing pre out fuel with
  | nil =>
    refine ⟨(pre.length : Int) - 1, ?_, ?_⟩
    · have hc : ¬ ((pre.length : Int) - 1 <
          ((pre ++ (([] : List Nat).map g).flatten).length : Int) - 2) := by
        simp only [List.map_nil, List.flatten_nil, List.append_nil]
        omega
      unfold decodeLoopVia
      rw [loop_bound _ hlen]
      simp only [hc, if_false, decodedPrefix, List.append_nil]
    · simp only [List.map_nil, List.flatten_nil, List.append_nil]
      omega
  | cons s rest ih =>
    by_cases hcond : 2 ≤ (g s).length + ((rest.map g).flatten).length
    · have hdp : decodedPrefix g (s :: rest) = s :: decodedPrefix g rest := by
        simp only [decodedPrefix, hcond, if_true]
      rw [hdp] at hfuel ⊢
      cases fuel with
      | zero => simp at hfuel
      | succ fuel =>
        have hlt : (pre.length : Int) - 1 <
            ((pre ++ ((s :: rest).map g).flatten).length : Int) - 2 := by
          simp only [List.map_cons, List.flatten_cons, List.length_append, Nat.cast_add]
          omega
        have hstr : pre ++ ((s :: rest).map g).flatten =
            (pre ++ g s) ++ (rest.map g).flatten := by
          simp only [List.map_cons, List.flatten_cons, List.append_assoc]
        have hdec := decodeVia_code root s (g s) (hcode s (List.mem_cons_self _ _)) pre
          ((rest.map g).flatten) out (by
            simp only [List.map_cons, List.flatten_cons] at hlen
            exact hlen)
        obtain ⟨i, hi, hib⟩ := ih (fun x hx => hcode x (List.mem_cons_of_mem _ hx))
          (pre ++ g s) (out ++ [s]) fuel (by simpa using hfuel) (by rw [← hstr]; exact hlen)
        refine ⟨i, ?_, ?_⟩
        · rw [decodeLoopVia, loop_bound _ hlen]
          simp only [hlt, if_true]
          have hdec' : decodeVia (strAtInside (pre ++ ((s :: rest).map g).flatten)) root
              ((pre.length : Int) - 1, out) =
              .ok ((pre.length : Int) - 1 + (g s).length, out ++ [s]) := by
            simp only [List.map_cons, List.flatten_cons]
            exact hdec
          rw [hdec']
          simp only
          have e : ((pre.length : Int) - 1 + (g s).length) =
              ((pre ++ g s).length : Int) - 1 := by
            simp only [List.length_append, Nat.cast_add]; omega
          rw [e, hstr, hi]
          simp
        · rw [hstr]; exact hib
    · have hdp : decodedPrefix g (s :: rest) = [] := by
        simp only [decodedPrefix, hcond, if_false]
      rw [hdp]
      refine ⟨(pre.length : Int) - 1, ?_, ?_⟩
      · have hc : ¬ ((pre.length : Int) - 1 <
            ((pre ++ ((s :: rest).map g).flatten).length : Int) - 2) := by
          simp only [List.map_cons, List.flatten_cons, List.length_append, Nat.cast_add]
          omega
        unfold decodeLoopVia
        rw [loop_bound _ hlen]
        simp only [hc, if_false, List.append_nil]
      · simp only [List.length_append, Nat.cast_add]
        omega

theorem encodeText_eq (hc : UMap (List Char)) (text : List Nat) :
    encodeText hc text = (text.map (fun ch => UMap.get hc ch [])).flatten := by
  have h : ∀ (l : List Nat) (acc : List Char),
      l.foldl (fun str ch => str ++ UMap.get hc ch []) acc =
        acc ++ (l.map (fun ch => UMap.get hc ch [])).flatten := by
    intro l
    induction l with
    | nil => intro acc; simp
    | cons x xs ih => intro acc; simp [ih]
  simpa [encodeText] using h text []

theorem decodedPrefix_length_le (g : Nat → List Char) (rest : List Nat) :
    (decodedPrefix g rest).length ≤ rest.length := by
  induction rest with
  | nil => simp [decodedPrefix]
  | cons s rest ih =>
    simp only [decodedPrefix]
    split
    · simp only [List.length_cons]; omega
    · simp

theorem length_le_flatten (g : Nat → List Char) (rest : List Nat)
    (h : ∀ s ∈ rest, g s ≠ []) : rest.length ≤ ((rest.map g).flatten).length := by
  induction rest with
  | nil => simp
  | cons s rest ih =>
    have h1 : 0 < (g s).length := List.length_pos.2 (h s (List.mem_cons_self _ _))
    have h2 := ih (fun x hx => h x (List.mem_cons_of_mem _ hx))
    simp only [List.map_cons, List.flatten_cons, List.length_append, List.length_cons]
    omega

theorem flatten_nil_of_empty (g : Nat → List Char) (rest : List Nat)
    (h : ∀ s ∈ rest, g s = []) : (rest.map g).flatten = [] := by
  induction rest with
  | nil => rfl
  | cons s rest ih =>
    simp only [List.map_cons, List.flatten_cons, h s (List.mem_cons_self _ _),
      List.nil_append]
    exact ih (fun x hx => h x (List.mem_cons_of_mem _ hx))

theorem decodedPrefix_of_empty (g : Nat → List Char) (rest : List Nat)
    (h : ∀ s ∈ rest, g s = []) : decodedPrefix g rest = [] := by
  cases rest with
  | nil => rfl
  | cons s rest =>
    have h1 := flatten_nil_of_empty g rest (fun x hx => h x (List.mem_cons_of_mem _ hx))
    simp [decodedPrefix, h s (List.mem_cons_self _ _), h1]

/-- The codes of a tree are all empty (the root is a leaf) or all non-empty. -/
theorem codes_empty_or_not (t : Node) :
    (∀ p ∈ t.codes [], p.2 = []) ∨ (∀ p ∈ t.codes [], p.2 ≠ []) := by
  cases t with
  | null => left; simp [Node.codes]
  | node c f l r =>
    by_cases hleaf : (l.isNull && r.isNull) = true
    · have hln : l = .null := (Node.isNull_iff l).1 (by simp at hleaf; exact hleaf.1)
      have hrn : r = .null := (Node.isNull_iff r).1 (by simp at hleaf; exact hleaf.2)
      subst hln; subst hrn
      left
      simp [Node.codes, Node.isNull]
    · right
      intro p hp
      simp only [Node.codes, hleaf, if_false, List.nil_append, List.mem_append,
        Bool.false_eq_true] at hp
      rcases hp with hp | hp
      · have := codes_extend l _ p hp
        intro e
        rw [e] at this
        simp at this
      · have := codes_extend r _ p hp
        intro e
        rw [e] at this
        simp at this

theorem decodedPrefix_fuel (t : Node) (g : Nat → List Char) (text : List Nat)
    (hcode : ∀ s ∈ text, (s, g s) ∈ t.codes []) :
    (decodedPrefix g text).length ≤ ((text.map g).flatten).length + 1 := by
  rcases codes_empty_or_not t with h | h
  · rw [decodedPrefix_of_empty g text (fun s hs => h _ (hcode s hs))]
    simp
  · have h1 := decodedPrefix_length_le g text
    have h2 := length_le_flatten g text (fun s hs => h _ (hcode s hs))
    omega

/-- The code table gives every symbol of a leaf a code recorded by the traversal. -/
theorem assignCodes_mem_codes (t : Node) (hn : (t.leaves.map Prod.fst).Nodup) (s : Nat)
    (hs : s ∈ t.leaves.map Prod.fst) :
    (s, UMap.get (assignCodes t).1 s []) ∈ t.codes [] := by
  rw [← rows_leaves t [], List.map_map] at hs
  obtain ⟨x, hx, rfl⟩ := List.mem_map.1 hs
  have hfind := assignCodes_row t hn x hx
  simp only [Function.comp, UMap.get, hfind, Option.getD_some]
  rw [← rows_codes]
  exact List.mem_map.2 ⟨x, hx, rfl⟩

/-- The decode loop on the encoding of a text over the symbols of the tree, when the encoded
text has fewer than `2^31` bits, ends without failure, writes `decodedPrefix`, reads inside
the encoded string only and ends with an index inside it. -/
theorem decodeLoop_encoded (t : Node) (hn : (t.leaves.map Prod.fst).Nodup) (text : List Nat)
    (hmem : ∀ s ∈ text, s ∈ t.leaves.map Prod.fst)
    (hlen : (encodeText (assignCodes t).1 text).length < 2147483648) :
    ∃ i, decodeLoopVia (strAtInside (encodeText (assignCodes t).1 text)) t
        (encodeText (assignCodes t).1 text).length
        ((encodeText (assignCodes t).1 text).length + 1) (-1, []) =
        .ok (i, decodedPrefix (fun ch => UMap.get (assignCodes t).1 ch []) text) ∧
      decodeLoop t (encodeText (assignCodes t).1 text)
        ((encodeText (assignCodes t).1 text).length + 1) (-1, []) =
        .ok (i, decodedPrefix (fun ch => UMap.get (assignCodes t).1 ch []) text) ∧
      i < ((encodeText (assignCodes t).1 text).length : Int) := by
  have hcode : ∀ s ∈ text, (s, UMap.get (assignCodes t).1 s []) ∈ t.codes [] :=
    fun s hs => assignCodes_mem_codes t hn s (hmem s hs)
  have hfuel := decodedPrefix_fuel t (fun ch => UMap.get (assignCodes t).1 ch []) text hcode
  rw [encodeText_eq] at hlen ⊢
  obtain ⟨i, hi, hib⟩ := decodeLoopVia_spec t (fun ch => UMap.get (assignCodes t).1 ch [])
    text hcode [] [] _ hfuel (by simpa using hlen)
  simp only [List.nil_append, List.length_nil, Nat.cast_zero, Int.zero_sub] at hi hib
  exact ⟨i, hi, decodeLoop_of_inside _ _ _ _ _ hi, hib⟩

theorem roundTrip_spec (t : Node) (hn : (t.leaves.map Prod.fst).Nodup) (text : List Nat)
    (hmem : ∀ s ∈ text, s ∈ t.leaves.map Prod.fst)
    (hlen : (encodeText (assignCodes t).1 text).length < 2147483648) :
    roundTrip t text =
      .ok (decodedPrefix (fun ch => UMap.get (assignCodes t).1 ch []) text) := by
  obtain ⟨i, _, hi, _⟩ := decodeLoop_encoded t hn text hmem hlen
  simp only [roundTrip, decodeText, hi]

/-! ## The stages of a run -/

theorem tally_range (text : List Nat) (hlen : text.length < 2147483648) :
    ∀ p ∈ tally text [], 0 ≤ p.2 ∧ p.2 < 2147483648 := by
  intro p hp
  obtain ⟨h1, _⟩ := tally_entry text p.1 p.2 hp
  have := List.count_le_length (a := p.1) (l := text)
  omega

/-- For a text of fewer than `2^31` symbols the counts of the frequency map are the numbers
of occurrences. -/
theorem tally_wrap (text : List Nat) (hlen : text.length < 2147483648) :
    (tally text []).wrap = tally text [] :=
  UMap.wrap_eq_self _ (fun p hp => by have := tally_range text hlen p hp; omega)

theorem wrap_ne_nil (m : UMap Int) (h : m ≠ []) : m.wrap ≠ [] := by
  cases m with
  | nil => exact absurd rfl h
  | cons p m => simp [UMap.wrap]

/-- The fields of the record of a run. -/
theorem report_fields (L : Stl) (text : List Nat) (freq : UMap Int) (root : Node)
    (out : Output) (h : out = report L text freq root) :
    out.total = countTotalCharacters text ∧ out.freq = freq ∧ out.root = root ∧
      out.huffmanCode = (assignCodes root).1 ∧ out.order = (assignCodes root).2 ∧
      out.bitCountMap = (lengthStats L freq (assignCodes root).1).1 ∧
      out.freqBitCountMap = (lengthStats L freq (assignCodes root).1).2 ∧
      out.maxBitCount = maxBitCount L (lengthStats L freq (assignCodes root).1).2 ∧
      out.str = encodeText (assignCodes root).1 text ∧
      out.decoded = roundTrip root text ∧
      out.bitsBefore = text.length * 8 ∧
      out.bitsAfter = (encodeText (assignCodes root).1 text).length := by
  subst h
  exact ⟨rfl, rfl, rfl, rfl, rfl, rfl, rfl, rfl, rfl, rfl, rfl, rfl⟩

/-- A run that completes has gone through the three stages. -/
theorem buildHuffmanTree_stages (L : Stl) (text : List Nat) (out : Output)
    (h : buildHuffmanTree L text = .ok out) :
    countFrequencies text [] = .ok out.freq ∧ buildTree L out.freq = .ok out.root ∧
      out = report L text out.freq out.root := by
  unfold buildHuffmanTree at h
  cases hf : countFrequencies text [] with
  | error e => rw [hf] at h; cases h
  | ok freq =>
    rw [hf] at h
    simp only at h
    cases hb : buildTree L freq with
    | error e => rw [hb] at h; cases h
    | ok root =>
      rw [hb] at h
      simp only [Except.ok.injEq] at h
      subst h
      exact ⟨rfl, hb, rfl⟩

/-- Everything the later statements need about a run on a non-empty text of 7-bit ASCII
symbols: the run completes, whatever the length of the text. -/
theorem run_facts (L : Stl) (text : List Nat) (hne : text ≠ [])
    (hascii : ∀ c ∈ text, isascii c = true) :
    ∃ out, buildHuffmanTree L text = .ok out ∧ out.freq = (tally text []).wrap ∧
      buildTree L out.freq = .ok out.root ∧
      Merges ((out.freq.map leafOf : List Node) : Multiset Node) out.root ∧
      out.root.Strict ∧ out.root.leaves.Perm out.freq ∧
      (out.root.leaves.map Prod.fst).Nodup ∧
      (∀ s ∈ text, s ∈ out.root.leaves.map Prod.fst) ∧
      out = report L text out.freq out.root := by
  obtain ⟨root, hroot, hM⟩ := buildTree_spec L (tally text []).wrap
    (wrap_ne_nil _ (tally_ne_nil text hne))
  obtain ⟨hS, hperm⟩ := hM.of_map
  have hk : (tally text []).wrap.keys.Nodup := by
    rw [UMap.wrap_keys]; exact tally_nodup text [] List.nodup_nil
  refine ⟨report L text (tally text []).wrap root,
    buildHuffmanTree_eq L text _ root (countFrequencies_nil_ok text hascii) hroot,
    rfl, hroot, hM, hS, hperm, ?_, ?_, rfl⟩
  · exact ((hperm.map Prod.fst).nodup_iff).2 hk
  · intro s hs
    show s ∈ root.leaves.map Prod.fst
    rw [(hperm.map Prod.fst).mem_iff]
    show s ∈ (tally text []).wrap.keys
    rw [UMap.wrap_keys]
    exact (tally_mem_keys text [] s).2 (Or.inr hs)

/-- A run on a non-empty text of fewer than `2^31` 7-bit ASCII symbols: no counter and no
sum overflows. -/
theorem run_facts_bounded (L : Stl) (text : List Nat) (hne : text ≠ [])
    (hascii : ∀ c ∈ text, isascii c = true) (hlen : text.length < 2147483648) :
    ∃ out, buildHuffmanTree L text = .ok out ∧ out.freq = tally text [] ∧
      buildTree L out.freq = .ok out.root ∧
      Merges ((out.freq.map leafOf : List Node) : Multiset Node) out.root ∧
      out.root.Strict ∧ out.root.leaves.Perm out.freq ∧
      (out.root.leaves.map Prod.fst).Nodup ∧
      (∀ s ∈ text, s ∈ out.root.leaves.map Prod.fst) ∧
      out = report L text out.freq out.root ∧
      out.root.WeightOK ∧ (∀ p ∈ out.freq, 0 ≤ p.2) ∧
      (out.freq.map Prod.snd).sum = (text.length : Int) := by
  obtain ⟨out, ho, hf, hb, hM, hS, hperm, hn, hmem, hr⟩ := run_facts L text hne hascii
  rw [tally_wrap text hlen] at hf
  have hnn : ∀ p ∈ out.freq, 0 ≤ p.2 := by
    intro p hp
    rw [hf] at hp
    exact (tally_range text hlen p hp).1
  have hsum : (out.freq.map Prod.snd).sum = (text.length : Int) := by
    rw [hf, tally_sum]; simp
  refine ⟨out, ho, hf, hb, hM, hS, hperm, hn, hmem, hr, ?_, hnn, hsum⟩
  exact hM.weightOK_of_map hnn (by rw [hsum]; omega)

/-! ## Length of the encoded string -/

theorem UMap.weighted_modify (h : Nat → Int) (m : UMap Int) (k : Nat) :
    ((UMap.modify m k 0 (· + 1)).map (fun p => p.2 * h p.1)).sum =
      (m.map (fun p => p.2 * h p.1)).sum + h k := by
  induction m with
  | nil => simp [UMap.modify]
  | cons p m ih =>
    obtain ⟨a, v⟩ := p
    by_cases hak : a = k
    · subst hak
      simp only [UMap.modify, if_true, List.map_cons, List.sum_cons]
      ring
    · simp only [UMap.modify, hak, if_false, List.map_cons, List.sum_cons, ih]
      ring

theorem tally_weighted (h : Nat → Int) (text : List Nat) (freq : UMap Int) :
    ((tally text freq).map (fun p => p.2 * h p.1)).sum =
      (freq.map (fun p => p.2 * h p.1)).sum + (text.map h).sum := by
  induction text generalizing freq with
  | nil => simp [tally]
  | cons x rest ih =>
    have := ih (UMap.modify freq x 0 (· + 1))
    simp only [tally, List.foldl_cons] at this ⊢
    rw [this, UMap.weighted_modify, List.map_cons, List.sum_cons]
    ring

theorem encodeText_length (hc : UMap (List Char)) (text : List Nat) :
    (encodeText hc text).length = (text.map (fun c => (UMap.get hc c []).length)).sum := by
  rw [encodeText_eq, List.length_flatten, List.map_map]
  rfl

theorem cast_sum_map {α : Type} (l : List α) (f : α → Nat) :
    (((l.map f).sum : Nat) : Int) = (l.map (fun x => (f x : Int))).sum := by
  induction l with
  | nil => rfl
  | cons a l ih => simp only [List.map_cons, List.sum_cons, Nat.cast_add, ih]

/-- The length of the encoded text is the sum over the distinct symbols of the number of
occurrences times the length of the code. -/
theorem encodeText_length_eq_costOf (hc : UMap (List Char)) (text : List Nat) :
    ((encodeText hc text).length : Int) = costOf (tally text []) hc := by
  rw [encodeText_length, costOf,
    tally_weighted (fun c => ((UMap.get hc c []).length : Int)) text [], cast_sum_map]
  simp

/-! ## Codes of the symbols of the text -/

/-- The row of the leaf that carries a given symbol. -/
theorem row_of_symbol (t : Node) (s : Nat) (hs : s ∈ t.leaves.map Prod.fst) :
    ∃ x ∈ t.rows [], x.1 = s := by
  rw [← rows_leaves t [], List.map_map] at hs
  obtain ⟨x, hx, rfl⟩ := List.mem_map.1 hs
  exact ⟨x, hx, rfl⟩

theorem row_code (t : Node) (hn : (t.leaves.map Prod.fst).Nodup)
    (x : Nat × Int × List Char) (hx : x ∈ t.rows []) :
    UMap.get (assignCodes t).1 x.1 [] = x.2.2 := by
  simp only [UMap.get, assignCodes_row t hn x hx, Option.getD_some]

theorem row_mem_leaves (t : Node) (x : Nat × Int × List Char) (hx : x ∈ t.rows []) :
    (x.1, x.2.1) ∈ t.leaves := by
  rw [← rows_leaves t []]
  exact List.mem_map.2 ⟨x, hx, rfl⟩

theorem row_mem_codes (t : Node) (x : Nat × Int × List Char) (hx : x ∈ t.rows []) :
    (x.1, x.2.2) ∈ t.codes [] := by
  rw [← rows_codes t []]
  exact List.mem_map.2 ⟨x, hx, rfl⟩

theorem find_mem_codes (t : Node) (c : Nat) (code : List Char)
    (h : UMap.find (assignCodes t).1 c = some code) : (c, code) ∈ t.codes [] := by
  rw [assignCodes_eq] at h
  rcases UMap.find_assignAll _ _ _ _ h with h | h
  · exact h
  · simp [UMap.find] at h

/-- A tree with two different symbols among its leaves has no empty code. -/
theorem codes_ne_nil_of_two (t : Node) (hn : (t.leaves.map Prod.fst).Nodup) (a b : Nat)
    (ha : a ∈ t.leaves.map Prod.fst) (hb : b ∈ t.leaves.map Prod.fst) (hab : a ≠ b) :
    ∀ p ∈ t.codes [], p.2 ≠ [] := by
  rcases codes_empty_or_not t with h | h
  · exfalso
    obtain ⟨x, hx, hxa⟩ := row_of_symbol t a ha
    obtain ⟨y, hy, hyb⟩ := row_of_symbol t b hb
    have fx := assignCodes_row t hn x hx
    have fy := assignCodes_row t hn y hy
    have ex : x.2.2 = [] := h (x.1, x.2.2) (row_mem_codes t x hx)
    have ey : y.2.2 = [] := h (y.1, y.2.2) (row_mem_codes t y hy)
    rw [hxa, ex] at fx
    rw [hyb, ey] at fy
    exact (assignCodes_incomparable t a b [] [] hab fx fy).1 (List.prefix_refl _)
  · exact h

theorem isLeaf_codes (t : Node) (h : t.isLeaf = true) : ∃ c, t.codes [] = [(c, [])] := by
  cases t with
  | null => simp [Node.isLeaf] at h
  | node c f l r =>
    simp only [Node.isLeaf] at h
    have hln : l = .null := (Node.isNull_iff l).1 (by simp at h; exact h.1)
    have hrn : r = .null := (Node.isNull_iff r).1 (by simp at h; exact h.2)
    subst hln; subst hrn
    exact ⟨c, by simp [Node.codes, Node.isNull]⟩

/-! ## More frequent symbols do not get longer codes -/

theorem swap_cost_lt {α : Type} [DecidableEq α] (P : Finset α) (w d : α → Int) (s p : α)
    (hs : s ∈ P) (hp : p ∈ P) (hw : w p < w s) (hd : d p < d s) :
    ∑ x ∈ P, w (Equiv.swap s p x) * d x < ∑ x ∈ P, w x * d x := by
  have hsp : s ≠ p := by rintro rfl; exact absurd hw (lt_irrefl _)
  rw [sum_split_two P s p hs hp hsp (fun x => w (Equiv.swap s p x) * d x),
    sum_split_two P s p hs hp hsp (fun x => w x * d x)]
  have hrest : ∑ x ∈ (P.erase s).erase p, w (Equiv.swap s p x) * d x =
      ∑ x ∈ (P.erase s).erase p, w x * d x := by
    apply Finset.sum_congr rfl
    intro x hx
    have h2 : x ≠ p := (Finset.mem_erase.1 hx).1
    have h1 : x ≠ s := (Finset.mem_erase.1 (Finset.mem_erase.1 hx).2).1
    rw [Equiv.swap_apply_of_ne_of_ne h1 h2]
  simp only [Equiv.swap_apply_left, Equiv.swap_apply_right, hrest]
  have := mul_pos (sub_pos.2 hw) (sub_pos.2 hd)
  nlinarith

/-- The path in the shape of a tree that belongs to a row. -/
theorem row_path (t : Node) (str : List Char) (x : Nat × Int × List Char)
    (hx : x ∈ t.rows str) :
    ∃ p ∈ t.shape.paths, t.weightAt p = x.2.1 ∧ str.length + p.length = x.2.2.length := by
  induction t generalizing str with
  | null => simp [Node.rows] at hx
  | node c f l r ihl ihr =>
    by_cases hleaf : (l.isNull && r.isNull) = true
    · have hln : l = .null := (Node.isNull_iff l).1 (by simp at hleaf; exact hleaf.1)
      have hrn : r = .null := (Node.isNull_iff r).1 (by simp at hleaf; exact hleaf.2)
      subst hln; subst hrn
      simp only [Node.rows, Node.isNull, Bool.and_self, if_true, List.append_nil,
        List.mem_singleton] at hx
      subst hx
      exact ⟨[], by simp [Node.shape, Node.isNull, Shape.paths],
        by simp [Node.weightAt, Node.isNull], by simp⟩
    · simp only [Node.rows, hleaf, if_false, List.nil_append, List.mem_append,
        Bool.false_eq_true] at hx
      rcases hx with hx | hx
      · obtain ⟨p, hp, hw, hl⟩ := ihl _ hx
        refine ⟨false :: p, ?_, ?_, ?_⟩
        · simp only [Node.shape, hleaf, if_false, Bool.false_eq_true]
          exact (Shape.mem_paths_node _ _ _).2 (Or.inl ⟨p, hp, rfl⟩)
        · simp only [Node.weightAt, hleaf, if_false, Bool.false_eq_true]
          exact hw
        · simp only [List.length_append, List.length_singleton, List.length_cons,
            List.length_nil] at hl ⊢
          omega
      · obtain ⟨p, hp, hw, hl⟩ := ihr _ hx
        refine ⟨true :: p, ?_, ?_, ?_⟩
        · simp only [Node.shape, hleaf, if_false, Bool.false_eq_true]
          exact (Shape.mem_paths_node _ _ _).2 (Or.inr ⟨p, hp, rfl⟩)
        · simp only [Node.weightAt, hleaf, if_false, Bool.false_eq_true]
          exact hw
        · simp only [List.length_append, List.length_singleton, List.length_cons,
            List.length_nil] at hl ⊢
          omega

/-- In the tree the merge loop returns, a leaf of smaller weight is not nearer to the root
than a leaf of greater weight. -/
theorem Merges.monotone {freq : UMap Int} {R : Node}
    (h : Merges ((freq.map leafOf : List Node) : Multiset Node) R)
    (hnn : ∀ p ∈ freq, 0 ≤ p.2) (hsum : (freq.map Prod.snd).sum < 2147483648)
    (x y : Nat × Int × List Char) (hx : x ∈ R.rows []) (hy : y ∈ R.rows [])
    (hlt : x.2.1 < y.2.1) : y.2.2.length ≤ x.2.2.length := by
  by_contra hcon
  have hS := leafOf_map_strict freq
  have hW := leafOf_map_weightOK freq
  have hB := leafOf_map_bounded freq hnn hsum
  obtain ⟨hRS, hperm⟩ := h.of_map
  obtain ⟨px, hpx, hwx, hlx⟩ := row_path R [] x hx
  obtain ⟨py, hpy, hwy, hly⟩ := row_path R [] y hy
  simp only [List.length_nil, Nat.zero_add] at hlx hly
  have hw : R.shape.weights (fun p => R.weightAt (Equiv.swap py px p)) =
      (((freq.map leafOf : List Node) : Multiset Node)).map Node.freq := by
    have e : R.shape.weights (fun p => R.weightAt (Equiv.swap py px p)) =
        R.shape.weights R.weightAt := swap_weights R.shape.paths R.weightAt py px hpy hpx
    rw [e, Node.weights_shape R hRS, freq_leaves, Multiset.coe_eq_coe]
    exact hperm.map Prod.snd
  have key := h.wpl_le hS hW hB R.shape _ hw
  rw [wpl_leaves_zero, zero_add] at key
  have hlt' : R.shape.cost (fun p => R.weightAt (Equiv.swap py px p)) <
      R.shape.cost R.weightAt :=
    swap_cost_lt R.shape.paths R.weightAt (fun p => (p.length : Int)) py px hpy hpx
      (by rw [hwx, hwy]; exact hlt) (by simp only; omega)
  rw [Node.cost_shape R hRS] at hlt'
  omega

/-! ## Maps filled by `m[k] += v` -/

theorem UMap.get_modify_add (m : UMap Int) (a : Nat) (v : Int) (k : Nat) :
    UMap.get (UMap.modify m a 0 (· + v)) k 0 =
      UMap.get m k 0 + (if k = a then v else 0) := by
  unfold UMap.get
  rw [UMap.find_modify]
  by_cases h : k = a
  · subst h; simp
  · simp [h]

theorem UMap.sum_modify_add (m : UMap Int) (a : Nat) (v : Int) :
    ((UMap.modify m a 0 (· + v)).map Prod.snd).sum = (m.map Prod.snd).sum + v := by
  induction m with
  | nil => simp [UMap.modify]
  | cons p m ih =>
    obtain ⟨b, w⟩ := p
    by_cases h : b = a
    · simp [UMap.modify, h]; omega
    · simp [UMap.modify, h, ih]; omega

theorem UMap.wsum_modify_add (m : UMap Int) (a : Nat) (v : Int) :
    ((UMap.modify m a 0 (· + v)).map (fun p => (p.1 : Int) * p.2)).sum =
      (m.map (fun p => (p.1 : Int) * p.2)).sum + (a : Int) * v := by
  induction m with
  | nil => simp [UMap.modify]
  | cons p m ih =>
    obtain ⟨b, w⟩ := p
    by_cases h : b = a
    · subst h
      simp only [UMap.modify, if_true, List.map_cons, List.sum_cons]
      ring
    · simp only [UMap.modify, h, if_false, List.map_cons, List.sum_cons, ih]
      ring

theorem UMap.get_addAll (l : List (Nat × Int)) (m : UMap Int) (k : Nat) :
    UMap.get (UMap.addAll m l) k 0 =
      UMap.get m k 0 + ((l.filter (fun p => p.1 = k)).map Prod.snd).sum := by
  induction l generalizing m with
  | nil => simp [UMap.addAll]
  | cons p l ih =>
    have := ih (UMap.modify m p.1 0 (· + p.2))
    simp only [UMap.addAll, List.foldl_cons] at this ⊢
    rw [this, UMap.get_modify_add]
    by_cases h : k = p.1
    · subst h; simp [List.filter_cons]; omega
    · have h' : ¬ p.1 = k := fun e => h e.symm
      simp [List.filter_cons, h, h']

theorem UMap.keys_addAll (l : List (Nat × Int)) (m : UMap Int) (k : Nat) :
    k ∈ (UMap.addAll m l).keys ↔ k ∈ m.keys ∨ k ∈ l.map Prod.fst := by
  induction l generalizing m with
  | nil => simp [UMap.addAll]
  | cons p l ih =>
    simp only [UMap.addAll, List.foldl_cons] at ih ⊢
    rw [ih, UMap.keys_modify]
    by_cases hp : p.1 ∈ m.keys
    · simp only [hp, if_true, List.map_cons, List.mem_cons]
      constructor
      · rintro (h | h)
        · exact Or.inl h
        · exact Or.inr (Or.inr h)
      · rintro (h | h | h)
        · exact Or.inl h
        · exact Or.inl (h ▸ hp)
        · exact Or.inr h
    · simp only [hp, if_false, List.mem_append, List.mem_singleton, List.map_cons,
        List.mem_cons]
      tauto

theorem UMap.nodup_addAll (l : List (Nat × Int)) (m : UMap Int) (h : m.keys.Nodup) :
    (UMap.addAll m l).keys.Nodup := by
  induction l generalizing m with
  | nil => exact h
  | cons p l ih => exact ih _ (UMap.nodup_modify m p.1 0 _ h)

theorem UMap.sum_addAll (l : List (Nat × Int)) (m : UMap Int) :
    ((UMap.addAll m l).map Prod.snd).sum = (m.map Prod.snd).sum + (l.map Prod.snd).sum := by
  induction l generalizing m with
  | nil => simp [UMap.addAll]
  | cons p l ih =>
    have := ih (UMap.modify m p.1 0 (· + p.2))
    simp only [UMap.addAll, List.foldl_cons] at this ⊢
    rw [this, UMap.sum_modify_add, List.map_cons, List.sum_cons]
    omega

theorem UMap.wsum_addAll (l : List (Nat × Int)) (m : UMap Int) :
    ((UMap.addAll m l).map (fun p => (p.1 : Int) * p.2)).sum =
      (m.map (fun p => (p.1 : Int) * p.2)).sum + (l.map (fun p => (p.1 : Int) * p.2)).sum := by
  induction l generalizing m with
  | nil => simp [UMap.addAll]
  | cons p l ih =>
    have := ih (UMap.modify m p.1 0 (· + p.2))
    simp only [UMap.addAll, List.foldl_cons] at this ⊢
    rw [this, UMap.wsum_modify_add, List.map_cons, List.sum_cons]
    omega

/-- The two maps of `lengthStats` are the maps filled by `+=` on integers, with their values
taken as `int`. -/
theorem lengthStats_eq (L : Stl) (freq : UMap Int) (hc : UMap (List Char)) :
    lengthStats L freq hc = ((lengthTotals L freq hc).1.wrap, (lengthTotals L freq hc).2.wrap) := by
  have h : ∀ (l : List (Nat × List Char)) (m1 m2 : UMap Int),
      l.foldl
        (fun maps pair =>
          (UMap.modify maps.1 pair.2.length 0 (fun v => int32 (v + 1)),
           UMap.modify maps.2 pair.2.length 0 (fun v => int32 (v + UMap.get freq pair.1 0))))
        (m1.wrap, m2.wrap) =
      ((UMap.addAll m1 (l.map (fun p => (p.2.length, 1)))).wrap,
       (UMap.addAll m2 (l.map (fun p => (p.2.length, UMap.get freq p.1 0)))).wrap) := by
    intro l
    induction l with
    | nil => intro m1 m2; rfl
    | cons p l ih =>
      intro m1 m2
      simp only [List.foldl_cons, List.map_cons, UMap.addAll, UMap.modify_wrap]
      exact ih _ _
  exact h (L.iter hc) [] []

/-! ## The code table as a list -/

theorem UMap.modify_of_not_mem {ν : Type} (m : UMap ν) (k : Nat) (d : ν) (f : ν → ν)
    (h : k ∉ m.keys) : UMap.modify m k d f = m ++ [(k, f d)] := by
  induction m with
  | nil => rfl
  | cons p m ih =>
    obtain ⟨a, v⟩ := p
    simp only [UMap.keys, List.map_cons, List.mem_cons, not_or] at h
    have hak : ¬ a = k := fun e => h.1 e.symm
    simp only [UMap.modify, hak, if_false, List.cons_append]
    rw [ih h.2]

theorem UMap.assignAll_of_nodup (l : List (Nat × List Char)) (m : UMap (List Char))
    (h : (m.keys ++ l.map Prod.fst).Nodup) : UMap.assignAll m l = m ++ l := by
  induction l generalizing m with
  | nil => simp [UMap.assignAll]
  | cons p l ih =>
    have hp : p.1 ∉ m.keys := by
      intro hm
      have := (List.nodup_append.1 h).2.2
      exact this hm (by simp)
    simp only [UMap.assignAll, List.foldl_cons] at ih ⊢
    rw [UMap.modify_of_not_mem m p.1 [] _ hp, ih]
    · simp
    · simp only [UMap.keys, List.map_append, List.map_cons, List.map_nil,
        List.append_assoc, List.singleton_append] at h ⊢
      exact h

/-- With distinct symbols in the leaves, the code table is the list of the recorded pairs. -/
theorem assignCodes_table (t : Node) (hn : (t.leaves.map Prod.fst).Nodup) :
    (assignCodes t).1 = t.codes [] := by
  rw [assignCodes_eq]
  have := UMap.assignAll_of_nodup (t.codes []) [] (by
    simp only [UMap.keys, List.map_nil, List.nil_append]
    rw [codes_keys]; exact hn)
  simpa using this

/-! ## The statistics per code length -/

theorem sum_filter_keyed {α : Type} (l : List α) (key : α → Nat) (val : α → Int) (k : Nat) :
    (((l.map (fun p => (key p, val p))).filter (fun q => q.1 = k)).map Prod.snd).sum =
      ((l.filter (fun p => key p = k)).map val).sum := by
  induction l with
  | nil => rfl
  | cons a l ih =>
    by_cases h : key a = k
    · simp [List.filter_cons, h, ih]
    · simp [List.filter_cons, h, ih]

theorem get_freq_row (freq : UMap Int) (hk : freq.keys.Nodup) (t : Node)
    (hl : t.leaves.Perm freq) (x : Nat × Int × List Char) (hx : x ∈ t.rows []) :
    UMap.get freq x.1 0 = x.2.1 := by
  have hm : (x.1, x.2.1) ∈ freq := hl.mem_iff.1 (row_mem_leaves t x hx)
  simp only [UMap.get, UMap.find_of_mem freq x.1 x.2.1 hk hm, Option.getD_some]

theorem table_eq_rows (t : Node) (hn : (t.leaves.map Prod.fst).Nodup) :
    (assignCodes t).1 = (t.rows []).map (fun x => (x.1, x.2.2)) := by
  rw [assignCodes_table t hn, rows_codes]

theorem table_length (freq : UMap Int) (hk : freq.keys.Nodup) (t : Node)
    (hl : t.leaves.Perm freq) : (assignCodes t).1.length = freq.length := by
  have hn : (t.leaves.map Prod.fst).Nodup := ((hl.map Prod.fst).nodup_iff).2 hk
  rw [table_eq_rows t hn, List.length_map, ← hl.length_eq, ← rows_leaves t [], List.length_map]

theorem table_freq_sum (freq : UMap Int) (hk : freq.keys.Nodup) (t : Node)
    (hl : t.leaves.Perm freq) :
    ((assignCodes t).1.map (fun p => UMap.get freq p.1 0)).sum = (freq.map Prod.snd).sum := by
  have hn : (t.leaves.map Prod.fst).Nodup := ((hl.map Prod.fst).nodup_iff).2 hk
  rw [table_eq_rows t hn, List.map_map, ← (hl.map Prod.snd).sum_eq, ← rows_leaves t [],
    List.map_map]
  congr 1
  apply List.map_congr_left
  intro x hx
  exact get_freq_row freq hk t hl x hx

/-- What the loop of lines 165-168 computes when no sum overflows. -/
theorem lengthTotals_spec (L : Stl) (freq : UMap Int) (hk : freq.keys.Nodup) (t : Node)
    (hl : t.leaves.Perm freq) :
    (lengthTotals L freq (assignCodes t).1).1.keys.Nodup ∧
    (lengthTotals L freq (assignCodes t).1).2.keys.Nodup ∧
    (∀ len, len ∈ (lengthTotals L freq (assignCodes t).1).1.keys ↔
      ∃ p ∈ (assignCodes t).1, p.2.length = len) ∧
    (∀ len, len ∈ (lengthTotals L freq (assignCodes t).1).2.keys ↔
      ∃ p ∈ (assignCodes t).1, p.2.length = len) ∧
    (∀ len, UMap.get (lengthTotals L freq (assignCodes t).1).1 len 0 =
      (((assignCodes t).1.filter (fun p => p.2.length = len)).length : Int)) ∧
    (∀ len, UMap.get (lengthTotals L freq (assignCodes t).1).2 len 0 =
      (((assignCodes t).1.filter (fun p => p.2.length = len)).map
        (fun p => UMap.get freq p.1 0)).sum) ∧
    ((lengthTotals L freq (assignCodes t).1).1.map Prod.snd).sum = (freq.length : Int) ∧
    ((lengthTotals L freq (assignCodes t).1).2.map Prod.snd).sum = (freq.map Prod.snd).sum ∧
    ((lengthTotals L freq (assignCodes t).1).2.map (fun p => (p.1 : Int) * p.2)).sum =
      costOf freq (assignCodes t).1 := by
  have hn : (t.leaves.map Prod.fst).Nodup := ((hl.map Prod.fst).nodup_iff).2 hk
  have hperm := L.iter_perm (assignCodes t).1
  have hkeys : ∀ (val : Nat × List Char → Int) (len : Nat),
      len ∈ ((L.iter (assignCodes t).1).map (fun p => (p.2.length, val p))).map Prod.fst ↔
        ∃ p ∈ (assignCodes t).1, p.2.length = len := by
    intro val len
    simp only [List.map_map, List.mem_map, Function.comp]
    constructor
    · rintro ⟨p, hp, rfl⟩; exact ⟨p, hperm.mem_iff.1 hp, rfl⟩
    · rintro ⟨p, hp, rfl⟩; exact ⟨p, hperm.mem_iff.2 hp, rfl⟩
  have ones : ∀ l : List (Nat × List Char),
      (l.map (fun p : Nat × List Char => (1 : Int))).sum = (l.length : Int) := by
    intro l
    induction l with
    | nil => rfl
    | cons a l ih =>
      simp only [List.map_cons, List.sum_cons, ih, List.length_cons, Nat.cast_add,
        Nat.cast_one]
      ring
  simp only [lengthTotals]
  refine ⟨UMap.nodup_addAll _ _ List.nodup_nil, UMap.nodup_addAll _ _ List.nodup_nil,
    ?_, ?_, ?_, ?_, ?_, ?_, ?_⟩
  · intro len
    rw [UMap.keys_addAll, hkeys]
    simp [UMap.keys]
  · intro len
    rw [UMap.keys_addAll, hkeys]
    simp [UMap.keys]
  · intro len
    rw [UMap.get_addAll, sum_filter_keyed, ones]
    have := (hperm.filter (fun p => p.2.length = len)).length_eq
    simp [UMap.get, UMap.find, this]
  · intro len
    rw [UMap.get_addAll, sum_filter_keyed]
    have := ((hperm.filter (fun p => p.2.length = len)).map
      (fun p => UMap.get freq p.1 0)).sum_eq
    simp [UMap.get, UMap.find] at this ⊢
    exact this
  · rw [UMap.sum_addAll]
    simp only [List.map_nil, List.sum_nil, zero_add, List.map_map]
    have e : (Prod.snd ∘ fun p : Nat × List Char => (p.2.length, (1 : Int))) =
        fun p : Nat × List Char => (1 : Int) := rfl
    rw [e, ones, hperm.length_eq, table_length freq hk t hl]
  · rw [UMap.sum_addAll]
    simp only [List.map_nil, List.sum_nil, zero_add, List.map_map]
    rw [(hperm.map _).sum_eq]
    exact table_freq_sum freq hk t hl
  · rw [UMap.wsum_addAll]
    simp only [List.map_nil, List.sum_nil, zero_add, List.map_map]
    have hrs := rows_sum t []
    simp only [List.length_nil, Nat.cast_zero, mul_zero, add_zero] at hrs
    rw [(hperm.map _).sum_eq, costOf_tree freq hk t hl, ← hrs,
      table_eq_rows t hn, List.map_map]
    congr 1
    apply List.map_congr_left
    intro x hx
    show (x.2.2.length : Int) * UMap.get freq x.1 0 = x.2.1 * (x.2.2.length : Int)
    rw [get_freq_row freq hk t hl x hx, mul_comm]

theorem sum_filter_le {α : Type} (l : List α) (f : α → Int) (q : α → Bool)
    (hf : ∀ x ∈ l, 0 ≤ f x) :
    0 ≤ ((l.filter q).map f).sum ∧ ((l.filter q).map f).sum ≤ (l.map f).sum := by
  induction l with
  | nil => simp
  | cons a l ih =>
    have ha := hf a (List.mem_cons_self _ _)
    obtain ⟨h1, h2⟩ := ih (fun x hx => hf x (List.mem_cons_of_mem _ hx))
    by_cases hq : q a = true
    · simp only [List.filter_cons, hq, if_true, List.map_cons, List.sum_cons]
      omega
    · simp only [List.filter_cons, hq, if_false, List.map_cons, List.sum_cons,
        Bool.false_eq_true]
      omega

theorem length_le_sum (l : List Int) (h : ∀ x ∈ l, 1 ≤ x) : (l.length : Int) ≤ l.sum := by
  induction l with
  | nil => simp
  | cons a l ih =>
    have ha := h a (List.mem_cons_self _ _)
    have := ih (fun x hx => h x (List.mem_cons_of_mem _ hx))
    simp only [List.length_cons, List.sum_cons, Nat.cast_add, Nat.cast_one]
    omega

theorem UMap.get_nonneg (m : UMap Int) (h : ∀ p ∈ m, 0 ≤ p.2) (k : Nat) :
    0 ≤ UMap.get m k 0 := by
  unfold UMap.get
  cases hf : m.find k with
  | none => simp
  | some v => exact h (k, v) (UMap.mem_of_find m k v hf)

theorem UMap.get_of_mem (m : UMap Int) (hk : m.keys.Nodup) (p : Nat × Int) (hp : p ∈ m) :
    UMap.get m p.1 0 = p.2 := by
  simp only [UMap.get, UMap.find_of_mem m p.1 p.2 hk hp, Option.getD_some]

/-- When the frequencies are at least 1 and add up to less than `2^31`, no counter of the
statistics overflows: the two maps hold the exact counts and sums. -/
theorem lengthStats_exact (L : Stl) (freq : UMap Int) (hk : freq.keys.Nodup) (t : Node)
    (hl : t.leaves.Perm freq) (hpos : ∀ p ∈ freq, 1 ≤ p.2)
    (hsum : (freq.map Prod.snd).sum < 2147483648) :
    lengthStats L freq (assignCodes t).1 = lengthTotals L freq (assignCodes t).1 := by
  obtain ⟨s1, s2, _, _, s5, s6, _, _, _⟩ := lengthTotals_spec L freq hk t hl
  have hlen : (freq.length : Int) ≤ (freq.map Prod.snd).sum := by
    have := length_le_sum (freq.map Prod.snd) (by
      intro x hx
      obtain ⟨p, hp, rfl⟩ := List.mem_map.1 hx
      exact hpos p hp)
    simpa using this
  have hnn : ∀ p ∈ freq, 0 ≤ p.2 := fun p hp => by have := hpos p hp; omega
  rw [lengthStats_eq]
  have e1 : (lengthTotals L freq (assignCodes t).1).1.wrap =
      (lengthTotals L freq (assignCodes t).1).1 := by
    apply UMap.wrap_eq_self
    intro p hp
    have hg := UMap.get_of_mem _ s1 p hp
    rw [s5] at hg
    have hle := List.length_filter_le (fun p : Nat × List Char => decide (p.2.length = p.1))
      (assignCodes t).1
    have htl := table_length freq hk t hl
    have hle2 := List.length_filter_le
      (fun q : Nat × List Char => decide (q.2.length = p.1)) (assignCodes t).1
    omega
  have e2 : (lengthTotals L freq (assignCodes t).1).2.wrap =
      (lengthTotals L freq (assignCodes t).1).2 := by
    apply UMap.wrap_eq_self
    intro p hp
    have hg := UMap.get_of_mem _ s2 p hp
    rw [s6] at hg
    have hb := sum_filter_le (assignCodes t).1 (fun q => UMap.get freq q.1 0)
      (fun q : Nat × List Char => decide (q.2.length = p.1))
      (fun x _ => UMap.get_nonneg freq hnn x.1)
    rw [table_freq_sum freq hk t hl] at hb
    omega
  rw [e1, e2]

/-- What the loop of lines 165-168 leaves in `bitCountMap` and `freqBitCountMap` when the
frequencies are at least 1 and add up to less than `2^31`. -/
theorem lengthStats_spec (L : Stl) (freq : UMap Int) (hk : freq.keys.Nodup) (t : Node)
    (hl : t.leaves.Perm freq) (hpos : ∀ p ∈ freq, 1 ≤ p.2)
    (hsum : (freq.map Prod.snd).sum < 2147483648) :
    (lengthStats L freq (assignCodes t).1).1.keys.Nodup ∧
    (lengthStats L freq (assignCodes t).1).2.keys.Nodup ∧
    (∀ len, len ∈ (lengthStats L freq (assignCodes t).1).1.keys ↔
      ∃ p ∈ (assignCodes t).1, p.2.length = len) ∧
    (∀ len, len ∈ (lengthStats L freq (assignCodes t).1).2.keys ↔
      ∃ p ∈ (assignCodes t).1, p.2.length = len) ∧
    (∀ len, UMap.get (lengthStats L freq (assignCodes t).1).1 len 0 =
      (((assignCodes t).1.filter (fun p => p.2.length = len)).length : Int)) ∧
    (∀ len, UMap.get (lengthStats L freq (assignCodes t).1).2 len 0 =
      (((assignCodes t).1.filter (fun p => p.2.length = len)).map
        (fun p => UMap.get freq p.1 0)).sum) ∧
    ((lengthStats L freq (assignCodes t).1).1.map Prod.snd).sum = (freq.length : Int) ∧
    ((lengthStats L freq (assignCodes t).1).2.map Prod.snd).sum = (freq.map Prod.snd).sum ∧
    ((lengthStats L freq (assignCodes t).1).2.map (fun p => (p.1 : Int) * p.2)).sum =
      costOf freq (assignCodes t).1 := by
  rw [lengthStats_exact L freq hk t hl hpos hsum]
  exact lengthTotals_spec L freq hk t hl

/-! ## Codes as paths -/

theorem Node.follow_null (bits : List Char) : Node.null.follow bits = .null := by
  cases bits <;> rfl

theorem Node.follow_append (t : Node) (a b : List Char) :
    t.follow (a ++ b) = (t.follow a).follow b := by
  induction a generalizing t with
  | nil => cases t <;> rfl
  | cons x a ih =>
    cases t with
    | null => simp [Node.follow, Node.follow_null]
    | node c f l r =>
      simp only [List.cons_append, Node.follow]
      split
      · exact ih l
      · exact ih r

/-- Every recorded code leads from the root to a leaf that carries the recorded symbol. -/
theorem codes_follow (t : Node) (str : List Char) :
    ∀ p ∈ t.codes str, ∃ path, p.2 = str ++ path ∧ (t.follow path).isLeaf = true ∧
      (t.follow path).ch = p.1 ∧ ∀ b ∈ path, b = '0' ∨ b = '1' := by
  induction t generalizing str with
  | null => simp [Node.codes]
  | node c f l r ihl ihr =>
    intro p hp
    simp only [Node.codes, List.mem_append] at hp
    rcases hp with hp | hp | hp
    · split at hp
      · rename_i hleaf
        rw [List.mem_singleton] at hp
        subst hp
        exact ⟨[], by simp, by simpa [Node.follow, Node.isLeaf] using hleaf, rfl, by simp⟩
      · simp at hp
    · obtain ⟨path, h1, h2, h3, h4⟩ := ihl _ p hp
      refine ⟨'0' :: path, by simpa using h1, ?_, ?_, ?_⟩
      · simpa [Node.follow] using h2
      · simpa [Node.follow] using h3
      · intro b hb
        rcases List.mem_cons.1 hb with rfl | hb
        · exact Or.inl rfl
        · exact h4 b hb
    · obtain ⟨path, h1, h2, h3, h4⟩ := ihr _ p hp
      have hne : ¬ ('1' = '0') := by decide
      refine ⟨'1' :: path, by simpa using h1, ?_, ?_, ?_⟩
      · simpa [Node.follow, hne] using h2
      · simpa [Node.follow, hne] using h3
      · intro b hb
        rcases List.mem_cons.1 hb with rfl | hb
        · exact Or.inr rfl
        · exact h4 b hb

/-- Every leaf that a string of bits leads to is recorded with that string. -/
theorem follow_codes (t : Node) (str bits : List Char)
    (hbits : ∀ b ∈ bits, b = '0' ∨ b = '1') (h : (t.follow bits).isLeaf = true) :
    ((t.follow bits).ch, str ++ bits) ∈ t.codes str := by
  induction t generalizing str bits with
  | null => simp [Node.follow_null, Node.isLeaf] at h
  | node c f l r ihl ihr =>
    cases bits with
    | nil =>
      simp only [Node.follow, Node.isLeaf] at h
      simp [Node.codes, Node.follow, h, Node.ch]
    | cons b bits =>
      have hb := hbits b (List.mem_cons_self _ _)
      have hrest : ∀ x ∈ bits, x = '0' ∨ x = '1' :=
        fun x hx => hbits x (List.mem_cons_of_mem _ hx)
      simp only [Node.codes, List.mem_append]
      right
      rcases hb with rfl | rfl
      · simp only [Node.follow, if_true] at h ⊢
        left
        have := ihl (str ++ ['0']) bits hrest h
        simpa using this
      · have hne : ¬ ('1' = '0') := by decide
        simp only [Node.follow, hne, if_false] at h ⊢
        right
        have := ihr (str ++ ['1']) bits hrest h
        simpa using this

theorem codes_nodup (t : Node) (str : List Char) : ((t.codes str).map Prod.snd).Nodup := by
  have h := codes_pairwise t str
  rw [List.Nodup, List.pairwise_map]
  refine h.imp ?_
  intro a b hab e
  apply hab.1
  rw [e]

/-! ## The merge loop, counted -/

/-- The root that `mergeLoop` returns is the top of the queue that the loop ends with. -/
theorem mergeLoop_eq_runMerges (L : Stl) (fuel : Nat) (pq : L.PQ) :
    mergeLoop L fuel pq =
      match runMerges L fuel pq with
      | .error e => .error e
      | .ok res => .ok (L.top res.1) := by
  induction fuel generalizing pq with
  | zero =>
    unfold mergeLoop runMerges
    by_cases h1 : L.size pq = 1
    · simp [h1]
    · by_cases h0 : L.size pq = 0
      · simp [h0]
      · simp [h1, h0]
  | succ fuel ih =>
    rw [mergeLoop, runMerges]
    by_cases h1 : L.size pq = 1
    · simp [h1]
    · by_cases h0 : L.size pq = 0
      · simp [h0]
      · simp only [h1, h0, if_false]
        by_cases h2 : L.size (L.pop pq) = 0
        · simp [h2]
        · simp only [h2, if_false]
          rw [ih]
          cases runMerges L fuel (L.push (L.pop (L.pop pq))
            (getNode 0 (int32 ((L.top pq).freq + (L.top (L.pop pq)).freq)) (L.top pq)
              (L.top (L.pop pq)))) <;> rfl

/-- On a non-empty queue of `k` nodes the loop body runs `k - 1` times and leaves one node. -/
theorem runMerges_spec (L : Stl) (fuel : Nat) (pq : L.PQ)
    (hne : L.elems pq ≠ 0) (hfuel : Multiset.card (L.elems pq) ≤ fuel + 1) :
    ∃ q, runMerges L fuel pq = .ok (q, Multiset.card (L.elems pq) - 1) ∧ L.size q = 1 := by
  induction fuel generalizing pq with
  | zero =>
    have hc : Multiset.card (L.elems pq) = 1 := by
      have : Multiset.card (L.elems pq) ≠ 0 := fun h => hne (Multiset.card_eq_zero.1 h)
      omega
    have hs : L.size pq = 1 := by rw [L.size_eq, hc]
    refine ⟨pq, ?_, hs⟩
    unfold runMerges
    simp [hs, hc]
  | succ fuel ih =>
    by_cases hs : L.size pq = 1
    · have hc : Multiset.card (L.elems pq) = 1 := by rw [← L.size_eq]; exact hs
      refine ⟨pq, ?_, hs⟩
      unfold runMerges
      simp [hs, hc]
    · have hc0 : Multiset.card (L.elems pq) ≠ 0 := fun h => hne (Multiset.card_eq_zero.1 h)
      have hs0 : L.size pq ≠ 0 := by rw [L.size_eq]; exact hc0
      have hc1 : Multiset.card (L.elems pq) ≠ 1 := by rw [← L.size_eq]; exact hs
      have ha : L.top pq ∈ L.elems pq := L.top_mem pq hne
      have he1 : L.elems (L.pop pq) = (L.elems pq).erase (L.top pq) := L.elems_pop pq hne
      have hcard1 : Multiset.card (L.elems (L.pop pq)) + 1 = Multiset.card (L.elems pq) := by
        rw [he1, Multiset.card_erase_of_mem ha]
        exact Nat.succ_pred_eq_of_pos (Nat.pos_of_ne_zero hc0)
      have hne1 : L.elems (L.pop pq) ≠ 0 := by
        intro h
        rw [h] at hcard1
        simp at hcard1
        exact hc1 hcard1.symm
      have hs1 : L.size (L.pop pq) ≠ 0 := by
        rw [L.size_eq]
        exact fun h => hne1 (Multiset.card_eq_zero.1 h)
      have hb : L.top (L.pop pq) ∈ L.elems (L.pop pq) := L.top_mem _ hne1
      have hcard2 : Multiset.card (L.elems (L.pop (L.pop pq))) + 1 =
          Multiset.card (L.elems (L.pop pq)) := by
        rw [L.elems_pop _ hne1, Multiset.card_erase_of_mem hb]
        exact Nat.succ_pred_eq_of_pos
          (Nat.pos_of_ne_zero (fun h => hne1 (Multiset.card_eq_zero.1 h)))
      obtain ⟨q, hq, hq1⟩ := ih (L.push (L.pop (L.pop pq))
          (getNode 0 (int32 ((L.top pq).freq + (L.top (L.pop pq)).freq)) (L.top pq)
            (L.top (L.pop pq))))
        (by rw [L.elems_push]; exact Multiset.cons_ne_zero)
        (by rw [L.elems_push, Multiset.card_cons]; omega)
      refine ⟨q, ?_, hq1⟩
      rw [runMerges]
      simp only [hs, hs0, hs1, if_false]
      rw [hq]
      simp only [L.elems_push, Multiset.card_cons, Except.ok.injEq, Prod.mk.injEq, true_and]
      omega

/-! ## A text of one symbol repeated -/

theorem tally_replicate (c k : Nat) (m : Int) :
    tally (List.replicate k c) [(c, m)] = [(c, m + (k : Int))] := by
  induction k generalizing m with
  | zero => simp [tally]
  | succ k ih =>
    simp only [List.replicate_succ, tally, List.foldl_cons, UMap.modify, if_true]
    have := ih (m + 1)
    simp only [tally] at this
    rw [this]
    congr 2
    push_cast
    ring

theorem tally_single (c n : Nat) :
    tally (List.replicate (n + 1) c) [] = [(c, (n : Int) + 1)] := by
  have := tally_replicate c n 1
  simp only [List.replicate_succ, tally, List.foldl_cons, UMap.modify] at this ⊢
  rw [zero_add, this]
  congr 2
  ring

theorem Merges.single {t R : Node} (h : Merges ({t} : Multiset Node) R) : R = t := by
  have := h.mem_allRoots [t] 0 rfl (by simp)
  simpa [allRoots] using this

/-! ## The exact output of the decode loop -/

theorem decodedPrefix_eq (g : Nat → List Char) (rest : List Nat)
    (hne : ∀ s ∈ rest, g s ≠ []) (last : Nat) (hlast : rest.getLast? = some last) :
    decodedPrefix g rest = if 2 ≤ (g last).length then rest else rest.dropLast := by
  induction rest with
  | nil => simp at hlast
  | cons s rest ih =>
    cases rest with
    | nil =>
      simp only [List.getLast?_singleton, Option.some.injEq] at hlast
      subst hlast
      simp [decodedPrefix]
    | cons s2 r =>
      have h1 : 0 < (g s).length := List.length_pos.2 (hne s (List.mem_cons_self _ _))
      have h2 : 0 < (g s2).length :=
        List.length_pos.2 (hne s2 (List.mem_cons_of_mem _ (List.mem_cons_self _ _)))
      have hcond : 2 ≤ (g s).length + (((s2 :: r).map g).flatten).length := by
        simp only [List.map_cons, List.flatten_cons, List.length_append]
        omega
      have hl : (s2 :: r).getLast? = some last := by
        rw [List.getLast?_cons_cons] at hlast; exact hlast
      rw [decodedPrefix]
      simp only [hcond, if_true]
      rw [ih (fun x hx => hne x (List.mem_cons_of_mem _ hx)) hl]
      split <;> simp

/-! ## What `decode` does on an arbitrary string -/

theorem strAt_ok_range (str : List Char) (i : Int) (c : Char) (h : strAt str i = .ok c) :
    0 ≤ i ∧ i ≤ (str.length : Int) := by
  unfold strAt at h
  split at h
  · cases h
  · split at h
    · omega
    · split at h
      · omega
      · cases h

/-- A call of `decode` that returns has written at most one symbol and has left `index`
where it was or at a place of the string that it has read; an `index` that is an `int`
has not moved backwards. Otherwise the call has read outside the string. -/
theorem decode_outcome (t : Node) (str : List Char) (st : Int × List Nat) :
    (∃ st', decode t str st = .ok st' ∧
      (st'.1 = st.1 ∨ (0 ≤ st'.1 ∧ st'.1 ≤ (str.length : Int))) ∧
      (-2147483648 ≤ st.1 ∧ st.1 < 2147483648 → st.1 ≤ st'.1) ∧
      (st'.2 = st.2 ∨ ∃ c, st'.2 = st.2 ++ [c])) ∨
    decode t str st = .error .outOfRange := by
  induction t generalizing st with
  | null => exact Or.inl ⟨st, rfl, Or.inl rfl, fun _ => le_refl _, Or.inl rfl⟩
  | node c f l r ihl ihr =>
    by_cases hleaf : (l.isNull && r.isNull) = true
    · left
      exact ⟨(st.1, st.2 ++ [c]), by simp only [decode, hleaf, if_true], Or.inl rfl,
        fun _ => le_refl _, Or.inr ⟨c, rfl⟩⟩
    · cases hs : strAt str (int32 (st.1 + 1)) with
      | error e =>
        right
        have := strAt_error _ _ _ hs
        subst this
        simp only [decode, hleaf, hs, if_false, Bool.false_eq_true]
      | ok ch =>
        have hr := strAt_ok_range _ _ _ hs
        have hrange := int32_range (st.1 + 1)
        have hmono : -2147483648 ≤ st.1 ∧ st.1 < 2147483648 → st.1 ≤ int32 (st.1 + 1) := by
          intro hin
          by_cases hmax : st.1 + 1 < 2147483648
          · rw [int32_of_range _ (by omega) hmax]; omega
          · have e : st.1 + 1 = 2147483648 := by omega
            have e2 : int32 2147483648 = -2147483648 := by unfold int32; decide
            rw [e, e2] at hr
            omega
        by_cases h0 : ch = '0'
        · rcases ihl (int32 (st.1 + 1), st.2) with ⟨st', h1, h2, h3, h4⟩ | h1
          · left
            refine ⟨st', ?_, ?_, ?_, h4⟩
            · simp only [decode, hleaf, hs, h0, if_true, if_false, Bool.false_eq_true]
              exact h1
            · right
              rcases h2 with h2 | h2
              · simp only at h2; rw [h2]; exact hr
              · exact h2
            · intro hin
              have := h3 hrange
              have := hmono hin
              simp only at *
              omega
          · right
            simp only [decode, hleaf, hs, h0, if_true, if_false, Bool.false_eq_true]
            exact h1
        · rcases ihr (int32 (st.1 + 1), st.2) with ⟨st', h1, h2, h3, h4⟩ | h1
          · left
            refine ⟨st', ?_, ?_, ?_, h4⟩
            · simp only [decode, hleaf, hs, h0, if_false, Bool.false_eq_true]
              exact h1
            · right
              rcases h2 with h2 | h2
              · simp only at h2; rw [h2]; exact hr
              · exact h2
            · intro hin
              have := h3 hrange
              have := hmono hin
              simp only at *
              omega
          · right
            simp only [decode, hleaf, hs, h0, if_false, Bool.false_eq_true]
            exact h1

theorem decodeLoop_outcome (root : Node) (str : List Char) (fuel : Nat)
    (st : Int × List Nat) :
    (∃ st', decodeLoop root str fuel st = .ok st') ∨
      decodeLoop root str fuel st = .error .outOfRange ∨
      decodeLoop root str fuel st = .error .fuel := by
  cases h : decodeLoop root str fuel st with
  | ok st' => exact Or.inl ⟨st', rfl⟩
  | error e =>
    rcases decodeLoop_error root str fuel st e h with rfl | rfl
    · exact Or.inr (Or.inl rfl)
    · exact Or.inr (Or.inr rfl)

/-! ## A competitor of height at most seven -/

theorem balanced_strict (d : Nat) (l : List (Nat × Int)) : (balanced d l).Strict := by
  induction d generalizing l with
  | zero => exact leafOf_strict _
  | succ d ih =>
    rw [balanced]
    split
    · exact leafOf_strict _
    · exact merged_strict _ _ _ (ih _) (ih _)

theorem balanced_leaves (d : Nat) (l : List (Nat × Int)) (h1 : 1 ≤ l.length)
    (h2 : l.length ≤ 2 ^ d) : (balanced d l).leaves = l := by
  induction d generalizing l with
  | zero =>
    have hl : l.length = 1 := by simp at h2; omega
    obtain ⟨x, rfl⟩ := List.length_eq_one.1 hl
    simp [balanced, leafOf_leaves]
  | succ d ih =>
    rw [balanced]
    by_cases hle : l.length ≤ 1
    · have hl : l.length = 1 := by omega
      obtain ⟨x, rfl⟩ := List.length_eq_one.1 hl
      simp [leafOf_leaves]
    · simp only [hle, if_false]
      rw [merged_leaves _ _ _ (balanced_strict _ _)]
      have hp : 2 ^ (d + 1) = 2 * 2 ^ d := by rw [pow_succ]; ring
      rw [ih (l.take (l.length / 2)) (by rw [List.length_take]; omega)
            (by rw [List.length_take]; omega),
          ih (l.drop (l.length / 2)) (by rw [List.length_drop]; omega)
            (by rw [List.length_drop]; omega)]
      exact List.take_append_drop _ _

theorem balanced_wpl (d : Nat) (l : List (Nat × Int)) (hnn : ∀ p ∈ l, 0 ≤ p.2) :
    (balanced d l).wpl ≤ (d : Int) * (balanced d l).lsum := by
  have hhead : ∀ l : List (Nat × Int), (∀ p ∈ l, 0 ≤ p.2) → 0 ≤ (l.headD (0, 0)).2 := by
    intro l hl
    cases l with
    | nil => simp
    | cons a l => exact hl a (List.mem_cons_self _ _)
  induction d generalizing l with
  | zero => simp [balanced, leafOf, getNode, Node.wpl, Node.lsum, Node.leaves]
  | succ d ih =>
    rw [balanced]
    split
    · have := hhead l hnn
      simp only [leafOf, getNode, Node.wpl, Node.lsum, Node.leaves, Node.isNull, Bool.and_self,
        if_true, List.append_nil, List.map_cons, List.map_nil, List.sum_cons, List.sum_nil,
        add_zero]
      positivity
    · have hn : ((balanced d (l.take (l.length / 2))).isNull &&
          (balanced d (l.drop (l.length / 2))).isNull) = false := by
        simp [(balanced_strict d (l.take (l.length / 2))).isNull]
      have ha := ih (l.take (l.length / 2)) (fun p hp => hnn p (List.mem_of_mem_take hp))
      have hb := ih (l.drop (l.length / 2)) (fun p hp => hnn p (List.mem_of_mem_drop hp))
      simp only [getNode, Node.wpl, Node.lsum_node _ _ _ _ hn]
      push_cast
      nlinarith

theorem length_le_of_nodup_lt (l : List Nat) (n : Nat) (hn : l.Nodup)
    (hlt : ∀ x ∈ l, x < n) : l.length ≤ n := by
  have h1 : l.toFinset ⊆ Finset.range n := by
    intro x hx
    exact Finset.mem_range.2 (hlt x (List.mem_toFinset.1 hx))
  have h2 := Finset.card_le_card h1
  rw [List.toFinset_card_of_nodup hn, Finset.card_range] at h2
  exact h2

/-- The built tree costs at most seven bits per symbol when the keys are 7-bit values. -/
theorem Merges.wpl_le_seven {freq : UMap Int} {R : Node}
    (h : Merges ((freq.map leafOf : List Node) : Multiset Node) R)
    (hnn : ∀ p ∈ freq, 0 ≤ p.2) (hsum : (freq.map Prod.snd).sum < 2147483648)
    (hk : freq.keys.Nodup) (hne : freq ≠ []) (hlt : ∀ c ∈ freq.keys, c < 128) :
    R.wpl ≤ 7 * (freq.map Prod.snd).sum := by
  have hlen : freq.length ≤ 2 ^ 7 := by
    have := length_le_of_nodup_lt freq.keys 128 hk hlt
    simpa [UMap.keys] using this
  have hpos : 1 ≤ freq.length := by
    cases freq with
    | nil => exact absurd rfl hne
    | cons _ _ => simp
  have hl := balanced_leaves 7 freq hpos hlen
  have h1 := h.optimal hnn hsum (balanced 7 freq) (balanced_strict 7 freq) (by rw [hl])
  have h2 := balanced_wpl 7 freq hnn
  rw [Node.lsum, hl] at h2
  push_cast at h2
  omega

/-! ## The merge loop on the queue filled from a frequency map -/

/-- On the queue filled from a non-empty frequency map the body of the merge loop runs one
time less than the map has entries, and one node is left. -/
theorem runMerges_fillQueue (L : Stl) (freq : UMap Int) (hne : freq ≠ []) :
    ∃ q, runMerges L (L.size (fillQueue L freq)) (fillQueue L freq) =
        .ok (q, freq.length - 1) ∧ L.size q = 1 ∧ buildTree L freq = .ok (L.top q) := by
  have he := elems_fillQueue L freq
  have hcard : Multiset.card (L.elems (fillQueue L freq)) = freq.length := by
    rw [he]; simp
  have h0 : L.elems (fillQueue L freq) ≠ 0 := by
    intro h
    rw [h] at hcard
    simp at hcard
    exact hne (List.length_eq_zero.1 hcard.symm)
  obtain ⟨q, hq, hq1⟩ := runMerges_spec L (L.size (fillQueue L freq)) (fillQueue L freq) h0
    (by rw [L.size_eq]; omega)
  rw [hcard] at hq
  refine ⟨q, hq, hq1, ?_⟩
  unfold buildTree
  rw [mergeLoop_eq_runMerges, hq]

/-! ## Frequency maps of texts made of long runs -/

theorem tally_append (l1 l2 : List Nat) (m : UMap Int) :
    tally (l1 ++ l2) m = tally l2 (tally l1 m) := by
  simp [tally, List.foldl_append]

theorem UMap.modify_last (m : UMap Int) (c : Nat) (v : Int) (f : Int → Int)
    (hc : c ∉ m.keys) : UMap.modify (m ++ [(c, v)]) c 0 f = m ++ [(c, f v)] := by
  induction m with
  | nil => simp [UMap.modify]
  | cons p m ih =>
    obtain ⟨a, w⟩ := p
    simp only [UMap.keys, List.map_cons, List.mem_cons, not_or] at hc
    have hak : ¬ a = c := fun e => hc.1 e.symm
    have e : UMap.modify ((a, w) :: (m ++ [(c, v)])) c 0 f =
        (a, w) :: UMap.modify (m ++ [(c, v)]) c 0 f := by
      simp only [UMap.modify, hak, if_false]
    rw [List.cons_append, e, ih hc.2, List.cons_append]

/-- A run of `k` equal symbols adds `k` to the count of the symbol. -/
theorem tally_block (m : UMap Int) (c k : Nat) (v : Int) (hc : c ∉ m.keys) :
    tally (List.replicate k c) (m ++ [(c, v)]) = m ++ [(c, v + (k : Int))] := by
  induction k generalizing v with
  | zero => simp [tally]
  | succ k ih =>
    have := ih (v + 1)
    simp only [tally, List.replicate_succ, List.foldl_cons] at this ⊢
    rw [UMap.modify_last m c v _ hc, this]
    congr 3
    push_cast
    ring

/-- A run of `k ≥ 1` symbols that have not occurred before adds an entry with count `k`. -/
theorem tally_new_block (m : UMap Int) (c k : Nat) (hk : 0 < k) (hc : c ∉ m.keys) :
    tally (List.replicate k c) m = m ++ [(c, (k : Int))] := by
  obtain ⟨k, rfl⟩ : ∃ j, k = j + 1 := ⟨k - 1, by omega⟩
  have := tally_block m c k 1 hc
  simp only [tally, List.replicate_succ, List.foldl_cons] at this ⊢
  rw [UMap.modify_of_not_mem m c 0 _ hc, zero_add, this]
  congr 3
  push_cast
  ring

theorem exists_of_map_ok {α β : Type} (x : Except Err α) (f : α → β) (b : β)
    (h : x.map f = .ok b) : ∃ a, x = .ok a ∧ f a = b := by
  cases x with
  | error e => cases h
  | ok a =>
    refine ⟨a, rfl, ?_⟩
    have : Except.ok (f a) = (Except.ok b : Except Err β) := h
    exact Except.ok.inj this

/-! ## The decode loop when the bound of the loop has wrapped around -/

/-- When the `int` bound of the decode loop is negative, the loop body never runs. -/
theorem decodeText_skipped (root : Node) (str : List Char)
    (h : int32 (int32 (str.length : Int) - 2) ≤ -1) : decodeText root str = .ok [] := by
  have hc : ¬ ((-1 : Int) < int32 (int32 (str.length : Int) - 2)) := by omega
  have hl : decodeLoop root str (str.length + 1) (-1, []) = .ok (-1, []) := by
    rw [decodeLoop]
    simp only [hc, if_false]
  simp only [decodeText, hl]

/-! ## A text of one symbol repeated, of any length -/

theorem lengthStats_single (L : Stl) (c : Nat) (v : Int) :
    lengthStats L [(c, v)] [(c, [])] = ([(0, 1)], [(0, int32 v)]) := by
  have hi : L.iter [(c, ([] : List Char))] = [(c, [])] := List.perm_singleton.1 (L.iter_perm _)
  have h1 : int32 1 = 1 := by unfold int32; decide
  simp only [lengthStats, hi, List.foldl_cons, List.foldl_nil, UMap.modify, List.length_nil,
    UMap.get, UMap.find, if_true, Option.getD_some, h1, zero_add]

/-- The run on a text that repeats one 7-bit ASCII symbol `n + 1` times: the counter of the
symbol is `n + 1` taken as `int`, the tree is the leaf of the symbol, and nothing is encoded
or decoded. -/
theorem single_symbol_run (L : Stl) (c n : Nat) (hc : isascii c = true) :
    ∃ out, buildHuffmanTree L (List.replicate (n + 1) c) = .ok out ∧
      out.freq = [(c, int32 ((n : Int) + 1))] ∧
      out.root = getNode c (int32 ((n : Int) + 1)) .null .null ∧
      out.huffmanCode = [(c, [])] ∧ out.order = [(c, [])] ∧
      out.str = [] ∧ out.bitsAfter = 0 ∧ out.decoded = .ok [] ∧
      out.bitCountMap = [(0, 1)] ∧ out.freqBitCountMap = [(0, int32 ((n : Int) + 1))] ∧
      out.total = int32 ((n : Int) + 1) ∧
      ∃ q, runMerges L (L.size (fillQueue L out.freq)) (fillQueue L out.freq) = .ok (q, 0) := by
  have hne : List.replicate (n + 1) c ≠ [] := by simp
  have hascii : ∀ x ∈ List.replicate (n + 1) c, isascii x = true := by
    intro x hx
    rw [(List.mem_replicate.1 hx).2]; exact hc
  obtain ⟨out, ho, hf, _, hM, _, _, _, _, hr⟩ := run_facts L _ hne hascii
  obtain ⟨htot, _, _, hcode, hord, hb, hfb, _, hs, hrt, _, hba⟩ :=
    report_fields L _ _ _ out hr
  rw [tally_single] at hf
  have hf' : out.freq = [(c, int32 ((n : Int) + 1))] := by rw [hf]; rfl
  have hroot : out.root = getNode c (int32 ((n : Int) + 1)) .null .null := by
    rw [hf'] at hM
    exact hM.single
  have hcodes : assignCodes out.root = ([(c, [])], [(c, [])]) := by
    rw [hroot]; rfl
  have hempty : ∀ s ∈ List.replicate (n + 1) c,
      UMap.get (assignCodes out.root).1 s [] = [] := by
    intro s hs'
    rw [(List.mem_replicate.1 hs').2, hcodes]
    simp [UMap.get, UMap.find]
  have hstr : out.str = [] := by
    rw [hs, encodeText_eq]
    exact flatten_nil_of_empty _ _ hempty
  have hdec : out.decoded = .ok [] := by
    rw [hrt]
    unfold roundTrip
    rw [← hs, hstr]
    exact decodeText_skipped _ _ (by
      have : int32 (int32 (([] : List Char).length : Int) - 2) = -2 := by
        simp only [List.length_nil, Nat.cast_zero]
        unfold int32; decide
      rw [this]; omega)
  have hidem : int32 (int32 ((n : Int) + 1)) = int32 ((n : Int) + 1) := int32_idem _
  refine ⟨out, ho, hf', hroot, ?_, ?_, hstr, ?_, hdec, ?_, ?_, ?_, ?_⟩
  · rw [hcode, hcodes]
  · rw [hord, hcodes]
  · rw [hba, ← hs, hstr]; rfl
  · rw [hb, hcodes, hf', lengthStats_single]
  · rw [hfb, hcodes, hf', lengthStats_single, hidem]
  · rw [htot, countTotalCharacters_eq]
    simp
  · obtain ⟨q, hq, _⟩ := runMerges_fillQueue L out.freq (by rw [hf']; simp)
    rw [hf'] at hq ⊢
    exact ⟨q, hq⟩

/-! ## Runs on texts of `2^31` symbols and more -/

/-- The run on a text whose frequency map and code table are known. -/
theorem run_with_table (L : Stl) (text : List Nat) (freq : UMap Int)
    (table : UMap (List Char)) (hf : countFrequencies text [] = .ok freq)
    (ht : (buildTree L freq).map (fun R => (assignCodes R).1) = .ok table) :
    ∃ out, buildHuffmanTree L text = .ok out ∧ out.freq = freq ∧ out.huffmanCode = table ∧
      out.str = encodeText table text ∧ out.bitsAfter = (encodeText table text).length ∧
      out.bitsBefore = text.length * 8 ∧
      out.decoded = decodeText out.root (encodeText table text) := by
  obtain ⟨R, hR, hT⟩ := exists_of_map_ok _ _ _ ht
  refine ⟨report L text freq R, buildHuffmanTree_eq L text freq R hf hR, rfl, hT, ?_, ?_,
    rfl, ?_⟩
  · rw [← hT]; rfl
  · rw [← hT]; rfl
  · rw [← hT]; rfl

theorem int32_two_pow_31 : int32 2147483648 = -2147483648 := by
  unfold int32; decide

theorem longRun_length : longRun.length = 2147483648 := by
  unfold longRun
  rw [List.length_replicate]

theorem skewedText_ascii : ∀ c ∈ skewedText, isascii c = true := by
  intro c hc
  simp only [skewedText, List.mem_append, List.mem_replicate, List.mem_cons,
    List.mem_singleton, List.not_mem_nil, or_false] at hc
  rcases hc with ⟨_, rfl⟩ | rfl | rfl | rfl <;> decide

theorem skewedText_freq :
    countFrequencies skewedText [] = .ok [(121, -2147483648), (120, 2), (122, 1)] := by
  rw [countFrequencies_nil_ok skewedText skewedText_ascii]
  have h : tally skewedText [] = [(121, 2147483648), (120, 2), (122, 1)] := by
    unfold skewedText
    rw [tally_append, tally_new_block [] 121 2147483648 (by decide) (by simp [UMap.keys])]
    simp [tally, UMap.modify]
  rw [h]
  have h2 : int32 2 = 2 := by unfold int32; decide
  have h1 : int32 1 = 1 := by unfold int32; decide
  simp [UMap.wrap, int32_two_pow_31, h1, h2]

theorem skewedText_table :
    (buildTree refStl [(121, -2147483648), (120, 2), (122, 1)]).map
        (fun R => (assignCodes R).1) =
      .ok [(121, ['0', '0']), (122, ['0', '1']), (120, ['1'])] := by
  decide!

theorem evenText_ascii : ∀ c ∈ evenText, isascii c = true := by
  intro c hc
  simp only [evenText, List.mem_append, List.mem_replicate] at hc
  rcases hc with ⟨_, rfl⟩ | ⟨_, rfl⟩ | ⟨_, rfl⟩ | ⟨_, rfl⟩ <;> decide

theorem evenText_freq :
    countFrequencies evenText [] =
      .ok [(97, 268435457), (98, 268435456), (99, 268435456), (100, 268435456)] := by
  rw [countFrequencies_nil_ok evenText evenText_ascii]
  have h : tally evenText [] =
      [(97, 268435457), (98, 268435456), (99, 268435456), (100, 268435456)] := by
    unfold evenText
    rw [tally_append, tally_new_block [] 97 268435457 (by decide) (by simp [UMap.keys]),
      tally_append, tally_new_block _ 98 268435456 (by decide) (by simp [UMap.keys]),
      tally_append, tally_new_block _ 99 268435456 (by decide) (by simp [UMap.keys]),
      tally_new_block _ 100 268435456 (by decide) (by simp [UMap.keys])]
    simp
  rw [h]
  have h1 : int32 268435457 = 268435457 := by unfold int32; decide
  have h2 : int32 268435456 = 268435456 := by unfold int32; decide
  simp [UMap.wrap, h1, h2]

theorem evenText_table :
    (buildTree refStl [(97, 268435457), (98, 268435456), (99, 268435456),
        (100, 268435456)]).map (fun R => (assignCodes R).1) =
      .ok [(98, ['0', '0']), (99, ['0', '1']), (100, ['1', '0']), (97, ['1', '1'])] := by
  decide!

theorem chainText_ascii : ∀ c ∈ chainText, isascii c = true := by
  intro c hc
  simp only [chainText, List.mem_append, List.mem_replicate, List.mem_cons,
    List.mem_singleton, List.not_mem_nil, or_false] at hc
  rcases hc with ⟨_, rfl⟩ | rfl | rfl | rfl | rfl | rfl | rfl | rfl | rfl | rfl <;> decide

theorem chainText_freq :
    countFrequencies chainText [] =
      .ok [(97, -2147483648), (98, 1), (99, 1), (100, 1), (101, 1), (102, 1), (103, 1),
        (104, 1), (105, 1), (106, 1)] := by
  rw [countFrequencies_nil_ok chainText chainText_ascii]
  have h : tally chainText [] =
      [(97, 2147483648), (98, 1), (99, 1), (100, 1), (101, 1), (102, 1), (103, 1),
        (104, 1), (105, 1), (106, 1)] := by
    unfold chainText
    rw [tally_append, tally_new_block [] 97 2147483648 (by decide) (by simp [UMap.keys])]
    simp [tally, UMap.modify]
  rw [h]
  have h1 : int32 1 = 1 := by unfold int32; decide
  simp [UMap.wrap, int32_two_pow_31, h1]

theorem chainText_table :
    (buildTree refStl [(97, -2147483648), (98, 1), (99, 1), (100, 1), (101, 1), (102, 1),
        (103, 1), (104, 1), (105, 1), (106, 1)]).map (fun R => (assignCodes R).1) =
      .ok [(97, ['0', '0', '0', '0', '0', '0', '0', '0', '0']),
        (98, ['0', '0', '0', '0', '0', '0', '0', '0', '1']),
        (99, ['0', '0', '0', '0', '0', '0', '0', '1']),
        (100, ['0', '0', '0', '0', '0', '0', '1']),
        (101, ['0', '0', '0', '0', '0', '1']),
        (102, ['0', '0', '0', '0', '1']),
        (103, ['0', '0', '0', '1']),
        (104, ['0', '0', '1']),
        (105, ['0', '1']),
        (106, ['1'])] := by
  decide!

theorem heavyFreq_cost :
    (buildTree refStl heavyFreq).map (fun R => costOf heavyFreq (assignCodes R).1) =
      .ok 10737418250 ∧
    heavyTree.leaves = heavyFreq ∧ costOf heavyFreq (assignCodes heavyTree).1 = 9663676431 := by
  decide!

theorem heavyTree_strict : heavyTree.Strict :=
  merged_strict _ _ _
    (merged_strict _ _ _ (merged_strict _ _ _ (leafOf_strict (101, 5))
      (leafOf_strict (97, 1073741824))) (leafOf_strict (98, 1073741824)))
    (merged_strict _ _ _ (leafOf_strict (99, 1073741824)) (leafOf_strict (100, 1073741824)))

/-! ## No more than seven bits per symbol -/

/-- For a non-empty text of fewer than `2^31` 7-bit ASCII symbols, the encoded text has at
most seven bits per symbol, whatever tree the merge loop returns. -/
theorem encoded_le_seven (text : List Nat) (hne : text ≠ [])
    (hascii : ∀ c ∈ text, isascii c = true) (hlen : text.length < 2147483648) (root : Node)
    (hM : Merges (((tally text []).map leafOf : List Node) : Multiset Node) root) :
    ((encodeText (assignCodes root).1 text).length : Int) ≤ 7 * (text.length : Int) := by
  obtain ⟨_, hperm⟩ := hM.of_map
  have hk : (tally text []).keys.Nodup := tally_nodup text [] List.nodup_nil
  have hfne : tally text [] ≠ [] := tally_ne_nil text hne
  have hlt : ∀ c ∈ (tally text []).keys, c < 128 := by
    intro c hcm
    rw [tally_mem_keys] at hcm
    rcases hcm with hcm | hcm
    · simp [UMap.keys] at hcm
    · have := hascii c hcm
      simpa [isascii] using this
  have hnn : ∀ p ∈ tally text [], 0 ≤ p.2 := fun p hp => (tally_range text hlen p hp).1
  have hsum : ((tally text []).map Prod.snd).sum = (text.length : Int) := by
    rw [tally_sum]; simp
  have h7 := hM.wpl_le_seven hnn (by rw [hsum]; omega) hk hfne hlt
  rw [encodeText_length_eq_costOf, costOf_tree _ hk root hperm, ← hsum]
  exact h7

/-! ## The depth of a leaf -/

theorem leaves_pos (t : Node) (h : t.Strict) : 0 < t.leaves.length := by
  induction t with
  | null => exact absurd h (by simp [Node.Strict])
  | node c f l r ihl ihr =>
    rcases h with ⟨hl, hr⟩ | ⟨hl, hr⟩
    · subst hl; subst hr
      simp [Node.leaves, Node.isNull]
    · have := ihl hl
      simp only [Node.leaves, List.length_append]
      omega

/-- In a strict binary tree a leaf is less deep than the tree has leaves. -/
theorem codes_length_lt (t : Node) (h : t.Strict) (str : List Char) :
    ∀ p ∈ t.codes str, p.2.length < str.length + t.leaves.length := by
  induction t generalizing str with
  | null => exact absurd h (by simp [Node.Strict])
  | node c f l r ihl ihr =>
    intro p hp
    rcases h with ⟨hl, hr⟩ | ⟨hl, hr⟩
    · subst hl; subst hr
      simp only [Node.codes, Node.isNull, Bool.and_self, if_true, List.append_nil,
        List.mem_singleton] at hp
      subst hp
      simp [Node.leaves, Node.isNull]
    · have hn : (l.isNull && r.isNull) = false := by simp [hl.isNull]
      have pl := leaves_pos l hl
      have pr := leaves_pos r hr
      simp only [Node.codes, hn, Bool.false_eq_true, if_false, List.nil_append,
        List.mem_append] at hp
      simp only [Node.leaves, hn, Bool.false_eq_true, if_false, List.nil_append,
        List.length_append]
      rcases hp with hp | hp
      · have := ihl hl _ p hp
        simp only [List.length_append, List.length_singleton] at this
        omega
      · have := ihr hr _ p hp
        simp only [List.length_append, List.length_singleton] at this
        omega

/-- The codes of a tree built for distinct 7-bit symbols are shorter than 128 bits. -/
theorem table_length_lt (freq : UMap Int) (hk : freq.keys.Nodup)
    (hlt : ∀ c ∈ freq.keys, c < 128) (t : Node) (hS : t.Strict) (hl : t.leaves.Perm freq) :
    ∀ p ∈ (assignCodes t).1, p.2.length < 128 := by
  have hn : (t.leaves.map Prod.fst).Nodup := ((hl.map Prod.fst).nodup_iff).2 hk
  have hlen : freq.length ≤ 128 := by
    have := length_le_of_nodup_lt freq.keys 128 hk hlt
    simpa [UMap.keys] using this
  intro p hp
  rw [assignCodes_table t hn] at hp
  have := codes_length_lt t hS [] p hp
  have := hl.length_eq
  simp only [List.length_nil] at *
  omega

/-! ## The claims -/

/-- Claim C1 (round trip), evaluated on the input `"ab"`: whatever the library does, the run
completes and the decode loop writes `"a"` only, so the decoded text is not the input. -/
theorem round_trip_fails_on_ab (L : Stl) :
    ∃ out, buildHuffmanTree L [97, 98] = .ok out ∧ out.decoded = .ok [97] ∧
      out.decoded ≠ .ok [97, 98] := by
  obtain ⟨out, h, hd, _⟩ := buildHuffmanTree_of_allRoots L [97, 98] [(97, 1), (98, 1)]
    (by decide!) (by decide) [97] (fun _ => True) ab_roots
  exact ⟨out, h, hd, by rw [hd]; decide⟩

/-- Claim C2 (prefix-freedom): for every non-empty text of 7-bit ASCII symbols the run
completes, the code table `huffmanCode` has exactly the symbols of the text as keys, and of
the codes of two different symbols of the table none is a prefix of the other. -/
theorem prefix_freedom (L : Stl) (text : List Nat) (hne : text ≠ [])
    (hascii : ∀ c ∈ text, isascii c = true) :
    ∃ out, buildHuffmanTree L text = .ok out ∧
      (∀ c, c ∈ out.huffmanCode.keys ↔ c ∈ text) ∧
      ∀ x y cx cy, x ≠ y →
        UMap.find out.huffmanCode x = some cx →
        UMap.find out.huffmanCode y = some cy →
        ¬ cx <+: cy ∧ ¬ cy <+: cx := by
  obtain ⟨out, ho, hf, _, _, _, hperm, _, _, hr⟩ := run_facts L text hne hascii
  obtain ⟨_, _, _, hc, _⟩ := report_fields L text _ _ out hr
  refine ⟨out, ho, ?_, ?_⟩
  · intro c
    rw [hc, assignCodes_keys, (hperm.map Prod.fst).mem_iff]
    show c ∈ out.freq.keys ↔ c ∈ text
    rw [hf, UMap.wrap_keys]
    have := tally_mem_keys text [] c
    simp only [UMap.keys, List.map_nil, List.not_mem_nil, false_or] at this
    exact this
  · intro x y cx cy hxy hx hy
    rw [hc] at hx hy
    exact assignCodes_incomparable out.root x y cx cy hxy hx hy

/-- A witness of `prefix_freedom`: the text `"abca"` with the reference library. -/
theorem prefix_freedom_witness :
    ∃ out, buildHuffmanTree refStl [97, 98, 99, 97] = .ok out ∧
      (∀ c, c ∈ out.huffmanCode.keys ↔ c ∈ [97, 98, 99, 97]) ∧
      ∀ x y cx cy, x ≠ y →
        UMap.find out.huffmanCode x = some cx →
        UMap.find out.huffmanCode y = some cy →
        ¬ cx <+: cy ∧ ¬ cy <+: cx :=
  prefix_freedom refStl [97, 98, 99, 97] (by decide) (by decide)

/-- Claim C3 as stated fails: the counts of the frequency map e:5, a, b, c, d:`2^30` add up to
more than `2^31 - 1`, the `int` sum of the weights of b and c is negative, and the tree that
the merge loop builds costs 10737418250, more than the strict binary tree `heavyTree` over the
same entries, which costs 9663676431. -/
theorem large_weights_not_optimal :
    ∃ root, buildTree refStl heavyFreq = .ok root ∧ heavyTree.Strict ∧
      heavyTree.leaves.Perm heavyFreq ∧
      costOf heavyFreq (assignCodes heavyTree).1 < costOf heavyFreq (assignCodes root).1 := by
  obtain ⟨h1, h2, h3⟩ := heavyFreq_cost
  obtain ⟨root, hroot, hcost⟩ := exists_of_map_ok _ _ _ h1
  refine ⟨root, hroot, heavyTree_strict, ?_, ?_⟩
  · rw [h2]
  · rw [hcost, h3]; decide

/-- Claim C3, amended (optimality): for every non-empty frequency map whose counts are not
negative and add up to less than `2^31`, the tree is built; it is a strict binary tree whose
leaves are the entries of the map, every symbol of the map has its code in the code table,
and the sum over the symbols of frequency times code length, which is the weighted path
length of the tree, is at most what it is for any strict binary tree whose leaves are the
entries of the map. -/
theorem huffman_optimality (L : Stl) (freq : UMap Int) (hkeys : freq.keys.Nodup)
    (hne : freq ≠ []) (hnn : ∀ p ∈ freq, 0 ≤ p.2)
    (hsum : (freq.map Prod.snd).sum < 2147483648) :
    ∃ root, buildTree L freq = .ok root ∧ root.Strict ∧ root.leaves.Perm freq ∧
      (∀ p ∈ freq, ∃ code, UMap.find (assignCodes root).1 p.1 = some code ∧
        (p.1, p.2, code) ∈ root.rows []) ∧
      costOf freq (assignCodes root).1 = root.wpl ∧
      ∀ t : Node, t.Strict → t.leaves.Perm freq →
        costOf freq (assignCodes t).1 = t.wpl ∧
        costOf freq (assignCodes root).1 ≤ costOf freq (assignCodes t).1 := by
  obtain ⟨root, hroot, hM⟩ := buildTree_spec L freq hne
  obtain ⟨hS, hperm⟩ := hM.of_map
  have hn : (root.leaves.map Prod.fst).Nodup := ((hperm.map Prod.fst).nodup_iff).2 hkeys
  refine ⟨root, hroot, hS, hperm, ?_, costOf_tree freq hkeys root hperm, ?_⟩
  · intro p hp
    have hl : p ∈ root.leaves := hperm.mem_iff.2 hp
    rw [← rows_leaves root []] at hl
    obtain ⟨x, hx, hxe⟩ := List.mem_map.1 hl
    refine ⟨x.2.2, ?_, ?_⟩
    · have := assignCodes_row root hn x hx
      rw [← hxe]
      exact this
    · rw [← hxe]
      exact hx
  · intro t ht hl
    refine ⟨costOf_tree freq hkeys t hl, ?_⟩
    rw [costOf_tree freq hkeys root hperm, costOf_tree freq hkeys t hl]
    exact hM.optimal hnn hsum t ht hl

/-- A witness of `huffman_optimality`: the frequency map a:5, b:2, r:2, c:1, d:1. -/
theorem huffman_optimality_witness :
    ∃ root, buildTree refStl abracadabraFreq = .ok root ∧ root.Strict ∧
      root.leaves.Perm abracadabraFreq ∧
      (∀ p ∈ abracadabraFreq, ∃ code, UMap.find (assignCodes root).1 p.1 = some code ∧
        (p.1, p.2, code) ∈ root.rows []) ∧
      costOf abracadabraFreq (assignCodes root).1 = root.wpl ∧
      ∀ t : Node, t.Strict → t.leaves.Perm abracadabraFreq →
        costOf abracadabraFreq (assignCodes t).1 = t.wpl ∧
        costOf abracadabraFreq (assignCodes root).1 ≤
          costOf abracadabraFreq (assignCodes t).1 :=
  huffman_optimality refStl abracadabraFreq (by decide) (by decide) (by decide) (by decide)

/-- Claim C4 (decoding `"abracadabra"`), evaluated: whatever the library does, the run
completes and the decode loop writes `"abracadabr"`, ten symbols, which is not the input. -/
theorem abracadabra_decoding (L : Stl) :
    ∃ out, buildHuffmanTree L abracadabra = .ok out ∧
      out.decoded = .ok [97, 98, 114, 97, 99, 97, 100, 97, 98, 114] ∧
      out.decoded ≠ .ok abracadabra := by
  obtain ⟨out, h, hd, _⟩ := buildHuffmanTree_of_allRoots L abracadabra abracadabraFreq
    (by decide!) (by decide) [97, 98, 114, 97, 99, 97, 100, 97, 98, 114]
    (fun R => (encodeText (assignCodes R).1 abracadabra).length = 23) abracadabra_roots
  exact ⟨out, h, hd, by rw [hd]; decide⟩

/-- Claim C5 (encoding `"abracadabra"`): the frequency map is a:5, b:2, r:2, c:1, d:1 and,
whatever the library does, the encoded string has fewer than 11 × 8 = 88 bits (it has 23). -/
theorem abracadabra_encoding (L : Stl) :
    countFrequencies abracadabra [] = .ok [(97, 5), (98, 2), (114, 2), (99, 1), (100, 1)] ∧
    ∃ out, buildHuffmanTree L abracadabra = .ok out ∧
      out.freq = [(97, 5), (98, 2), (114, 2), (99, 1), (100, 1)] ∧
      out.str.length < 11 * 8 ∧ out.bitsAfter = 23 ∧ out.bitsBefore = 88 := by
  refine ⟨by decide!, ?_⟩
  obtain ⟨out, h, _, hQ, hf, _, hs, ha, hb, _⟩ :=
    buildHuffmanTree_of_allRoots L abracadabra abracadabraFreq (by decide!)
      (by decide) [97, 98, 114, 97, 99, 97, 100, 97, 98, 114]
      (fun R => (encodeText (assignCodes R).1 abracadabra).length = 23) abracadabra_roots
  have hlen : out.str.length = 23 := by rw [hs]; exact hQ
  exact ⟨out, h, hf, by omega, by omega, hb⟩

/-- Claim C6 (single-symbol input), evaluated on `"aaaa"`: whatever the library does, the run
completes with the empty encoded string and the decode loop writes nothing. -/
theorem aaaa_encodes_to_nothing (L : Stl) :
    ∃ out, buildHuffmanTree L [97, 97, 97, 97] = .ok out ∧ out.str = [] ∧
      out.decoded = .ok [] ∧ out.bitsAfter = 0 := by
  obtain ⟨out, h, hd, hQ, _, _, hs, ha, _⟩ :=
    buildHuffmanTree_of_allRoots L [97, 97, 97, 97] [(97, 4)] (by decide!) (by decide) []
      (fun R => encodeText (assignCodes R).1 [97, 97, 97, 97] = []) aaaa_roots
  have hstr : out.str = [] := by rw [hs]; exact hQ
  exact ⟨out, h, hstr, hd, by rw [ha, hstr]; rfl⟩

/-- Claim C7 (empty input), evaluated: on the empty text no error is reported by the counting
loop, the queue stays empty, and the merge loop calls `top` on the empty queue. -/
theorem empty_input_takes_top_of_empty_queue (L : Stl) :
    countFrequencies [] [] = .ok [] ∧ L.size (fillQueue L []) = 0 ∧
      buildHuffmanTree L [] = .error .emptyQueue := by
  refine ⟨rfl, ?_, ?_⟩
  · rw [L.size_eq, elems_fillQueue]; rfl
  · unfold buildHuffmanTree
    simp [countFrequencies, buildTree_nil]

/-- Claim C8 (invalid-symbol rejection): a run ends with the error "Input text contains
non-ASCII characters." exactly when the text holds a symbol that is not 7-bit ASCII, wherever
that symbol stands; the error is raised by the counting loop, the first stage, so that no
tree, code table, encoded string or decoded text is produced. -/
theorem invalid_symbol_rejection (L : Stl) (text : List Nat) :
    (buildHuffmanTree L text = .error .nonAscii ↔ ∃ c ∈ text, isascii c = false) ∧
    (countFrequencies text [] = .error .nonAscii ↔ ∃ c ∈ text, isascii c = false) := by
  refine ⟨buildHuffmanTree_nonAscii_iff L text, ?_, countFrequencies_error text []⟩
  intro h
  by_contra hcon
  have hall : ∀ c ∈ text, isascii c = true := by
    intro c hc
    by_contra hc'
    exact hcon ⟨c, hc, by simpa using hc'⟩
  rw [countFrequencies_nil_ok text hall] at h
  cases h

/-- Claim C9 as stated fails: on the text of `2^31` symbols `a` the tree is the leaf of `a`,
which is the root, and its weight is `-2^31`, neither the number of occurrences of `a` nor the
number of symbols of the text, and the total that `countTotalCharacters` reports is `-2^31`
as well. -/
theorem weights_wrap_on_long_text :
    ∃ out, buildHuffmanTree refStl longRun = .ok out ∧ out.root.isLeaf = true ∧
      out.root.ch = 97 ∧ longRun.count 97 = 2147483648 ∧ longRun.length = 2147483648 ∧
      out.root.freq = -2147483648 ∧ out.total = -2147483648 := by
  obtain ⟨out, ho, _, hroot, _, _, _, _, _, _, _, htot, _⟩ :=
    single_symbol_run refStl 97 2147483647 (by decide)
  have e : int32 ((2147483647 : Nat) + 1 : Int) = -2147483648 := by
    have : ((2147483647 : Nat) + 1 : Int) = 2147483648 := by norm_num
    rw [this]; exact int32_two_pow_31
  rw [e] at hroot htot
  refine ⟨out, ho, ?_, ?_, ?_, longRun_length, ?_, htot⟩
  · rw [hroot]; rfl
  · rw [hroot]; rfl
  · unfold longRun
    rw [List.count_replicate_self]
  · rw [hroot]; rfl

/-- Claim C9, amended (weight invariant): for every non-empty text of fewer than `2^31` 7-bit
ASCII symbols the run completes, and in its tree every node with children carries the sum of
the weights of its two children, every leaf carries the number of occurrences of its symbol,
and the root carries the length of the text, which is the total that `countTotalCharacters`
reports. -/
theorem weight_invariant (L : Stl) (text : List Nat) (hne : text ≠ [])
    (hascii : ∀ c ∈ text, isascii c = true) (hlen : text.length < 2147483648) :
    ∃ out, buildHuffmanTree L text = .ok out ∧
      (∀ x ∈ out.root.nodes, x.isLeaf = false → x.freq = x.left.freq + x.right.freq) ∧
      (∀ x ∈ out.root.nodes, x.isLeaf = true → x.freq = (text.count x.ch : Int)) ∧
      out.root.freq = (text.length : Int) ∧ out.root.freq = out.total := by
  obtain ⟨out, ho, hf, _, _, _, hperm, _, _, hr, hW, _, hsum⟩ :=
    run_facts_bounded L text hne hascii hlen
  obtain ⟨ht, _⟩ := report_fields L text _ _ out hr
  have hroot : out.root.freq = (text.length : Int) := by
    rw [Node.freq_eq_lsum _ hW, Node.lsum, (hperm.map Prod.snd).sum_eq, hsum]
  refine ⟨out, ho, nodes_weight _ hW, ?_, hroot, ?_⟩
  · intro x hx hleaf
    have := hperm.mem_iff.1 (nodes_leaf _ x hx hleaf)
    rw [hf] at this
    exact (tally_entry text _ _ this).1
  · rw [hroot, ht, countTotalCharacters_eq, int32_of_nonneg _ (by omega) (by omega)]

/-- A witness of `weight_invariant`: the text `"abracadabra"` with the reference library. -/
theorem weight_invariant_witness :
    ∃ out, buildHuffmanTree refStl abracadabra = .ok out ∧
      (∀ x ∈ out.root.nodes, x.isLeaf = false → x.freq = x.left.freq + x.right.freq) ∧
      (∀ x ∈ out.root.nodes, x.isLeaf = true → x.freq = (abracadabra.count x.ch : Int)) ∧
      out.root.freq = (abracadabra.length : Int) ∧ out.root.freq = out.total :=
  weight_invariant refStl abracadabra (by decide) (by decide) (by decide)

/-- Claim C10 as stated fails: on the text of `2^31` symbols `a` the counting loop leaves the
count `-2^31` for `a`, which occurs `2^31` times, and `countTotalCharacters` returns `-2^31`
for the length `2^31`. -/
theorem counters_wrap_on_long_text :
    countFrequencies longRun [] = .ok [(97, -2147483648)] ∧
      longRun.count 97 = 2147483648 ∧
      countTotalCharacters longRun = -2147483648 ∧ longRun.length = 2147483648 := by
  have hascii : ∀ c ∈ longRun, isascii c = true := by
    intro c hc
    unfold longRun at hc
    rw [(List.mem_replicate.1 hc).2]
    decide
  have e : int32 ((2147483647 : Int) + 1) = -2147483648 := by
    have : ((2147483647 : Int) + 1) = 2147483648 := by norm_num
    rw [this]; exact int32_two_pow_31
  refine ⟨?_, ?_, ?_, longRun_length⟩
  · rw [countFrequencies_nil_ok longRun hascii]
    unfold longRun
    rw [tally_single]
    simp only [UMap.wrap, List.map_cons, List.map_nil, Nat.cast_ofNat, e]
  · unfold longRun
    rw [List.count_replicate_self]
  · rw [countTotalCharacters_eq, longRun_length]
    exact int32_two_pow_31

/-- Claim C10, amended (frequency counter): for every text of fewer than `2^31` 7-bit ASCII
symbols the counting loop returns a map whose keys are, without repetition, exactly the
symbols of the text, each mapped to its number of occurrences, which is at least 1; the
counts add up to the length of the text, and `countTotalCharacters` returns that length. For
a text of any length the keys are, without repetition, the symbols of the text. -/
theorem frequency_counter (text : List Nat) (hascii : ∀ c ∈ text, isascii c = true) :
    ∃ freq, countFrequencies text [] = .ok freq ∧ freq.keys.Nodup ∧
      (∀ c, c ∈ freq.keys ↔ c ∈ text) ∧
      (text.length < 2147483648 →
        (∀ c n, (c, n) ∈ freq → n = (text.count c : Int) ∧ 1 ≤ n) ∧
        (∀ c, UMap.get freq c 0 = (text.count c : Int)) ∧
        (freq.map Prod.snd).sum = (text.length : Int) ∧
        countTotalCharacters text = (text.length : Int)) := by
  refine ⟨(tally text []).wrap, countFrequencies_nil_ok text hascii, ?_, ?_, ?_⟩
  · rw [UMap.wrap_keys]; exact tally_nodup text [] List.nodup_nil
  · intro c
    rw [UMap.wrap_keys]
    have := tally_mem_keys text [] c
    simp only [UMap.keys, List.map_nil, List.not_mem_nil, false_or] at this
    exact this
  · intro hlen
    rw [tally_wrap text hlen]
    refine ⟨?_, ?_, ?_, ?_⟩
    · intro c n h
      obtain ⟨h1, h2⟩ := tally_entry text c n h
      refine ⟨h1, ?_⟩
      have := List.count_pos_iff.2 h2
      omega
    · intro c
      have := tally_get text [] c
      simpa [UMap.get, UMap.find] using this
    · have := tally_sum text []
      simpa using this
    · rw [countTotalCharacters_eq, int32_of_nonneg _ (by omega) (by omega)]

/-- A witness of `frequency_counter`: the text `"abracadabra"`. -/
theorem frequency_counter_witness :
    ∃ freq, countFrequencies abracadabra [] = .ok freq ∧ freq.keys.Nodup ∧
      (∀ c, c ∈ freq.keys ↔ c ∈ abracadabra) ∧
      (∀ c n, (c, n) ∈ freq → n = (abracadabra.count c : Int) ∧ 1 ≤ n) ∧
      (∀ c, UMap.get freq c 0 = (abracadabra.count c : Int)) ∧
      (freq.map Prod.snd).sum = (abracadabra.length : Int) ∧
      countTotalCharacters abracadabra = (abracadabra.length : Int) := by
  obtain ⟨freq, h1, h2, h3, h4⟩ := frequency_counter abracadabra (by decide)
  exact ⟨freq, h1, h2, h3, h4 (by decide)⟩

/-- Claim C11 (encoded length): for every non-empty text of 7-bit ASCII symbols the run
completes, and the length of the encoded string is the sum of the code lengths of the symbols
of the text, taken in order and with repetition, which is also the sum over the entries of
the frequency map of the number of occurrences of the symbol times its code length, and is
the reported number of bits after encoding. For a text of fewer than `2^31` symbols the
number of occurrences is the count that the frequency map holds. -/
theorem encoded_length (L : Stl) (text : List Nat) (hne : text ≠ [])
    (hascii : ∀ c ∈ text, isascii c = true) :
    ∃ out, buildHuffmanTree L text = .ok out ∧
      out.str.length = (text.map (fun c => (UMap.get out.huffmanCode c []).length)).sum ∧
      (out.str.length : Int) =
        (out.freq.map (fun p =>
          (text.count p.1 : Int) * ((UMap.get out.huffmanCode p.1 []).length : Int))).sum ∧
      (text.length < 2147483648 →
        (out.str.length : Int) =
          (out.freq.map (fun p =>
            p.2 * ((UMap.get out.huffmanCode p.1 []).length : Int))).sum) ∧
      out.bitsAfter = out.str.length := by
  obtain ⟨out, ho, hf, _, _, _, _, _, _, hr⟩ := run_facts L text hne hascii
  obtain ⟨_, _, _, hc, _, _, _, _, hs, _, _, hba⟩ := report_fields L text _ _ out hr
  have hcost : (out.str.length : Int) =
      ((tally text []).map (fun p =>
        p.2 * ((UMap.get out.huffmanCode p.1 []).length : Int))).sum := by
    rw [hs, hc, encodeText_length_eq_costOf]
    rfl
  refine ⟨out, ho, ?_, ?_, ?_, ?_⟩
  · rw [hs, hc, encodeText_length]
  · rw [hcost, hf]
    simp only [UMap.wrap, List.map_map]
    congr 1
    apply List.map_congr_left
    intro p hp
    simp only [Function.comp, (tally_entry text p.1 p.2 hp).1]
  · intro hlen
    rw [hcost, hf, tally_wrap text hlen]
  · rw [hba, hs]

/-- A witness of `encoded_length`: the text `"abracadabra"` with the reference library. -/
theorem encoded_length_witness :
    ∃ out, buildHuffmanTree refStl abracadabra = .ok out ∧
      out.str.length =
        (abracadabra.map (fun c => (UMap.get out.huffmanCode c []).length)).sum ∧
      (out.str.length : Int) =
        (out.freq.map (fun p =>
          (abracadabra.count p.1 : Int) * ((UMap.get out.huffmanCode p.1 []).length : Int))).sum ∧
      (out.str.length : Int) =
        (out.freq.map (fun p =>
          p.2 * ((UMap.get out.huffmanCode p.1 []).length : Int))).sum ∧
      out.bitsAfter = out.str.length := by
  obtain ⟨out, h1, h2, h3, h4, h5⟩ := encoded_length refStl abracadabra (by decide) (by decide)
  exact ⟨out, h1, h2, h3, h4 (by decide), h5⟩

/-- Claim C12 (no empty code): for every text of 7-bit ASCII symbols with two different
symbols the run completes, the root of the tree is not a leaf, every leaf lies at depth at
least 1, and every code of the code table, so the code of every symbol of the text, is a
non-empty string. -/
theorem no_empty_code (L : Stl) (text : List Nat) (hascii : ∀ c ∈ text, isascii c = true)
    (a b : Nat) (ha : a ∈ text) (hb : b ∈ text) (hab : a ≠ b) :
    ∃ out, buildHuffmanTree L text = .ok out ∧ out.root.isLeaf = false ∧
      (∀ x ∈ out.root.rows [], 1 ≤ x.2.2.length) ∧
      (∀ c code, UMap.find out.huffmanCode c = some code → code ≠ []) ∧
      (∀ c ∈ text, UMap.get out.huffmanCode c [] ≠ []) := by
  have hne : text ≠ [] := List.ne_nil_of_mem ha
  obtain ⟨out, ho, _, _, _, _, _, hn, hmem, hr⟩ := run_facts L text hne hascii
  obtain ⟨_, _, _, hc, _⟩ := report_fields L text _ _ out hr
  have hall := codes_ne_nil_of_two out.root hn a b (hmem a ha) (hmem b hb) hab
  refine ⟨out, ho, ?_, ?_, ?_, ?_⟩
  · cases hl : out.root.isLeaf with
    | false => rfl
    | true =>
      obtain ⟨c, hcodes⟩ := isLeaf_codes out.root hl
      exact absurd rfl (hall (c, []) (by rw [hcodes]; exact List.mem_singleton_self _))
  · intro x hx
    exact List.length_pos.2 (hall (x.1, x.2.2) (row_mem_codes out.root x hx))
  · intro c code h
    rw [hc] at h
    exact hall _ (find_mem_codes out.root c code h)
  · intro c hcm
    rw [hc]
    exact hall _ (assignCodes_mem_codes out.root hn c (hmem c hcm))

/-- A witness of `no_empty_code`: the text `"abracadabra"` with the reference library. -/
theorem no_empty_code_witness :
    ∃ out, buildHuffmanTree refStl abracadabra = .ok out ∧ out.root.isLeaf = false ∧
      (∀ x ∈ out.root.rows [], 1 ≤ x.2.2.length) ∧
      (∀ c code, UMap.find out.huffmanCode c = some code → code ≠ []) ∧
      (∀ c ∈ abracadabra, UMap.get out.huffmanCode c [] ≠ []) :=
  no_empty_code refStl abracadabra (by decide) 97 98 (by decide) (by decide) (by decide)

/-- Claim C13 as stated fails: in the text of `2^31` symbols `y` followed by `xxz` the symbol
`x` occurs less often than `y`, the count of `y` is `-2^31`, and `x` gets the code `1`, which is
shorter than the code `00` of `y`. -/
theorem long_text_not_monotone :
    ∃ out, buildHuffmanTree refStl skewedText = .ok out ∧
      skewedText.count 120 = 2 ∧ skewedText.count 121 = 2147483648 ∧
      UMap.get out.freq 121 0 = -2147483648 ∧
      UMap.find out.huffmanCode 120 = some ['1'] ∧
      UMap.find out.huffmanCode 121 = some ['0', '0'] := by
  obtain ⟨out, ho, hf, hc, _⟩ := run_with_table refStl skewedText _ _ skewedText_freq
    skewedText_table
  refine ⟨out, ho, ?_, ?_, ?_, ?_, ?_⟩
  · unfold skewedText
    rw [List.count_append, List.count_replicate]
    decide
  · unfold skewedText
    rw [List.count_append, List.count_replicate]
    decide
  · rw [hf]; decide
  · rw [hc]; decide
  · rw [hc]; decide

/-- Claim C13, amended (code-length monotonicity): for every text of fewer than `2^31` 7-bit
ASCII symbols and every two symbols `x` and `y` of it such that `x` occurs less often than
`y`, the run completes, both symbols have a code in the code table, and the code of `x` is at
least as long as the code of `y`. -/
theorem code_length_monotone (L : Stl) (text : List Nat)
    (hascii : ∀ c ∈ text, isascii c = true) (hlen : text.length < 2147483648)
    (x y : Nat) (hx : x ∈ text) (hy : y ∈ text) (hlt : text.count x < text.count y) :
    ∃ out cx cy, buildHuffmanTree L text = .ok out ∧
      UMap.get out.freq x 0 = (text.count x : Int) ∧
      UMap.get out.freq y 0 = (text.count y : Int) ∧
      UMap.find out.huffmanCode x = some cx ∧ UMap.find out.huffmanCode y = some cy ∧
      cy.length ≤ cx.length := by
  have hne : text ≠ [] := List.ne_nil_of_mem hx
  obtain ⟨out, ho, hf, _, hM, _, hperm, hn, hmem, hr, _, hnn, hsum⟩ :=
    run_facts_bounded L text hne hascii hlen
  obtain ⟨_, _, _, hc, _⟩ := report_fields L text _ _ out hr
  obtain ⟨rx, hrx, ex⟩ := row_of_symbol out.root x (hmem x hx)
  obtain ⟨ry, hry, ey⟩ := row_of_symbol out.root y (hmem y hy)
  have cnt : ∀ r ∈ out.root.rows [], r.2.1 = (text.count r.1 : Int) := by
    intro r hrm
    have := hperm.mem_iff.1 (row_mem_leaves out.root r hrm)
    rw [hf] at this
    exact (tally_entry text _ _ this).1
  have hlt' : rx.2.1 < ry.2.1 := by
    rw [cnt rx hrx, cnt ry hry, ex, ey]
    exact_mod_cast hlt
  have hmono := hM.monotone hnn (by rw [hsum]; omega) rx ry hrx hry hlt'
  have cx := assignCodes_row out.root hn rx hrx
  have cy := assignCodes_row out.root hn ry hry
  rw [ex] at cx
  rw [ey] at cy
  have gx := tally_get text [] x
  have gy := tally_get text [] y
  simp only [UMap.get, UMap.find, Option.getD_none, zero_add] at gx gy
  refine ⟨out, rx.2.2, ry.2.2, ho, ?_, ?_, ?_, ?_, hmono⟩
  · rw [hf]; exact gx
  · rw [hf]; exact gy
  · rw [hc]; exact cx
  · rw [hc]; exact cy

/-- A witness of `code_length_monotone`: in `"abracadabra"` the symbol `b` occurs less often
than the symbol `a`. -/
theorem code_length_monotone_witness :
    ∃ out cx cy, buildHuffmanTree refStl abracadabra = .ok out ∧
      UMap.get out.freq 98 0 = (abracadabra.count 98 : Int) ∧
      UMap.get out.freq 97 0 = (abracadabra.count 97 : Int) ∧
      UMap.find out.huffmanCode 98 = some cx ∧ UMap.find out.huffmanCode 97 = some cy ∧
      cy.length ≤ cx.length :=
  code_length_monotone refStl abracadabra (by decide) (by decide) 98 97 (by decide)
    (by decide) (by decide)

/-- Claim C14 as stated fails: for the tree of `"abracadabra"` the encoding of `"ab"` is
`0110`; on that string cut after three bits, in the middle of the code of `b`, the decode
loop returns without any error, having written `"ar"`. -/
theorem truncated_stream_not_detected :
    buildTree refStl abracadabraFreq = .ok abracadabraTree ∧
      encodeText (assignCodes abracadabraTree).1 [97, 98] = ['0', '1', '1', '0'] ∧
      decodeLoop abracadabraTree ['0', '1', '1'] 4 (-1, []) = .ok (3, [97, 114]) := by
  decide!

/-- Claim C14, amended: the decoder detects no malformed stream and has no error for it. On
every tree and every string, a call of `decode` either returns after writing at most one
symbol, with `index` left where it was or at a place of the string that has been read, and
not moved backwards when it was an `int`, or reads the string beyond its terminator, which is
undefined; the decode loop either returns with what has been written, or runs into that read,
or does not end within the bound on its iterations. -/
theorem malformed_stream_undetected (root : Node) (str : List Char) (fuel : Nat)
    (st : Int × List Nat) :
    ((∃ st', decode root str st = .ok st' ∧
        (st'.1 = st.1 ∨ (0 ≤ st'.1 ∧ st'.1 ≤ (str.length : Int))) ∧
        (-2147483648 ≤ st.1 ∧ st.1 < 2147483648 → st.1 ≤ st'.1) ∧
        (st'.2 = st.2 ∨ ∃ c, st'.2 = st.2 ++ [c])) ∨
      decode root str st = .error .outOfRange) ∧
    ((∃ st', decodeLoop root str fuel st = .ok st') ∨
      decodeLoop root str fuel st = .error .outOfRange ∨
      decodeLoop root str fuel st = .error .fuel) :=
  ⟨decode_outcome root str st, decodeLoop_outcome root str fuel st⟩

/-- Claim C15 as stated fails: on the text of `2^31` symbols `a` the only code is the empty
one, of length 0, and `freqBitCountMap[0]` is `-2^31`, while `a` occurs `2^31` times and the
text has `2^31` symbols. -/
theorem statistics_wrap_on_long_text :
    ∃ out, buildHuffmanTree refStl longRun = .ok out ∧ out.huffmanCode = [(97, [])] ∧
      longRun.count 97 = 2147483648 ∧ longRun.length = 2147483648 ∧
      out.freqBitCountMap = [(0, -2147483648)] ∧
      (out.freqBitCountMap.map Prod.snd).sum = -2147483648 := by
  obtain ⟨out, ho, _, _, hcode, _, _, _, _, _, hfb, _⟩ :=
    single_symbol_run refStl 97 2147483647 (by decide)
  have e : int32 ((2147483647 : Nat) + 1 : Int) = -2147483648 := by
    have : ((2147483647 : Nat) + 1 : Int) = 2147483648 := by norm_num
    rw [this]; exact int32_two_pow_31
  rw [e] at hfb
  refine ⟨out, ho, hcode, ?_, longRun_length, hfb, ?_⟩
  · unfold longRun
    rw [List.count_replicate_self]
  · rw [hfb]; decide

/-- Claim C15, amended (length statistics): for every non-empty text of fewer than `2^31`
7-bit ASCII symbols the run completes; the keys of `bitCountMap` and of `freqBitCountMap` are,
without repetition, the code lengths that occur in the code table, all below 128;
`bitCountMap[len]` is the number of symbols whose code has length `len` and
`freqBitCountMap[len]` is the sum of their frequencies, which are their numbers of
occurrences; the counts add up to the number of distinct symbols, the frequencies to the
length of the text, and the sum of `len` times `freqBitCountMap[len]` is the number of bits
after encoding. -/
theorem length_statistics (L : Stl) (text : List Nat) (hne : text ≠ [])
    (hascii : ∀ c ∈ text, isascii c = true) (hlen : text.length < 2147483648) :
    ∃ out, buildHuffmanTree L text = .ok out ∧
      out.bitCountMap.keys.Nodup ∧ out.freqBitCountMap.keys.Nodup ∧
      (∀ len, len ∈ out.bitCountMap.keys ↔ ∃ p ∈ out.huffmanCode, p.2.length = len) ∧
      (∀ len, len ∈ out.freqBitCountMap.keys ↔ ∃ p ∈ out.huffmanCode, p.2.length = len) ∧
      (∀ len, UMap.get out.bitCountMap len 0 =
        ((out.huffmanCode.filter (fun p => p.2.length = len)).length : Int)) ∧
      (∀ len, UMap.get out.freqBitCountMap len 0 =
        ((out.huffmanCode.filter (fun p => p.2.length = len)).map
          (fun p => UMap.get out.freq p.1 0)).sum) ∧
      (out.bitCountMap.map Prod.snd).sum = (out.freq.length : Int) ∧
      out.huffmanCode.keys.Nodup ∧ out.huffmanCode.length = out.freq.length ∧
      (out.freqBitCountMap.map Prod.snd).sum = (text.length : Int) ∧
      (out.freqBitCountMap.map (fun p => (p.1 : Int) * p.2)).sum = (out.bitsAfter : Int) ∧
      (∀ c, UMap.get out.freq c 0 = (text.count c : Int)) ∧
      (∀ p ∈ out.huffmanCode, p.2.length < 128) := by
  obtain ⟨out, ho, hf, _, _, hS, hperm, hn, _, hr, _, hnn, hsum⟩ :=
    run_facts_bounded L text hne hascii hlen
  obtain ⟨_, _, _, hc, _, hb, hfb, _, hs, _, _, hba⟩ := report_fields L text _ _ out hr
  have hk : out.freq.keys.Nodup := by rw [hf]; exact tally_nodup text [] List.nodup_nil
  have hpos : ∀ p ∈ out.freq, 1 ≤ p.2 := by
    intro p hp
    rw [hf] at hp
    obtain ⟨h1, h2⟩ := tally_entry text p.1 p.2 hp
    have := List.count_pos_iff.2 h2
    omega
  have hlt : ∀ c ∈ out.freq.keys, c < 128 := by
    intro c hcm
    rw [hf, tally_mem_keys] at hcm
    rcases hcm with hcm | hcm
    · simp [UMap.keys] at hcm
    · have := hascii c hcm
      simpa [isascii] using this
  obtain ⟨s1, s2, s3, s4, s5, s6, s7, s8, s9⟩ :=
    lengthStats_spec L out.freq hk out.root hperm hpos (by rw [hsum]; omega)
  refine ⟨out, ho, ?_⟩
  rw [hb, hfb, hc, hba]
  refine ⟨s1, s2, s3, s4, s5, s6, s7, ?_, ?_, ?_, ?_, ?_, ?_⟩
  · rw [assignCodes_table out.root hn]
    show ((out.root.codes []).map Prod.fst).Nodup
    rw [codes_keys]; exact hn
  · exact table_length out.freq hk out.root hperm
  · rw [s8, hsum]
  · rw [s9, hf, encodeText_length_eq_costOf]
  · intro c
    rw [hf]
    have := tally_get text [] c
    simpa [UMap.get, UMap.find] using this
  · exact table_length_lt out.freq hk hlt out.root hS hperm

/-- A witness of `length_statistics`: the text `"abracadabra"` with the reference library. -/
theorem length_statistics_witness :
    ∃ out, buildHuffmanTree refStl abracadabra = .ok out ∧
      out.bitCountMap.keys.Nodup ∧ out.freqBitCountMap.keys.Nodup ∧
      (∀ len, len ∈ out.bitCountMap.keys ↔ ∃ p ∈ out.huffmanCode, p.2.length = len) ∧
      (∀ len, len ∈ out.freqBitCountMap.keys ↔ ∃ p ∈ out.huffmanCode, p.2.length = len) ∧
      (∀ len, UMap.get out.bitCountMap len 0 =
        ((out.huffmanCode.filter (fun p => p.2.length = len)).length : Int)) ∧
      (∀ len, UMap.get out.freqBitCountMap len 0 =
        ((out.huffmanCode.filter (fun p => p.2.length = len)).map
          (fun p => UMap.get out.freq p.1 0)).sum) ∧
      (out.bitCountMap.map Prod.snd).sum = (out.freq.length : Int) ∧
      out.huffmanCode.keys.Nodup ∧ out.huffmanCode.length = out.freq.length ∧
      (out.freqBitCountMap.map Prod.snd).sum = (abracadabra.length : Int) ∧
      (out.freqBitCountMap.map (fun p => (p.1 : Int) * p.2)).sum = (out.bitsAfter : Int) ∧
      (∀ c, UMap.get out.freq c 0 = (abracadabra.count c : Int)) ∧
      (∀ p ∈ out.huffmanCode, p.2.length < 128) :=
  length_statistics refStl abracadabra (by decide) (by decide) (by decide)

/-- Claim C16 (a code is the path from the root to the leaf): for every tree, the traversal
`encode(root, "", ...)` records one pair per leaf, in the order of the leaves from left to
right; the string of each pair consists of `'0'` and `'1'` and leads from the root, left on
`'0'` and right on `'1'`, to a leaf that carries the symbol of the pair; every leaf reached
by such a string is recorded with that string, and no string is recorded twice. The code
table holds recorded pairs only, and all of them when the symbols of the leaves differ. -/
theorem code_is_path (t : Node) :
    (assignCodes t).2.map Prod.fst = t.leaves.map Prod.fst ∧
    (∀ p ∈ (assignCodes t).2, (t.follow p.2).isLeaf = true ∧ (t.follow p.2).ch = p.1 ∧
      ∀ b ∈ p.2, b = '0' ∨ b = '1') ∧
    (∀ bits, (∀ b ∈ bits, b = '0' ∨ b = '1') → (t.follow bits).isLeaf = true →
      ((t.follow bits).ch, bits) ∈ (assignCodes t).2) ∧
    ((assignCodes t).2.map Prod.snd).Nodup ∧
    (∀ c code, UMap.find (assignCodes t).1 c = some code → (c, code) ∈ (assignCodes t).2) ∧
    ((t.leaves.map Prod.fst).Nodup → (assignCodes t).1 = (assignCodes t).2) := by
  have h2 : (assignCodes t).2 = t.codes [] := by rw [assignCodes_eq]
  rw [h2]
  refine ⟨codes_keys t [], ?_, ?_, codes_nodup t [], find_mem_codes t, assignCodes_table t⟩
  · intro p hp
    obtain ⟨path, e, hl, hch, hb⟩ := codes_follow t [] p hp
    simp only [List.nil_append] at e
    rw [e]
    exact ⟨hl, hch, hb⟩
  · intro bits hbits hl
    have := follow_codes t [] bits hbits hl
    simpa using this

/-- Claim C17 (the construction ends with a well-formed tree): for every frequency map with
`n ≥ 1` entries the body of the merge loop runs exactly `n - 1` times and the loop ends with
one node in the queue; that node is the root, a strict binary tree with exactly `n` leaves,
which are the entries of the map, each symbol in one leaf only; so every symbol of the map
has an entry in the code table. -/
theorem construction_ends_well_formed (L : Stl) (freq : UMap Int) (hk : freq.keys.Nodup)
    (hne : freq ≠ []) :
    ∃ q root, runMerges L (L.size (fillQueue L freq)) (fillQueue L freq) =
        .ok (q, freq.length - 1) ∧
      L.size q = 1 ∧ L.top q = root ∧ buildTree L freq = .ok root ∧ root.Strict ∧
      root.leaves.length = freq.length ∧ root.leaves.Perm freq ∧
      (root.leaves.map Prod.fst).Nodup ∧
      ∀ p ∈ freq, p.1 ∈ (assignCodes root).1.keys := by
  obtain ⟨q, hq, hq1, hb⟩ := runMerges_fillQueue L freq hne
  obtain ⟨R, hR, hM⟩ := buildTree_spec L freq hne
  have hRq : R = L.top q := by
    rw [hR] at hb
    exact Except.ok.inj hb
  obtain ⟨hS, hperm⟩ := hM.of_map
  refine ⟨q, R, hq, hq1, hRq.symm, hR, hS, hperm.length_eq, hperm, ?_, ?_⟩
  · exact ((hperm.map Prod.fst).nodup_iff).2 hk
  · intro p hp
    rw [assignCodes_keys, (hperm.map Prod.fst).mem_iff]
    exact List.mem_map.2 ⟨p, hp, rfl⟩

/-- A witness of `construction_ends_well_formed`: the frequency map of `"abracadabra"`. -/
theorem construction_ends_well_formed_witness :
    ∃ q root, runMerges refStl (refStl.size (fillQueue refStl abracadabraFreq))
        (fillQueue refStl abracadabraFreq) = .ok (q, abracadabraFreq.length - 1) ∧
      refStl.size q = 1 ∧ refStl.top q = root ∧
      buildTree refStl abracadabraFreq = .ok root ∧ root.Strict ∧
      root.leaves.length = abracadabraFreq.length ∧ root.leaves.Perm abracadabraFreq ∧
      (root.leaves.map Prod.fst).Nodup ∧
      ∀ p ∈ abracadabraFreq, p.1 ∈ (assignCodes root).1.keys :=
  construction_ends_well_formed refStl abracadabraFreq (by decide) (by decide)

/-- Claim C18 (one symbol repeated): for every text that repeats one 7-bit ASCII symbol the
run completes without a merge, the root is the leaf of the symbol, whose weight is the number
of repetitions taken as `int`, the code of the symbol is the empty string, the encoded string
is empty, so that there are 0 bits after encoding, and the decode loop writes nothing: the
decoded text is not the input. -/
theorem single_symbol_behaviour (L : Stl) (c n : Nat) (hc : isascii c = true) :
    ∃ out, buildHuffmanTree L (List.replicate (n + 1) c) = .ok out ∧
      (∃ q, runMerges L (L.size (fillQueue L out.freq)) (fillQueue L out.freq) = .ok (q, 0)) ∧
      out.root = getNode c (int32 ((n : Int) + 1)) .null .null ∧
      ((n : Int) + 1 < 2147483648 → out.root = getNode c ((n : Int) + 1) .null .null) ∧
      out.huffmanCode = [(c, [])] ∧ out.order = [(c, [])] ∧
      out.str = [] ∧ out.bitsAfter = 0 ∧ out.decoded = .ok [] ∧
      out.decoded ≠ .ok (List.replicate (n + 1) c) := by
  obtain ⟨out, ho, _, hroot, hcode, hord, hstr, hba, hdec, _, _, _, hq⟩ :=
    single_symbol_run L c n hc
  refine ⟨out, ho, hq, hroot, ?_, hcode, hord, hstr, hba, hdec, ?_⟩
  · intro hlt
    rw [hroot, int32_of_nonneg _ (by omega) hlt]
  · rw [hdec]
    intro h
    have := Except.ok.inj h
    simp at this

/-- A witness of `single_symbol_behaviour`: the text `"aaaa"` with the reference library. -/
theorem single_symbol_behaviour_witness :
    ∃ out, buildHuffmanTree refStl (List.replicate (3 + 1) 97) = .ok out ∧
      (∃ q, runMerges refStl (refStl.size (fillQueue refStl out.freq))
        (fillQueue refStl out.freq) = .ok (q, 0)) ∧
      out.root = getNode 97 (int32 (((3 : Nat) : Int) + 1)) .null .null ∧
      ((((3 : Nat) : Int) + 1 < 2147483648) → out.root = getNode 97 (((3 : Nat) : Int) + 1)
        .null .null) ∧
      out.huffmanCode = [(97, [])] ∧ out.order = [(97, [])] ∧
      out.str = [] ∧ out.bitsAfter = 0 ∧ out.decoded = .ok [] ∧
      out.decoded ≠ .ok (List.replicate (3 + 1) 97) :=
  single_symbol_behaviour refStl 97 3 (by decide)

/-- Claim C19 as stated fails: the text of `2^28 + 1` symbols `a` followed by `2^28` symbols
each of `b`, `c` and `d` is accepted and its last symbol `d` has the code `10`, of length 2;
the encoded string has `2^31 + 2` bits, and the decode loop writes nothing, not the text. -/
theorem long_stream_not_decoded :
    ∃ out, buildHuffmanTree refStl evenText = .ok out ∧
      (∀ c ∈ evenText, isascii c = true) ∧ 97 ∈ evenText ∧ 98 ∈ evenText ∧
      evenText.getLast? = some 100 ∧ UMap.get out.huffmanCode 100 [] = ['1', '0'] ∧
      out.str.length = 2147483650 ∧ out.decoded = .ok [] ∧ out.decoded ≠ .ok evenText := by
  obtain ⟨out, ho, _, hc, hs, _, _, hd⟩ := run_with_table refStl evenText _ _ evenText_freq
    evenText_table
  have hlen : out.str.length = 2147483650 := by
    have h97 : (UMap.get [(98, ['0', '0']), (99, ['0', '1']), (100, ['1', '0']),
        (97, ['1', '1'])] 97 []).length = 2 := by decide
    have h98 : (UMap.get [(98, ['0', '0']), (99, ['0', '1']), (100, ['1', '0']),
        (97, ['1', '1'])] 98 []).length = 2 := by decide
    have h99 : (UMap.get [(98, ['0', '0']), (99, ['0', '1']), (100, ['1', '0']),
        (97, ['1', '1'])] 99 []).length = 2 := by decide
    have h100 : (UMap.get [(98, ['0', '0']), (99, ['0', '1']), (100, ['1', '0']),
        (97, ['1', '1'])] 100 []).length = 2 := by decide
    rw [hs, encodeText_length]
    unfold evenText
    simp only [List.map_append, List.map_replicate, List.sum_append, List.sum_replicate,
      h97, h98, h99, h100, smul_eq_mul]
    decide
  have hdec : out.decoded = .ok [] := by
    rw [hd, ← hs]
    apply decodeText_skipped
    rw [hlen]
    unfold int32
    decide
  have hne : evenText ≠ [] := by
    intro h
    have := congrArg List.length h
    unfold evenText at this
    rw [List.length_append, List.length_replicate, List.length_nil] at this
    omega
  refine ⟨out, ho, evenText_ascii, ?_, ?_, ?_, ?_, hlen, hdec, ?_⟩
  · unfold evenText
    exact List.mem_append_left _ (List.mem_replicate.2 ⟨by decide, rfl⟩)
  · unfold evenText
    exact List.mem_append_right _ (List.mem_append_left _
      (List.mem_replicate.2 ⟨by decide, rfl⟩))
  · unfold evenText
    simp only [List.getLast?_append, List.getLast?_replicate]
    decide
  · rw [hc]; decide
  · rw [hdec]
    intro h
    exact hne (Except.ok.inj h).symm

/-- Claim C19, amended (exact output of the decode loop): for every text of 7-bit ASCII
symbols with two different symbols the run completes and the code of the last symbol is not
empty; a text of fewer than `2^31` symbols is encoded with at most seven bits per symbol; and
when the encoded string has fewer than `2^31` bits, the decode loop writes the whole text if
the code of the last symbol has at least two bits, and the text without its last symbol if
that code has one bit, it gives the same result when every read of the encoded string at or
beyond its end is forbidden, and it ends with an index inside the string. -/
theorem decode_loop_output (L : Stl) (text : List Nat)
    (hascii : ∀ c ∈ text, isascii c = true)
    (a b : Nat) (ha : a ∈ text) (hb : b ∈ text) (hab : a ≠ b) :
    ∃ out last, buildHuffmanTree L text = .ok out ∧ text.getLast? = some last ∧
      (UMap.get out.huffmanCode last []).length ≠ 0 ∧
      (text.length < 2147483648 → out.str.length ≤ 7 * text.length) ∧
      (out.str.length < 2147483648 →
        (2 ≤ (UMap.get out.huffmanCode last []).length → out.decoded = .ok text) ∧
        ((UMap.get out.huffmanCode last []).length = 1 →
          out.decoded = .ok text.dropLast) ∧
        ∃ i d, out.decoded = .ok d ∧
          decodeLoop out.root out.str (out.str.length + 1) (-1, []) = .ok (i, d) ∧
          decodeLoopVia (strAtInside out.str) out.root out.str.length (out.str.length + 1)
            (-1, []) = .ok (i, d) ∧
          i < (out.str.length : Int)) := by
  have hne : text ≠ [] := List.ne_nil_of_mem ha
  obtain ⟨out, ho, hf, _, hM, _, _, hn, hmem, hr⟩ := run_facts L text hne hascii
  obtain ⟨_, _, _, hc, _, _, _, _, hs, hrt, _⟩ := report_fields L text _ _ out hr
  have hall := codes_ne_nil_of_two out.root hn a b (hmem a ha) (hmem b hb) hab
  have hcode : ∀ s ∈ text, (s, UMap.get (assignCodes out.root).1 s []) ∈ out.root.codes [] :=
    fun s hs' => assignCodes_mem_codes out.root hn s (hmem s hs')
  have hnonempty : ∀ s ∈ text, UMap.get (assignCodes out.root).1 s [] ≠ [] :=
    fun s hs' => hall _ (hcode s hs')
  obtain ⟨last, hlast⟩ : ∃ last, text.getLast? = some last := by
    cases h : text.getLast? with
    | none => exact absurd (List.getLast?_eq_none_iff.1 h) hne
    | some x => exact ⟨x, rfl⟩
  have hlmem : last ∈ text := List.mem_of_getLast?_eq_some hlast
  have hchar := decodedPrefix_eq (fun ch => UMap.get (assignCodes out.root).1 ch []) text
    hnonempty last hlast
  refine ⟨out, last, ho, hlast, ?_, ?_, ?_⟩
  · rw [hc]
    exact fun h => hnonempty last hlmem (List.length_eq_zero.1 h)
  · intro hlen
    rw [hf, tally_wrap text hlen] at hM
    have := encoded_le_seven text hne hascii hlen out.root hM
    rw [hs]
    exact_mod_cast this
  · intro hlen
    rw [hs] at hlen
    obtain ⟨i, hvia, hloop, hib⟩ := decodeLoop_encoded out.root hn text hmem hlen
    have hdec : out.decoded =
        .ok (decodedPrefix (fun ch => UMap.get (assignCodes out.root).1 ch []) text) := by
      rw [hrt]
      exact roundTrip_spec out.root hn text hmem hlen
    rw [hc, hs]
    refine ⟨?_, ?_, i, _, hdec, hloop, hvia, hib⟩
    · intro h2
      rw [hdec, hchar]
      simp [h2]
    · intro h1
      rw [hdec, hchar]
      simp [h1]

/-- A witness of `decode_loop_output`: the text `"abracadabra"` with the reference library;
its encoded string has fewer than `2^31` bits. -/
theorem decode_loop_output_witness :
    ∃ out last, buildHuffmanTree refStl abracadabra = .ok out ∧
      abracadabra.getLast? = some last ∧
      (UMap.get out.huffmanCode last []).length ≠ 0 ∧
      out.str.length ≤ 7 * abracadabra.length ∧
      (2 ≤ (UMap.get out.huffmanCode last []).length → out.decoded = .ok abracadabra) ∧
      ((UMap.get out.huffmanCode last []).length = 1 →
        out.decoded = .ok abracadabra.dropLast) ∧
      ∃ i d, out.decoded = .ok d ∧
        decodeLoop out.root out.str (out.str.length + 1) (-1, []) = .ok (i, d) ∧
        decodeLoopVia (strAtInside out.str) out.root out.str.length (out.str.length + 1)
          (-1, []) = .ok (i, d) ∧
        i < (out.str.length : Int) := by
  obtain ⟨out, last, h1, h2, h3, h4, h5⟩ :=
    decode_loop_output refStl abracadabra (by decide) 97 98 (by decide) (by decide)
      (by decide)
  have h6 := h4 (by decide)
  have h7 : out.str.length < 2147483648 := by
    have : abracadabra.length = 11 := by decide
    omega
  obtain ⟨h8, h9, h10⟩ := h5 h7
  exact ⟨out, last, h1, h2, h3, h6, h8, h9, h10⟩

/-- Claim C20 as stated fails: the text of `2^31` symbols `a` followed by `bcdefghij` has
`n = 2147483657` symbols, all of them 7-bit ASCII; the count of `a` is `-2^31`, the code of `a`
has nine bits, and the number of bits after encoding, `19327352877`, is more than `7 * n` and
more than the reported number of bits before encoding, `8 * n = 17179869256`. -/
theorem long_text_expands :
    ∃ out, buildHuffmanTree refStl chainText = .ok out ∧
      (∀ c ∈ chainText, isascii c = true) ∧ chainText.length = 2147483657 ∧
      UMap.get out.freq 97 0 = -2147483648 ∧
      (UMap.get out.huffmanCode 97 []).length = 9 ∧
      out.bitsAfter = 19327352877 ∧ out.bitsBefore = 17179869256 ∧
      7 * chainText.length < out.bitsAfter ∧ out.bitsBefore < out.bitsAfter := by
  obtain ⟨out, ho, hf, hc, _, hba, hbb, _⟩ := run_with_table refStl chainText _ _
    chainText_freq chainText_table
  have hlen : chainText.length = 2147483657 := by
    unfold chainText
    rw [List.length_append, List.length_replicate]
    rfl
  have hafter : out.bitsAfter = 19327352877 := by
    rw [hba, encodeText_length]
    unfold chainText
    rw [List.map_append, List.map_replicate, List.sum_append, List.sum_replicate]
    decide
  have hbefore : out.bitsBefore = 17179869256 := by
    rw [hbb, hlen]
  refine ⟨out, ho, chainText_ascii, hlen, ?_, ?_, hafter, hbefore, ?_, ?_⟩
  · rw [hf]; decide
  · rw [hc]; decide
  · rw [hafter, hlen]; decide
  · rw [hafter, hbefore]; decide

/-- Claim C20, amended (encoding never expands): for every non-empty text of `n < 2^31` 7-bit
ASCII symbols the run completes, the number of bits after encoding is at most `7 * n`, and so
it is less than the reported number of bits before encoding, `8 * n`. -/
theorem encoding_never_expands (L : Stl) (text : List Nat) (hne : text ≠ [])
    (hascii : ∀ c ∈ text, isascii c = true) (hlen : text.length < 2147483648) :
    ∃ out, buildHuffmanTree L text = .ok out ∧ out.bitsAfter ≤ 7 * text.length ∧
      out.bitsBefore = 8 * text.length ∧ out.bitsAfter < out.bitsBefore := by
  obtain ⟨out, ho, hf, _, hM, _, _, _, _, hr, _, _, _⟩ :=
    run_facts_bounded L text hne hascii hlen
  obtain ⟨_, _, _, _, _, _, _, _, _, _, hbb, hba⟩ := report_fields L text _ _ out hr
  rw [hf] at hM
  have h7 : out.bitsAfter ≤ 7 * text.length := by
    have := encoded_le_seven text hne hascii hlen out.root hM
    rw [hba]
    exact_mod_cast this
  have hpos : 0 < text.length := List.length_pos.2 hne
  refine ⟨out, ho, h7, ?_, ?_⟩
  · rw [hbb]; omega
  · rw [hbb]; omega

/-- A witness of `encoding_never_expands`: the text `"abracadabra"` with the reference
library. -/
theorem encoding_never_expands_witness :
    ∃ out, buildHuffmanTree refStl abracadabra = .ok out ∧
      out.bitsAfter ≤ 7 * abracadabra.length ∧
      out.bitsBefore = 8 * abracadabra.length ∧ out.bitsAfter < out.bitsBefore :=
  encoding_never_expands refStl abracadabra (by decide) (by decide) (by decide)

end Huffman
